import Mathlib

/-!
# MapReduce coordinator and worker: a shallow embedding

Embedding of `src/MapReduce/mr/coordinator.go` and `src/MapReduce/mr/worker.go`.

Conventions of the embedding:

* Go `int` is `Int`; `len` of a map, slice or channel is a `Nat`, cast when compared
  with an `int` field.
* A Go `map[int]V` is `GoMap V`: `none` is the nil map (the zero value of the type),
  `some l` an allocated map with association list `l`. Reading, `len` and `delete`
  work on a nil map, writing an entry panics.
* A Go `chan Task` is `GoChan`: `none` is the nil channel, `some ch` a channel with
  capacity `ch.cap` whose buffer is `ch.buf` (head = next task received). Every send
  and receive of the coordinator runs while no other goroutine can touch the channel
  (under `CLock`, or before any other goroutine exists), so a send that cannot
  proceed at once never proceeds: it is the fault `Fault.block`.
* `time.Time` is an `Int` (nanoseconds since the zero time, so the zero value is `0`);
  `time.Now()` is a parameter `now` of the operation that reads the clock.
* A handler that panics or blocks forever returns `Except.error`.
-/

namespace mr

/-! ## Go runtime values -/

/-- Ways an operation fails to return. -/
inductive Fault where
  | panic (msg : String)
  | block
  deriving DecidableEq, Repr

/-- Message of the Go runtime panic raised by a write into a nil map. -/
def nilMapMsg : String := "assignment to entry in nil map"

/-- Go `map[int]V`; `none` is the nil map. Entries are meant to have distinct keys;
the operations below keep them distinct. -/
abbrev GoMap (V : Type) := Option (List (Int × V))

namespace GoMap

/-- Go `len(m)`. -/
def len {V : Type} : GoMap V → Nat
  | none => 0
  | some l => l.length

/-- Lookup of key `k`, `none` when absent. -/
def find? {V : Type} : GoMap V → Int → Option V
  | none, _ => none
  | some l, k => (l.find? (fun e => e.1 == k)).map Prod.snd

/-- Go `m[k]` as an rvalue: the zero value `z` when the key is absent. -/
def get {V : Type} (z : V) (m : GoMap V) (k : Int) : V :=
  (find? m k).getD z

/-- Go `m[k] = v`: panics on the nil map, else replaces or adds the entry of `k`. -/
def set {V : Type} : GoMap V → Int → V → Except Fault (GoMap V)
  | none, _, _ => .error (.panic nilMapMsg)
  | some l, k, v => .ok (some (l.filter (fun e => e.1 != k) ++ [(k, v)]))

/-- Go `delete(m, k)`: a no-op on the nil map and on an absent key. -/
def delete {V : Type} : GoMap V → Int → GoMap V
  | none, _ => none
  | some l, k => some (l.filter (fun e => e.1 != k))

/-- Entries in the order a `range` loop visits them (unspecified in Go: any
order of the association list is a possible one). -/
def toList {V : Type} : GoMap V → List (Int × V)
  | none => []
  | some l => l

end GoMap

/-! ## Data model (`coordinator.go` lines 14-97, `rpc.go`) -/

/-- Worker state and job phase `Waiting = iota`. -/
abbrev Waiting : Int := 0
/-- Worker state and job phase `RunningMapTask`. -/
abbrev RunningMapTask : Int := 1
/-- Worker state and job phase `RunningReduceTask`. -/
abbrev RunningReduceTask : Int := 2
/-- Worker state and job phase `Exit` (the phase the specification calls Done). -/
abbrev Exit : Int := 3
/-- Task type `MapTsk = RunningMapTask`. -/
abbrev MapTsk : Int := RunningMapTask
/-- Task type `ReduceTsk = RunningReduceTask`. -/
abbrev ReduceTsk : Int := RunningReduceTask

/-- Task information (struct `Task`). -/
structure Task where
  TaskID : Int
  TaskType : Int
  BeginTime : Int
  MapTaskFile : String
  MapFilename : GoMap String
  MapIndex : Int
  ReduceIndex : Int
  ReduceNumber : Int
  ReduceFilename : List String
  oFilename : String
  deriving DecidableEq, Repr

/-- The zero value `Task{}`. -/
def Task.zero : Task :=
  { TaskID := 0, TaskType := 0, BeginTime := 0, MapTaskFile := "", MapFilename := none,
    MapIndex := 0, ReduceIndex := 0, ReduceNumber := 0, ReduceFilename := [],
    oFilename := "" }

/-- Worker information (struct `WorkerInfo`). -/
structure WorkerInfo where
  WorkerID : Int
  State : Int
  RunTask : Task
  ReduceNumber : Int
  deriving DecidableEq, Repr

/-- The zero value `WorkerInfo{}`. -/
def WorkerInfo.zero : WorkerInfo :=
  { WorkerID := 0, State := 0, RunTask := Task.zero, ReduceNumber := 0 }

/-- Argument of AskTaskRpc (struct `JobArgs`). -/
structure JobArgs where
  WorkerID : Int
  deriving DecidableEq, Repr

/-- A non-nil `chan Task` with its capacity and its buffered tasks. -/
structure Chan where
  cap : Nat
  buf : List Task
  deriving DecidableEq, Repr

/-- Go `chan Task`; `none` is the nil channel. -/
abbrev GoChan := Option Chan

namespace GoChan

/-- Go `len(ch)`: number of buffered tasks, `0` for the nil channel. -/
def len : GoChan → Nat
  | none => 0
  | some ch => ch.buf.length

/-- Buffered tasks, head first. -/
def queue : GoChan → List Task
  | none => []
  | some ch => ch.buf

/-- Go `ch <- t` with no concurrent receiver: blocks on the nil channel and on a
channel without free buffer space, else appends at the tail. -/
def send : GoChan → Task → Except Fault GoChan
  | none, _ => .error .block
  | some ch, t =>
    if ch.buf.length < ch.cap then .ok (some { ch with buf := ch.buf ++ [t] })
    else .error .block

/-- Go `<- ch` with no concurrent sender: blocks on the nil channel and on an empty
buffer, else takes the head. -/
def recv : GoChan → Except Fault (Task × GoChan)
  | none => .error .block
  | some ch =>
    match ch.buf with
    | [] => .error .block
    | t :: rest => .ok (t, some { ch with buf := rest })

end GoChan

/-- Map task queues (struct `MapTask`). -/
structure MapTask where
  MapNumber : Int
  WaitedTask : GoChan
  RunningTask : GoMap Task
  FinishedTask : List Task
  deriving DecidableEq, Repr

/-- Reduce task queues (struct `ReduceTask`). -/
structure ReduceTask where
  ReduceNumber : Int
  WaitedTask : GoChan
  RunningTask : GoMap Task
  FinishedTask : List Task
  deriving DecidableEq, Repr

/-- Coordinator state (`CLock` is not state of the sequential model: every
operation below runs as one atomic step). -/
structure Coordinator where
  JobPhase : Int
  Workers : GoMap WorkerInfo
  MapTasks : MapTask
  ReduceTasks : ReduceTask
  deriving DecidableEq, Repr

/-! ## `Coordinator.Done` (lines 242-253) -/

/-- Done of the coordinator: the state after the call and the returned `ret`. -/
def Done (c : Coordinator) : Coordinator × Bool :=
  let c1 : Coordinator :=
    if GoMap.len c.MapTasks.RunningTask = 0 ∧ GoMap.len c.ReduceTasks.RunningTask = 0
        ∧ c.JobPhase = ReduceTsk then
      { c with JobPhase := Exit }
    else c
  if GoMap.len c1.Workers = 0 ∧ c1.JobPhase = Exit then (c1, true) else (c1, false)

/-! ## `Coordinator.LoadReduceFiles` (lines 174-191) -/

/-- Inner loop of lines 177-179 over the entries of one `task.MapFilename`:
`ReduceFile[idx] = append(ReduceFile[idx], fileset)`. -/
def LoadReduceFiles.inner (rf : GoMap (List String)) :
    List (Int × String) → Except Fault (GoMap (List String))
  | [] => .ok rf
  | (idx, fileset) :: rest =>
    match GoMap.set rf idx (GoMap.get [] rf idx ++ [fileset]) with
    | .error e => .error e
    | .ok rf1 => LoadReduceFiles.inner rf1 rest

/-- Outer loop of lines 176-180 over `c.MapTasks.FinishedTask`. -/
def LoadReduceFiles.collect (rf : GoMap (List String)) :
    List Task → Except Fault (GoMap (List String))
  | [] => .ok rf
  | task :: rest =>
    match LoadReduceFiles.inner rf (GoMap.toList task.MapFilename) with
    | .error e => .error e
    | .ok rf1 => LoadReduceFiles.collect rf1 rest

/-- Reduce task built at lines 182-188 for index `i`. -/
def LoadReduceFiles.mkTask (ReduceNumber : Int) (rf : GoMap (List String)) (i : Nat) : Task :=
  { Task.zero with
    TaskID := i, TaskType := ReduceTsk, ReduceIndex := i, ReduceNumber := ReduceNumber,
    ReduceFilename := GoMap.get [] rf i }

/-- Loop of lines 181-190 over the indices still to visit:
`c.ReduceTasks.WaitedTask <- task`. -/
def LoadReduceFiles.enqueue (ReduceNumber : Int) (rf : GoMap (List String)) :
    List Nat → GoChan → Except Fault GoChan
  | [], ch => .ok ch
  | i :: rest, ch =>
    match GoChan.send ch (LoadReduceFiles.mkTask ReduceNumber rf i) with
    | .error e => .error e
    | .ok ch1 => LoadReduceFiles.enqueue ReduceNumber rf rest ch1

/-- LoadReduceFiles: `var ReduceFile map[int][]string` starts as the nil map and is
never allocated; `i` runs over `0 .. ReduceNumber-1` (no index when
`ReduceNumber <= 0`). -/
def LoadReduceFiles (c : Coordinator) : Except Fault Coordinator :=
  match LoadReduceFiles.collect none c.MapTasks.FinishedTask with
  | .error e => .error e
  | .ok rf =>
    match LoadReduceFiles.enqueue c.ReduceTasks.ReduceNumber rf
        (List.range c.ReduceTasks.ReduceNumber.toNat) c.ReduceTasks.WaitedTask with
    | .error e => .error e
    | .ok ch => .ok { c with ReduceTasks := { c.ReduceTasks with WaitedTask := ch } }

/-! ## `Coordinator.AskTaskRpc` (lines 102-142) -/

/-- Lines 114-141, run on the `WorkerInfo` value `r` that the local variable `reply`
points to at line 114. Returns the coordinator and the final content of that value. -/
def AskTaskRpc.body (c : Coordinator) (r : WorkerInfo) (now : Int) :
    Except Fault (Coordinator × WorkerInfo) :=
  if c.JobPhase = Exit then
    .ok ({ c with Workers := GoMap.delete c.Workers r.WorkerID }, { r with State := Exit })
  else if c.JobPhase = RunningMapTask ∧ GoChan.len c.MapTasks.WaitedTask > 0 then
    match GoChan.recv c.MapTasks.WaitedTask with
    | .error e => .error e
    | .ok (t, ch) =>
      match GoMap.set c.MapTasks.RunningTask t.TaskID t with
      | .error e => .error e
      | .ok rt =>
        .ok ({ c with MapTasks := { c.MapTasks with WaitedTask := ch, RunningTask := rt } },
             { r with State := RunningMapTask, RunTask := { t with BeginTime := now } })
  else if c.JobPhase = RunningReduceTask ∧ GoChan.len c.ReduceTasks.WaitedTask > 0 then
    match GoChan.recv c.ReduceTasks.WaitedTask with
    | .error e => .error e
    | .ok (t, ch) =>
      match GoMap.set c.ReduceTasks.RunningTask t.TaskID t with
      | .error e => .error e
      | .ok rt =>
        .ok ({ c with
                ReduceTasks := { c.ReduceTasks with WaitedTask := ch, RunningTask := rt } },
             { r with State := RunningReduceTask, RunTask := { t with BeginTime := now } })
  else if GoMap.len c.MapTasks.RunningTask > 0 ∨ GoMap.len c.ReduceTasks.RunningTask > 0 then
    .ok (c, { r with State := Waiting })
  else .ok (c, r)

/-- AskTaskRpc: `reply` is the value the caller's pointer refers to on entry; the
result is the coordinator and the content of the caller's value on return. On first
contact (line 108) the local pointer is rebound to a fresh `WorkerInfo`, so lines
114-141 write into that fresh value and the caller's value keeps its content. -/
def AskTaskRpc (c : Coordinator) (args : JobArgs) (reply : WorkerInfo) (now : Int) :
    Except Fault (Coordinator × WorkerInfo) :=
  if args.WorkerID = 0 then
    let w : Int := (GoMap.len c.Workers : Int) + 1
    let fresh : WorkerInfo := { WorkerInfo.zero with WorkerID := w }
    match GoMap.set c.Workers w fresh with
    | .error e => .error e
    | .ok ws =>
      match AskTaskRpc.body { c with Workers := ws } fresh now with
      | .error e => .error e
      | .ok (c1, _) => .ok (c1, reply)
  else
    AskTaskRpc.body c (GoMap.get WorkerInfo.zero c.Workers args.WorkerID) now

/-! ## `Coordinator.TaskDoneRpc` (lines 145-171) -/

/-- TaskDoneRpc: line 148 overwrites the caller's value with the registry record, so
the content `reply` had on entry is not used. -/
def TaskDoneRpc (c : Coordinator) (args : WorkerInfo) (_reply : WorkerInfo) :
    Except Fault (Coordinator × WorkerInfo) :=
  let r := GoMap.get WorkerInfo.zero c.Workers args.WorkerID
  if r.State = RunningMapTask then
    let c1 : Coordinator :=
      { c with MapTasks := { c.MapTasks with
          FinishedTask := c.MapTasks.FinishedTask ++ [r.RunTask],
          RunningTask := GoMap.delete c.MapTasks.RunningTask r.RunTask.TaskID } }
    if (c1.MapTasks.FinishedTask.length : Int) = c1.MapTasks.MapNumber then
      match LoadReduceFiles c1 with
      | .error e => .error e
      | .ok c2 => .ok ({ c2 with JobPhase := RunningReduceTask }, r)
    else .ok (c1, r)
  else if r.State = RunningReduceTask then
    let c1 : Coordinator :=
      { c with ReduceTasks := { c.ReduceTasks with
          FinishedTask := c.ReduceTasks.FinishedTask ++ [r.RunTask],
          RunningTask := GoMap.delete c.ReduceTasks.RunningTask r.RunTask.TaskID } }
    if (c1.ReduceTasks.FinishedTask.length : Int) = c1.ReduceTasks.ReduceNumber then
      .ok ({ c1 with JobPhase := Exit }, r)
    else .ok (c1, r)
  else .error (.panic "TaskDone Error")

/-! ## Timeout (lines 196-217) -/

/-- IsTimeout: `time.Now().Sub(w.RunTask.BeginTime) > time.Second * 10`, in
nanoseconds. (`Sub` saturates at the largest `Duration`, far above ten seconds, so
the comparison is the one on the exact difference.) -/
def WorkerInfo.IsTimeout (w : WorkerInfo) (now : Int) : Bool :=
  decide (now - w.RunTask.BeginTime > 10000000000)

/-- Loop of lines 202-216 over the registry entries still to visit. `info` is the
loop variable, a copy of the registry record: `info.State = Waiting` (line 213)
changes that copy only, so it leaves no trace in the coordinator. -/
def TimeOut.loop (now : Int) : List (Int × WorkerInfo) → Coordinator → Except Fault Coordinator
  | [], c => .ok c
  | (_, info) :: rest, c =>
    if info.IsTimeout now then
      if info.RunTask.TaskType = MapTsk then
        match GoChan.send c.MapTasks.WaitedTask info.RunTask with
        | .error e => .error e
        | .ok ch =>
          TimeOut.loop now rest
            { c with MapTasks := { c.MapTasks with
                WaitedTask := ch,
                RunningTask := GoMap.delete c.MapTasks.RunningTask info.RunTask.TaskID } }
      else if info.RunTask.TaskType = ReduceTsk then
        match GoChan.send c.ReduceTasks.WaitedTask info.RunTask with
        | .error e => .error e
        | .ok ch =>
          TimeOut.loop now rest
            { c with ReduceTasks := { c.ReduceTasks with
                WaitedTask := ch,
                RunningTask := GoMap.delete c.ReduceTasks.RunningTask info.RunTask.TaskID } }
      else TimeOut.loop now rest c
    else TimeOut.loop now rest c

/-- TimeOut: one sweep over `c.Workers`, the clock read as `now`. -/
def TimeOut (c : Coordinator) (now : Int) : Except Fault Coordinator :=
  TimeOut.loop now (GoMap.toList c.Workers) c

/-! ## `MakeCoordinator` (lines 256-281) -/

/-- Loop of lines 260-269 over the files still to visit, `fileIndex` being the index
of the first of them: `c.MapTasks.WaitedTask <- t`. -/
def MakeCoordinator.fill (nReduce : Int) : List String → Nat → GoChan → Except Fault GoChan
  | [], _, ch => .ok ch
  | filename :: rest, fileIndex, ch =>
    match GoChan.send ch
        { Task.zero with
          TaskID := fileIndex, TaskType := MapTsk, MapIndex := fileIndex,
          MapTaskFile := filename, ReduceNumber := nReduce } with
    | .error e => .error e
    | .ok ch1 => MakeCoordinator.fill nReduce rest (fileIndex + 1) ch1

/-- MakeCoordinator: `Coordinator{JobPhase: Waiting}` leaves every map and channel
field at its zero value (nil), and no line allocates them. `tmpDirOk` tells whether
the directory `mr-tmp` exists or can be created (lines 270-275). The timeout
goroutine and the RPC server started at lines 278-279 are outside the model. -/
def MakeCoordinator (files : List String) (nReduce : Int) (tmpDirOk : Bool) :
    Except Fault Coordinator :=
  let c : Coordinator :=
    { JobPhase := Waiting, Workers := none,
      MapTasks :=
        { MapNumber := files.length, WaitedTask := none, RunningTask := none,
          FinishedTask := [] },
      ReduceTasks :=
        { ReduceNumber := nReduce, WaitedTask := none, RunningTask := none,
          FinishedTask := [] } }
  match MakeCoordinator.fill nReduce files 0 c.MapTasks.WaitedTask with
  | .error e => .error e
  | .ok ch =>
    if tmpDirOk then
      .ok { c with MapTasks := { c.MapTasks with WaitedTask := ch }, JobPhase := RunningMapTask }
    else .error (.panic "create tmp folder error")

/-! ## Worker: the reduce step of `WorkReduce` (`worker.go` lines 18-27, 125-145) -/

/-- KeyValue: a key/value pair. -/
structure KeyValue where
  Key : String
  Value : String
  deriving DecidableEq, Repr

/-- Less of `ByKey`: `a[i].Key < a[j].Key`. -/
def ByKey.Less (a b : KeyValue) : Prop := a.Key < b.Key

instance (a b : KeyValue) : Decidable (ByKey.Less a b) := by
  unfold ByKey.Less; infer_instance

/-- Contract of the library call `sort.Sort(ByKey(l))`: the result is a rearrangement
of `l` in which no later element is `Less` than an earlier one. The library sort is
not stable, so nothing more is known about the order of equal keys. -/
def SortsByKey (sort : List KeyValue → List KeyValue) : Prop :=
  ∀ l, (sort l).Perm l ∧ (sort l).Pairwise (fun a b => ¬ ByKey.Less b a)

/-- Grouping loop of lines 130-145 on the part `intermediate[i:]` still to visit,
with `fuel` bounding the number of iterations of the outer loop. Each element of the
result is one call of `reducef`: the key `intermediate[i].Key` and the list `values`
of lines 136-139. -/
def WorkReduce.groups : Nat → List KeyValue → List (String × List String)
  | 0, _ => []
  | _, [] => []
  | fuel + 1, kv :: rest =>
    let run := rest.takeWhile (fun x => x.Key == kv.Key)
    (kv.Key, (kv :: run).map KeyValue.Value)
      :: WorkReduce.groups fuel (rest.dropWhile (fun x => x.Key == kv.Key))

/-- Line written at line 142 by `fmt.Fprintf(ofile, "%v %v\n", key, output)`. -/
def WorkReduce.line (key output : String) : String :=
  key ++ " " ++ output ++ "\n"

/-- Reduce step of WorkReduce (lines 125-145): sort the intermediate pairs, then run
the grouping loop (at most `len(intermediate)` outer iterations are needed) and write
one line per call of `reducef`. The result is the list of lines written to `ofile`. -/
def WorkReduce (sort : List KeyValue → List KeyValue)
    (reducef : String → List String → String) (intermediate : List KeyValue) : List String :=
  let sorted := sort intermediate
  (WorkReduce.groups sorted.length sorted).map
    (fun g => WorkReduce.line g.1 (reducef g.1 g.2))

/-- Insertion sort by key, one function that meets the contract `SortsByKey`. -/
def sortByKey (l : List KeyValue) : List KeyValue :=
  l.insertionSort (fun a b => a.Key ≤ b.Key)

/-! ## Worker: `ihash` and the map step of `WorkMap` (`worker.go` lines 31-35, 78-94) -/

/-- Bytes of the UTF-8 encoding of one character; `[]byte(key)` is the sequence of
these bytes over the characters of the key. -/
def utf8Bytes (c : Char) : List Nat :=
  if c.toNat < 128 then [c.toNat]
  else if c.toNat < 2048 then [192 + c.toNat / 64, 128 + c.toNat % 64]
  else if c.toNat < 65536 then
    [224 + c.toNat / 4096, 128 + c.toNat / 64 % 64, 128 + c.toNat % 64]
  else
    [240 + c.toNat / 262144, 128 + c.toNat / 4096 % 64, 128 + c.toNat / 64 % 64,
      128 + c.toNat % 64]

/-- Bytes of a key: `[]byte(key)`. -/
def keyBytes (key : String) : List Nat :=
  key.data.flatMap utf8Bytes

/-- The library hash `fnv.New32a()` after `Write(bytes)`, read by `Sum32()`: 32-bit
FNV-1a, which starts from the offset basis 2166136261 and for every byte xors the
byte in and multiplies by the prime 16777619, in `uint32` arithmetic. -/
def fnv32a (bytes : List Nat) : Nat :=
  bytes.foldl (fun h b => ((h ^^^ b) * 16777619) % 4294967296) 2166136261

/-- Partition function (worker.go lines 31-35): `int(h.Sum32() & 0x7fffffff)`. -/
def ihash (key : String) : Int :=
  ((fnv32a (keyBytes key) &&& 2147483647 : Nat) : Int)

/-- Line 88 of WorkMap: `ihash(kv.Key) % job.RunTask.ReduceNumber`, Go's remainder
(truncated towards zero). -/
def WorkMap.toFileIndex (key : String) (ReduceNumber : Int) : Int :=
  Int.tmod (ihash key) ReduceNumber

/-- Loop of lines 87-94 of WorkMap over the pairs still to write. `fileEnc i` is what
has been written through the encoder of index `i`; the slice of encoders has
`ReduceNumber` elements, so an index outside `0 .. ReduceNumber-1` panics, and so
does the remainder by zero. -/
def WorkMap.write {ρ : Type} (encode : KeyValue → ρ) (ReduceNumber : Int) :
    List KeyValue → (Nat → List ρ) → Except Fault (Nat → List ρ)
  | [], fileEnc => .ok fileEnc
  | kv :: rest, fileEnc =>
    if ReduceNumber = 0 then .error (.panic "integer divide by zero")
    else if 0 ≤ WorkMap.toFileIndex kv.Key ReduceNumber
        ∧ WorkMap.toFileIndex kv.Key ReduceNumber < ReduceNumber then
      WorkMap.write encode ReduceNumber rest
        (Function.update fileEnc (WorkMap.toFileIndex kv.Key ReduceNumber).toNat
          (fileEnc (WorkMap.toFileIndex kv.Key ReduceNumber).toNat ++ [encode kv]))
    else .error (.panic "index out of range")

/-- Map step of WorkMap (lines 78-94) for a task with input file `filename`, whose
content is `content`, and `ReduceNumber` partitions: call the map callable, sort, and
write every pair through the encoder of its partition. `encode` is the library's JSON
encoding of one pair. The result gives the content of each intermediate file by
partition index. (The check of the task type, the renaming of the files and the
report, lines 65-67 and 95-103, are not part of this step.) -/
def WorkMap {ρ : Type} (sort : List KeyValue → List KeyValue)
    (mapf : String → String → List KeyValue) (encode : KeyValue → ρ) (ReduceNumber : Int)
    (filename content : String) : Except Fault (Nat → List ρ) :=
  if ReduceNumber < 0 then .error (.panic "makeslice: len out of range")
  else WorkMap.write encode ReduceNumber (sort (mapf filename content)) (fun _ => [])

/-! ## Worker: reading the intermediate files in `WorkReduce` (lines 109-124) -/

/-- Loop of lines 116-122 over the records of one file: decode until the decoder
reports an error (end of file included). -/
def WorkReduce.readFile {ρ : Type} (decode : ρ → Option KeyValue) : List ρ → List KeyValue
  | [] => []
  | r :: rest =>
    match decode r with
    | none => []
    | some kv => kv :: WorkReduce.readFile decode rest

/-- Loop of lines 110-124 over the files of `ReduceFilename`, given by their
contents: `intermediate` after the loop. -/
def WorkReduce.readAll {ρ : Type} (decode : ρ → Option KeyValue) (files : List (List ρ)) :
    List KeyValue :=
  files.flatMap (WorkReduce.readFile decode)

/-! ## The sequential runner (`main/mrsequential.go` lines 35-78) -/

/-- Body of `main` after the plugin is loaded, for input files given as (name,
content): collect the pairs of every file, sort, and run the grouping loop of lines
59-78, which is the loop of `WorkReduce`. The result is the list of lines written to
`mr-out-0`. -/
def mrsequential (sort : List KeyValue → List KeyValue)
    (mapf : String → String → List KeyValue) (reducef : String → List String → String)
    (files : List (String × String)) : List String :=
  let intermediate := files.flatMap (fun f => mapf f.1 f.2)
  let sorted := sort intermediate
  (WorkReduce.groups sorted.length sorted).map
    (fun g => WorkReduce.line g.1 (reducef g.1 g.2))

/-! ## The word-count application (`mrfunc/wc.go`) -/

/-- Loop of the library function `strings.FieldsFunc` over the characters still to
read, `cur` being the field read so far: a maximal run of characters that do not
satisfy `f` is one field. -/
def strings.FieldsFunc.go (f : Char → Bool) : List Char → List Char → List String
  | [], cur => if cur = [] then [] else [String.mk cur]
  | c :: rest, cur =>
    if f c then
      if cur = [] then strings.FieldsFunc.go f rest []
      else String.mk cur :: strings.FieldsFunc.go f rest []
    else strings.FieldsFunc.go f rest (cur ++ [c])

/-- Library function `strings.FieldsFunc(s, f)`. -/
def strings.FieldsFunc (s : String) (f : Char → Bool) : List String :=
  strings.FieldsFunc.go f s.data []

/-- Map of the word-count application (wc.go lines 18-30); `isLetter` is the library
predicate `unicode.IsLetter`. -/
def mrfunc.Map (isLetter : Char → Bool) (_filename contents : String) : List KeyValue :=
  (strings.FieldsFunc contents (fun r => !isLetter r)).map
    (fun w => { Key := w, Value := "1" })

/-! ## The distributed data flow -/

/-- Run the map step on every file of `finished` (name and content), in that order. -/
def runMaps {ρ : Type} (sort : List KeyValue → List KeyValue)
    (mapf : String → String → List KeyValue) (encode : KeyValue → ρ) (ReduceNumber : Int) :
    List (String × String) → Except Fault (List (Nat → List ρ))
  | [] => .ok []
  | f :: rest =>
    match WorkMap sort mapf encode ReduceNumber f.1 f.2 with
    | .error e => .error e
    | .ok fileEnc =>
      match runMaps sort mapf encode ReduceNumber rest with
      | .error e => .error e
      | .ok maps => .ok (fileEnc :: maps)

/-- Output of the distributed run: the map step on every input file, `finished`
listing the files in the order in which their map tasks finished, then for each
partition `i` of `0 .. ReduceNumber-1` the reduce task that reads file `i` of every
map task in that order (the `ReduceFilename` that LoadReduceFiles is meant to build)
and runs the reduce step. Element `i` of the result is the list of lines of
`mr-out-i`. `decode` is the library's JSON decoding of one record. -/
def distributed {ρ : Type} (sort : List KeyValue → List KeyValue)
    (mapf : String → String → List KeyValue) (reducef : String → List String → String)
    (encode : KeyValue → ρ) (decode : ρ → Option KeyValue) (ReduceNumber : Int)
    (finished : List (String × String)) : Except Fault (List (List String)) :=
  match runMaps sort mapf encode ReduceNumber finished with
  | .error e => .error e
  | .ok maps =>
    .ok ((List.range ReduceNumber.toNat).map (fun i =>
      WorkReduce sort reducef (WorkReduce.readAll decode (maps.map (fun fileEnc => fileEnc i)))))

/-- All words of the input files, file after file, as the word-count Map splits
them. -/
def wordsOf (isLetter : Char → Bool) (files : List (String × String)) : List String :=
  files.flatMap (fun f => strings.FieldsFunc f.2 (fun r => !isLetter r))

/-- Library contract of the JSON encoder and decoder on a pair of strings: decoding
what was encoded gives the pair back. -/
def JsonRoundTrip {ρ : Type} (encode : KeyValue → ρ) (decode : ρ → Option KeyValue) : Prop :=
  ∀ kv, decode (encode kv) = some kv

/-! ## Concrete coordinator states -/

/-- A map task as queued for input file `a.txt` with one reduce partition. -/
def mapTaskA : Task :=
  { Task.zero with TaskID := 0, TaskType := MapTsk, MapIndex := 0, MapTaskFile := "a.txt",
                   ReduceNumber := 1 }

/-- The map task `mapTaskA` as reported after a run that produced the intermediate
file `mr-0-0` for partition 0. -/
def mapTaskADone : Task :=
  { mapTaskA with MapFilename := some [(0, "mr-0-0")] }

/-- The reduce task of partition 0 when there is one partition. -/
def reduceTask0 : Task :=
  { Task.zero with TaskID := 0, TaskType := ReduceTsk, ReduceIndex := 0, ReduceNumber := 1 }

/-- Phase Reduce, one reduce task still waiting in the queue, none in flight, none
finished, and no worker registered. -/
def reduceQueuedState : Coordinator :=
  { JobPhase := RunningReduceTask, Workers := some [],
    MapTasks :=
      { MapNumber := 1, WaitedTask := some { cap := 1, buf := [] }, RunningTask := some [],
        FinishedTask := [mapTaskA] },
    ReduceTasks :=
      { ReduceNumber := 1, WaitedTask := some { cap := 1, buf := [reduceTask0] },
        RunningTask := some [], FinishedTask := [] } }

/-- Phase Map, the only map task in flight on worker 1, whose registry record is in
state RunningMap and carries the task with its intermediate file. -/
def mapReportState : Coordinator :=
  { JobPhase := RunningMapTask,
    Workers := some [(1, { WorkerID := 1, State := RunningMapTask, RunTask := mapTaskADone,
                           ReduceNumber := 0 })],
    MapTasks :=
      { MapNumber := 1, WaitedTask := some { cap := 1, buf := [] },
        RunningTask := some [(0, mapTaskA)], FinishedTask := [] },
    ReduceTasks :=
      { ReduceNumber := 1, WaitedTask := some { cap := 1, buf := [] }, RunningTask := some [],
        FinishedTask := [] } }

/-- Phase Map, the map task `mapTaskA` at the head of the ready queue, nothing in
flight, worker 1 registered. -/
def mapQueuedState : Coordinator :=
  { JobPhase := RunningMapTask,
    Workers := some [(1, { WorkerInfo.zero with WorkerID := 1 })],
    MapTasks :=
      { MapNumber := 1, WaitedTask := some { cap := 1, buf := [mapTaskA] },
        RunningTask := some [], FinishedTask := [] },
    ReduceTasks :=
      { ReduceNumber := 1, WaitedTask := some { cap := 1, buf := [] }, RunningTask := some [],
        FinishedTask := [] } }

/-- Phase Exit with an allocated, empty registry. -/
def exitState : Coordinator :=
  { JobPhase := Exit, Workers := some [],
    MapTasks :=
      { MapNumber := 1, WaitedTask := some { cap := 1, buf := [] }, RunningTask := some [],
        FinishedTask := [mapTaskA] },
    ReduceTasks :=
      { ReduceNumber := 1, WaitedTask := some { cap := 1, buf := [] }, RunningTask := some [],
        FinishedTask := [reduceTask0] } }

/-- All map tasks finished (one, with an intermediate file), one reduce partition,
room for one task in the reduce queue. -/
def mapsFinishedState : Coordinator :=
  { JobPhase := RunningMapTask, Workers := some [],
    MapTasks :=
      { MapNumber := 1, WaitedTask := some { cap := 1, buf := [] }, RunningTask := some [],
        FinishedTask := [mapTaskADone] },
    ReduceTasks :=
      { ReduceNumber := 1, WaitedTask := some { cap := 1, buf := [] }, RunningTask := some [],
        FinishedTask := [] } }

/-- Phase Exit after worker 1 has left: only worker 2 is still registered. -/
def exitOneLeftState : Coordinator :=
  { exitState with Workers := some [(2, { WorkerInfo.zero with WorkerID := 2 })] }

/-- A second map task, recorded as handed out at time 0. -/
def mapTaskB : Task :=
  { Task.zero with TaskID := 1, TaskType := MapTsk, MapIndex := 1, MapTaskFile := "b.txt",
                   ReduceNumber := 1 }

/-- Phase Map with `mapTaskA` waiting in the queue and `mapTaskB` in flight on
worker 1, whose registry record carries it with BeginTime 0. -/
def stalledState : Coordinator :=
  { JobPhase := RunningMapTask,
    Workers := some [(1, { WorkerID := 1, State := RunningMapTask, RunTask := mapTaskB,
                           ReduceNumber := 0 })],
    MapTasks :=
      { MapNumber := 2, WaitedTask := some { cap := 2, buf := [mapTaskA] },
        RunningTask := some [(1, mapTaskB)], FinishedTask := [] },
    ReduceTasks :=
      { ReduceNumber := 1, WaitedTask := some { cap := 1, buf := [] }, RunningTask := some [],
        FinishedTask := [] } }

/-- Reduce of the word-count application (`mrfunc/wc.go` lines 33-35):
`strconv.Itoa(len(values))`. -/
def mrfunc.Reduce (_key : String) (values : List String) : String :=
  toString values.length

/-! ## Vocabulary of the statements -/

/-- Tasks of type `ty` that a sweep at time `now` over the registry entries `ws`
sends back to a ready queue: the `RunTask` of every timed-out record, in the order
the records are visited. -/
def TimeOut.reclaimed (ty : Int) (now : Int) (ws : List (Int × WorkerInfo)) : List Task :=
  (ws.filter (fun e => e.2.IsTimeout now && decide (e.2.RunTask.TaskType = ty))).map
    (fun e => e.2.RunTask)

/-- The channel can take `n` more sends without a receive in between (no send at all
is possible on the nil channel). -/
def GoChan.hasRoom : GoChan → Nat → Bool
  | _, 0 => true
  | none, _ + 1 => false
  | some ch, n + 1 => decide (ch.buf.length + (n + 1) ≤ ch.cap)

/-- The coordinator that `MakeCoordinator` returns for an empty file list and one
reduce partition: phase Map and every map and channel nil. -/
def builtState : Coordinator :=
  { JobPhase := RunningMapTask, Workers := none,
    MapTasks := { MapNumber := 0, WaitedTask := none, RunningTask := none,
                  FinishedTask := [] },
    ReduceTasks := { ReduceNumber := 1, WaitedTask := none, RunningTask := none,
                     FinishedTask := [] } }

/-- Phase Map after a sweep has sent `mapTaskB` back to the queue: the queue holds
`mapTaskA` and `mapTaskB`, nothing is in flight, and the registry record of worker 1
still carries `mapTaskB` with BeginTime 0. -/
def reclaimedState : Coordinator :=
  { JobPhase := RunningMapTask,
    Workers := some [(1, { WorkerID := 1, State := RunningMapTask, RunTask := mapTaskB,
                           ReduceNumber := 0 })],
    MapTasks :=
      { MapNumber := 2, WaitedTask := some { cap := 3, buf := [mapTaskA, mapTaskB] },
        RunningTask := some [], FinishedTask := [] },
    ReduceTasks :=
      { ReduceNumber := 1, WaitedTask := some { cap := 1, buf := [] }, RunningTask := some [],
        FinishedTask := [] } }

/-- Phase Exit with a registry record that says worker 1 is running the only map
task (which has no intermediate file), and no map task recorded as finished. -/
def lateMapReportState : Coordinator :=
  { JobPhase := Exit,
    Workers := some [(1, { WorkerID := 1, State := RunningMapTask, RunTask := mapTaskA,
                           ReduceNumber := 0 })],
    MapTasks :=
      { MapNumber := 1, WaitedTask := some { cap := 1, buf := [] }, RunningTask := some [],
        FinishedTask := [] },
    ReduceTasks :=
      { ReduceNumber := 1, WaitedTask := some { cap := 1, buf := [] }, RunningTask := some [],
        FinishedTask := [] } }

/-! ## Sequences of coordinator operations -/

/-- One operation on the coordinator, with the arguments of the call (and the clock
reading for the operations that read the clock). -/
inductive Op where
  | askTask (args : JobArgs) (reply : WorkerInfo) (now : Int)
  | taskDone (args : WorkerInfo) (reply : WorkerInfo)
  | timeOut (now : Int)
  | done
  | loadReduceFiles
  deriving DecidableEq, Repr

/-- Coordinator left by one operation that returns. -/
def Op.apply : Op → Coordinator → Except Fault Coordinator
  | .askTask args reply now, c =>
    match AskTaskRpc c args reply now with
    | .error e => .error e
    | .ok (c1, _) => .ok c1
  | .taskDone args reply, c =>
    match TaskDoneRpc c args reply with
    | .error e => .error e
    | .ok (c1, _) => .ok c1
  | .timeOut now, c => TimeOut c now
  | .done, c => .ok (Done c).1
  | .loadReduceFiles, c => LoadReduceFiles c

/-- Coordinator left by a sequence of operations run one after the other. A panic
ends the coordinator process and a blocked operation never releases `CLock`, so the
sequence goes on only while every operation returns. -/
def runOps : List Op → Coordinator → Except Fault Coordinator
  | [], c => .ok c
  | op :: rest, c =>
    match op.apply c with
    | .error e => .error e
    | .ok c1 => runOps rest c1

/-- Every record stored in the registry is as line 108 creates it: state Waiting and
the zero `Task`. -/
def RegistryFresh (c : Coordinator) : Prop :=
  ∀ e ∈ GoMap.toList c.Workers, e.2.State = Waiting ∧ e.2.RunTask = Task.zero

instance (c : Coordinator) : Decidable (RegistryFresh c) := by
  unfold RegistryFresh; infer_instance

/-- TaskIDs present in one phase's three collections: the ready queue, then the keys
of the in-flight map, then the finished list. -/
def taskIds (q : GoChan) (r : GoMap Task) (f : List Task) : List Int :=
  (GoChan.queue q).map Task.TaskID ++ (GoMap.toList r).map Prod.fst ++ f.map Task.TaskID

/-- No TaskID occurs twice among a phase's ready queue, in-flight map and finished
list, for the Map phase and for the Reduce phase: a task that is present is in
exactly one of the three collections, once. -/
def TasksPlacedOnce (c : Coordinator) : Prop :=
  (taskIds c.MapTasks.WaitedTask c.MapTasks.RunningTask c.MapTasks.FinishedTask).Nodup ∧
  (taskIds c.ReduceTasks.WaitedTask c.ReduceTasks.RunningTask
    c.ReduceTasks.FinishedTask).Nodup

instance (c : Coordinator) : Decidable (TasksPlacedOnce c) := by
  unfold TasksPlacedOnce; infer_instance

/-- The registry, both ready queues and both in-flight maps are nil and both finished
lists are empty: the coordinator as `Coordinator{JobPhase: Waiting}` creates it. -/
def Unallocated (c : Coordinator) : Prop :=
  c.Workers = none ∧ c.MapTasks.WaitedTask = none ∧ c.ReduceTasks.WaitedTask = none ∧
    c.MapTasks.RunningTask = none ∧ c.ReduceTasks.RunningTask = none ∧
    c.MapTasks.FinishedTask = [] ∧ c.ReduceTasks.FinishedTask = []

instance (c : Coordinator) : Decidable (Unallocated c) := by
  unfold Unallocated; infer_instance

/-- The coordinator `mapQueuedState` after AskTaskRpc has handed `mapTaskA` to worker
1: the queue is empty, the task is in flight, the registry is as before. -/
def mapHandedState : Coordinator :=
  { mapQueuedState with
    MapTasks :=
      { MapNumber := 1, WaitedTask := some { cap := 1, buf := [] },
        RunningTask := some [(0, mapTaskA)], FinishedTask := [] } }

/-- All map tasks finished (one, without any intermediate file), one reduce
partition, and the reduce queue never allocated (the nil channel). -/
def mapsFinishedNoQueueState : Coordinator :=
  { JobPhase := RunningMapTask, Workers := some [],
    MapTasks :=
      { MapNumber := 1, WaitedTask := some { cap := 1, buf := [] }, RunningTask := some [],
        FinishedTask := [mapTaskA] },
    ReduceTasks :=
      { ReduceNumber := 1, WaitedTask := none, RunningTask := some [], FinishedTask := [] } }

/-- The pair goes to partition `i` of `ReduceNumber`: line 88 of WorkMap gives it the
file index `i`. -/
def inPartition (ReduceNumber : Int) (i : Nat) (kv : KeyValue) : Bool :=
  decide (WorkMap.toFileIndex kv.Key ReduceNumber = (i : Int))

/-- All intermediate pairs of a run: the output of the map callable on every input
file, file after file. -/
def allPairs (mapf : String → String → List KeyValue) (files : List (String × String)) :
    List KeyValue :=
  files.flatMap (fun f => mapf f.1 f.2)

/-- What reduce task `i` reads in the distributed run: partition `i` of the sorted
output of every map task, in the order `finished` in which the map tasks finished. -/
def partitionInput (sort : List KeyValue → List KeyValue)
    (mapf : String → String → List KeyValue) (ReduceNumber : Int)
    (finished : List (String × String)) (i : Nat) : List KeyValue :=
  finished.flatMap (fun f => (sort (mapf f.1 f.2)).filter (inPartition ReduceNumber i))

/-- Keys of the successive calls of `reducef` in the reduce step on `intermediate`. -/
def WorkReduce.keys (sort : List KeyValue → List KeyValue) (intermediate : List KeyValue) :
    List String :=
  (WorkReduce.groups (sort intermediate).length (sort intermediate)).map Prod.fst

/-- Values of all pairs of `pairs` that carry the key `key`, in list order. -/
def valuesOf (pairs : List KeyValue) (key : String) : List String :=
  (pairs.filter (fun kv => kv.Key == key)).map KeyValue.Value

/-- The reduce callable gives the same result on any two arrangements of the same
values. -/
def OrderIndependent (reducef : String → List String → String) : Prop :=
  ∀ (key : String) (values values1 : List String),
    values.Perm values1 → reducef key values = reducef key values1

/-- The coordinator `mapQueuedState` after worker 1 has been handed `mapTaskA` and a
second worker has made first contact: task 0 is in flight, and the registry holds
the records of workers 1 and 2, both as created. -/
def twoWorkersState : Coordinator :=
  { mapHandedState with
    Workers := some [(1, { WorkerInfo.zero with WorkerID := 1 }),
                     (2, { WorkerInfo.zero with WorkerID := 2 })] }

/-- The phase is one of the four phases or below them; once it is Reduce or later, at
least `MapNumber` map tasks are recorded as finished (the count that line 153
compares when it moves the phase to Reduce); and before it is Reduce, no registry
record is in state RunningReduce. -/
def PhaseConsistent (c : Coordinator) : Prop :=
  c.JobPhase ≤ Exit ∧
  (RunningReduceTask ≤ c.JobPhase →
    c.MapTasks.MapNumber ≤ (c.MapTasks.FinishedTask.length : Int)) ∧
  (c.JobPhase < RunningReduceTask →
    ∀ e ∈ GoMap.toList c.Workers, e.2.State ≠ RunningReduceTask)

instance (c : Coordinator) : Decidable (PhaseConsistent c) := by
  unfold PhaseConsistent; infer_instance

/-- Phase Map with the only map task in flight on worker 1 and not yet reported; the
registry record of worker 1 is in state RunningMap and carries that task, which names
no intermediate file. -/
def mapReportReadyState : Coordinator :=
  { mapHandedState with
    Workers := some [(1, { WorkerID := 1, State := RunningMapTask, RunTask := mapTaskA,
                           ReduceNumber := 0 })] }

/-- The coordinator `mapReportReadyState` after worker 1 has reported its map task:
phase Reduce, the map task finished, the reduce task of partition 0 queued. -/
def reduceLoadedState : Coordinator :=
  { reduceQueuedState with Workers := mapReportReadyState.Workers }

/-- Phase Reduce with the reduce task of partition 0 already waiting in a queue that
has room for one more task; the only map task is finished and names no intermediate
file. -/
def reduceRequeuedState : Coordinator :=
  { reduceQueuedState with
    ReduceTasks :=
      { ReduceNumber := 1, WaitedTask := some { cap := 2, buf := [reduceTask0] },
        RunningTask := some [], FinishedTask := [] } }

/-! ## The worker on byte strings

A Go `string` is a sequence of bytes that need not be valid UTF-8. The definitions
of this section are the worker and the sequential runner once more, with keys,
values, file names and file contents as byte sequences, so that map callables which
emit arbitrary bytes can be stated. -/

/-- A Go `string`: its bytes. -/
structure GoString where
  bytes : List Nat
  deriving DecidableEq, Repr

/-- Go compares strings byte by byte (`<` on `string`): the lexicographic order of
the byte sequences, a proper initial part being smaller. -/
instance : LinearOrder GoString :=
  LinearOrder.lift' GoString.bytes (fun a b h => by cases a; cases b; cases h; rfl)

/-- Tables `first` and `acceptRanges` of the library package `unicode/utf8`: for a
byte that can start a rune of more than one byte, the size of the rune and the range
allowed for its second byte. -/
def utf8.lead (b : Nat) : Option (Nat × Nat × Nat) :=
  if 0xC2 ≤ b ∧ b ≤ 0xDF then some (2, 0x80, 0xBF)
  else if b = 0xE0 then some (3, 0xA0, 0xBF)
  else if (0xE1 ≤ b ∧ b ≤ 0xEC) ∨ b = 0xEE ∨ b = 0xEF then some (3, 0x80, 0xBF)
  else if b = 0xED then some (3, 0x80, 0x9F)
  else if b = 0xF0 then some (4, 0x90, 0xBF)
  else if 0xF1 ≤ b ∧ b ≤ 0xF3 then some (4, 0x80, 0xBF)
  else if b = 0xF4 then some (4, 0x80, 0x8F)
  else none

/-- Continuation byte of `unicode/utf8`: between `locb` and `hicb`. -/
def utf8.cont (b : Nat) : Bool := decide (0x80 ≤ b ∧ b ≤ 0xBF)

/-- Size that `utf8.DecodeRuneInString` reports for the rune at the head of bytes
that start with a byte of 128 or more, when that rune is validly encoded; `0` when
the library reports `RuneError` with size 1. -/
def utf8.validSize : List Nat → Nat
  | b0 :: b1 :: rest =>
    match utf8.lead b0 with
    | none => 0
    | some (sz, lo, hi) =>
      if lo ≤ b1 ∧ b1 ≤ hi then
        if sz = 2 then 2
        else
          match rest with
          | [] => 0
          | b2 :: rest2 =>
            if utf8.cont b2 then
              if sz = 3 then 3
              else
                match rest2 with
                | [] => 0
                | b3 :: _ => if utf8.cont b3 then 4 else 0
            else 0
      else 0
  | _ => 0

/-- Loop of the coercion over the bytes still to read, `skip` counting the bytes of
a valid rune that are still to be copied. -/
def json.coerce.go : Nat → List Nat → List Nat
  | _, [] => []
  | skip + 1, b :: rest => b :: json.coerce.go skip rest
  | 0, b :: rest =>
    if b < 128 then b :: json.coerce.go 0 rest
    else
      match utf8.validSize (b :: rest) with
      | 0 => [0xEF, 0xBF, 0xBD] ++ json.coerce.go 0 rest
      | n + 1 => b :: json.coerce.go n rest

/-- What the library package `encoding/json` makes of a Go string that is encoded
and decoded again: "String values encode as JSON strings coerced to valid UTF-8,
replacing invalid bytes with the Unicode replacement rune." Every validly encoded
rune stays as it is, and every other byte becomes the three bytes of U+FFFD. -/
def json.coerce (s : GoString) : GoString :=
  { bytes := json.coerce.go 0 s.bytes }

namespace raw

/-- KeyValue: a key/value pair of Go strings. -/
structure KeyValue where
  Key : GoString
  Value : GoString
  deriving DecidableEq, Repr

/-- Less of `ByKey`: `a[i].Key < a[j].Key`. -/
def ByKey.Less (a b : KeyValue) : Prop := a.Key < b.Key

instance (a b : KeyValue) : Decidable (ByKey.Less a b) := by
  unfold ByKey.Less; infer_instance

/-- Contract of the library call `sort.Sort(ByKey(l))`: a rearrangement of `l` in
which no later element is `Less` than an earlier one. -/
def SortsByKey (sort : List KeyValue → List KeyValue) : Prop :=
  ∀ l, (sort l).Perm l ∧ (sort l).Pairwise (fun a b => ¬ ByKey.Less b a)

/-- Insertion sort by key, one function that meets the contract `SortsByKey`. -/
def sortByKey (l : List KeyValue) : List KeyValue :=
  l.insertionSort (fun a b => a.Key ≤ b.Key)

/-- Grouping loop of `worker.go` lines 130-145 and `mrsequential.go` lines 59-78 on
the part of the sorted slice still to visit, `fuel` bounding the iterations of the
outer loop: one element per call of `reducef`, its key and its `values`. -/
def WorkReduce.groups : Nat → List KeyValue → List (GoString × List GoString)
  | 0, _ => []
  | _, [] => []
  | fuel + 1, kv :: rest =>
    let run := rest.takeWhile (fun x => x.Key == kv.Key)
    (kv.Key, (kv :: run).map KeyValue.Value)
      :: WorkReduce.groups fuel (rest.dropWhile (fun x => x.Key == kv.Key))

/-- Bytes written by `fmt.Fprintf(ofile, "%v %v\n", key, output)`: the key, a space,
the output and a newline. -/
def WorkReduce.line (key output : GoString) : List Nat :=
  key.bytes ++ [32] ++ output.bytes ++ [10]

/-- Reduce step of WorkReduce (`worker.go` lines 125-145): the lines written to
`ofile`. -/
def WorkReduce (sort : List KeyValue → List KeyValue)
    (reducef : GoString → List GoString → GoString) (intermediate : List KeyValue) :
    List (List Nat) :=
  let sorted := sort intermediate
  (WorkReduce.groups sorted.length sorted).map
    (fun g => WorkReduce.line g.1 (reducef g.1 g.2))

/-- Partition function (`worker.go` lines 31-35): `[]byte(key)` is the byte sequence
of the string itself. -/
def ihash (key : GoString) : Int :=
  ((fnv32a key.bytes &&& 2147483647 : Nat) : Int)

/-- Line 88 of WorkMap: `ihash(kv.Key) % job.RunTask.ReduceNumber`. -/
def WorkMap.toFileIndex (key : GoString) (ReduceNumber : Int) : Int :=
  Int.tmod (ihash key) ReduceNumber

/-- Loop of lines 87-94 of WorkMap over the pairs still to write, `fileEnc i` being
what has been written through the encoder of index `i`. -/
def WorkMap.write {ρ : Type} (encode : KeyValue → ρ) (ReduceNumber : Int) :
    List KeyValue → (Nat → List ρ) → Except Fault (Nat → List ρ)
  | [], fileEnc => .ok fileEnc
  | kv :: rest, fileEnc =>
    if ReduceNumber = 0 then .error (.panic "integer divide by zero")
    else if 0 ≤ WorkMap.toFileIndex kv.Key ReduceNumber
        ∧ WorkMap.toFileIndex kv.Key ReduceNumber < ReduceNumber then
      WorkMap.write encode ReduceNumber rest
        (Function.update fileEnc (WorkMap.toFileIndex kv.Key ReduceNumber).toNat
          (fileEnc (WorkMap.toFileIndex kv.Key ReduceNumber).toNat ++ [encode kv]))
    else .error (.panic "index out of range")

/-- Map step of WorkMap (lines 78-94): call the map callable on the file, sort, and
write every pair through the JSON encoder of its partition. -/
def WorkMap {ρ : Type} (sort : List KeyValue → List KeyValue)
    (mapf : GoString → GoString → List KeyValue) (encode : KeyValue → ρ)
    (ReduceNumber : Int) (filename content : GoString) : Except Fault (Nat → List ρ) :=
  if ReduceNumber < 0 then .error (.panic "makeslice: len out of range")
  else WorkMap.write encode ReduceNumber (sort (mapf filename content)) (fun _ => [])

/-- Loop of lines 116-122 of WorkReduce over the records of one file: decode until
the decoder reports an error. -/
def WorkReduce.readFile {ρ : Type} (decode : ρ → Option KeyValue) : List ρ → List KeyValue
  | [] => []
  | r :: rest =>
    match decode r with
    | none => []
    | some kv => kv :: WorkReduce.readFile decode rest

/-- Loop of lines 110-124 of WorkReduce over the files of `ReduceFilename`. -/
def WorkReduce.readAll {ρ : Type} (decode : ρ → Option KeyValue) (files : List (List ρ)) :
    List KeyValue :=
  files.flatMap (WorkReduce.readFile decode)

/-- Body of `main` of `mrsequential.go` (lines 35-78) for input files given as (name,
content): the lines written to `mr-out-0`. -/
def mrsequential (sort : List KeyValue → List KeyValue)
    (mapf : GoString → GoString → List KeyValue)
    (reducef : GoString → List GoString → GoString)
    (files : List (GoString × GoString)) : List (List Nat) :=
  let intermediate := files.flatMap (fun f => mapf f.1 f.2)
  let sorted := sort intermediate
  (WorkReduce.groups sorted.length sorted).map
    (fun g => WorkReduce.line g.1 (reducef g.1 g.2))

/-- Run the map step on every file of `finished`, in that order. -/
def runMaps {ρ : Type} (sort : List KeyValue → List KeyValue)
    (mapf : GoString → GoString → List KeyValue) (encode : KeyValue → ρ)
    (ReduceNumber : Int) :
    List (GoString × GoString) → Except Fault (List (Nat → List ρ))
  | [] => .ok []
  | f :: rest =>
    match WorkMap sort mapf encode ReduceNumber f.1 f.2 with
    | .error e => .error e
    | .ok fileEnc =>
      match runMaps sort mapf encode ReduceNumber rest with
      | .error e => .error e
      | .ok maps => .ok (fileEnc :: maps)

/-- Output of the distributed run: the map step on every input file, in the order
`finished` in which the map tasks finished, then for each partition `i` of
`0 .. ReduceNumber-1` the reduce step on file `i` of every map task. Element `i` of
the result is the list of lines of `mr-out-i`. -/
def distributed {ρ : Type} (sort : List KeyValue → List KeyValue)
    (mapf : GoString → GoString → List KeyValue)
    (reducef : GoString → List GoString → GoString)
    (encode : KeyValue → ρ) (decode : ρ → Option KeyValue) (ReduceNumber : Int)
    (finished : List (GoString × GoString)) : Except Fault (List (List (List Nat))) :=
  match runMaps sort mapf encode ReduceNumber finished with
  | .error e => .error e
  | .ok maps =>
    .ok ((List.range ReduceNumber.toNat).map (fun i =>
      WorkReduce sort reducef (WorkReduce.readAll decode (maps.map (fun fileEnc => fileEnc i)))))

/-- A pair after the JSON encoder and decoder: both strings coerced. -/
def json.roundTrip (kv : KeyValue) : KeyValue :=
  { Key := json.coerce kv.Key, Value := json.coerce kv.Value }

/-- Library contract of the JSON encoder and decoder on a pair of Go strings:
decoding what was encoded gives the pair with both strings coerced to valid UTF-8. -/
def JsonCoerces {ρ : Type} (encode : KeyValue → ρ) (decode : ρ → Option KeyValue) : Prop :=
  ∀ kv, decode (encode kv) = some (json.roundTrip kv)

/-- The pair goes to partition `i` of `ReduceNumber`. -/
def inPartition (ReduceNumber : Int) (i : Nat) (kv : KeyValue) : Bool :=
  decide (WorkMap.toFileIndex kv.Key ReduceNumber = (i : Int))

/-- All intermediate pairs of a run, file after file. -/
def allPairs (mapf : GoString → GoString → List KeyValue)
    (files : List (GoString × GoString)) : List KeyValue :=
  files.flatMap (fun f => mapf f.1 f.2)

/-- What reduce task `i` reads when the JSON round trip changes nothing. -/
def partitionInput (sort : List KeyValue → List KeyValue)
    (mapf : GoString → GoString → List KeyValue) (ReduceNumber : Int)
    (finished : List (GoString × GoString)) (i : Nat) : List KeyValue :=
  finished.flatMap (fun f => (sort (mapf f.1 f.2)).filter (inPartition ReduceNumber i))

/-- Keys of the successive calls of `reducef` in the reduce step. -/
def WorkReduce.keys (sort : List KeyValue → List KeyValue) (intermediate : List KeyValue) :
    List GoString :=
  (WorkReduce.groups (sort intermediate).length (sort intermediate)).map Prod.fst

/-- Values of all pairs of `pairs` that carry the key `key`, in list order. -/
def valuesOf (pairs : List KeyValue) (key : GoString) : List GoString :=
  (pairs.filter (fun kv => kv.Key == key)).map KeyValue.Value

/-- The reduce callable gives the same result on any two arrangements of the same
values. -/
def OrderIndependent (reducef : GoString → List GoString → GoString) : Prop :=
  ∀ (key : GoString) (values values1 : List GoString),
    values.Perm values1 → reducef key values = reducef key values1

/-- Every string that the map callable emits on the input files is valid UTF-8: the
JSON coercion leaves it as it is. -/
def EmitsValidUTF8 (mapf : GoString → GoString → List KeyValue)
    (files : List (GoString × GoString)) : Prop :=
  ∀ f ∈ files, ∀ kv ∈ mapf f.1 f.2, json.roundTrip kv = kv

instance (mapf : GoString → GoString → List KeyValue) (files : List (GoString × GoString)) :
    Decidable (EmitsValidUTF8 mapf files) := by
  unfold EmitsValidUTF8; infer_instance

/-- A reduce callable that counts: `strconv.Itoa(len(values))`, as the Reduce of the
word-count application does. -/
def countReduce (_key : GoString) (values : List GoString) : GoString :=
  { bytes := keyBytes (toString values.length) }

/-- A map callable that emits, whatever the file, the one-byte keys `"\\xff"` and
`"\\xfe"`, each with the value `"1"`. Neither key is valid UTF-8. -/
def twoBadKeysMap (_filename _contents : GoString) : List KeyValue :=
  [{ Key := { bytes := [0xFF] }, Value := { bytes := [49] } },
   { Key := { bytes := [0xFE] }, Value := { bytes := [49] } }]

/-- A map callable that emits the keys "the", "né" and "the" again, each with the
value "1"; "né" has a rune of two bytes. -/
def threeWordsMap (_filename _contents : GoString) : List KeyValue :=
  [{ Key := { bytes := [116, 104, 101] }, Value := { bytes := [49] } },
   { Key := { bytes := [110, 0xC3, 0xA9] }, Value := { bytes := [49] } },
   { Key := { bytes := [116, 104, 101] }, Value := { bytes := [49] } }]

end raw

/-! # Theorems -/

/-! ## `Done` -/

/-- C1 (as stated, refuted): in `reduceQueuedState` the phase on entry is Reduce, not
Done, and a reduce task is still waiting in the queue, yet `Done` returns true. -/
theorem Done_true_in_phase_reduce :
    reduceQueuedState.JobPhase = RunningReduceTask ∧ reduceQueuedState.JobPhase ≠ Exit ∧
      GoChan.queue reduceQueuedState.ReduceTasks.WaitedTask = [reduceTask0] ∧
      (Done reduceQueuedState).2 = true := by
  decide

/-- C1 (amended): `Done` returns true exactly when the worker registry is empty and
either the phase is Done (Exit) on entry, or the phase is Reduce on entry and neither
a map nor a reduce task is in flight (the call then moves the phase to Done itself);
in every other state it returns false. -/
theorem Done_true_iff (c : Coordinator) :
    (Done c).2 = true ↔
      GoMap.len c.Workers = 0 ∧
        (c.JobPhase = Exit ∨
          (c.JobPhase = ReduceTsk ∧ GoMap.len c.MapTasks.RunningTask = 0 ∧
            GoMap.len c.ReduceTasks.RunningTask = 0)) := by
  unfold Done
  by_cases h : GoMap.len c.MapTasks.RunningTask = 0 ∧ GoMap.len c.ReduceTasks.RunningTask = 0
      ∧ c.JobPhase = ReduceTsk
  · obtain ⟨h1, h2, h3⟩ := h
    by_cases hw : GoMap.len c.Workers = 0 <;> simp [h1, h2, h3, hw]
  · by_cases hw : GoMap.len c.Workers = 0
    · by_cases he : c.JobPhase = Exit
      · simp [h, hw, he]
      · simp only [h, if_false, hw, he, false_or, true_and, and_false]
        constructor
        · intro hh; simp at hh
        · rintro ⟨h3, h1, h2⟩; exact absurd ⟨h1, h2, h3⟩ h
    · simp [h, hw]

/-! ## Frame lemmas: what each operation leaves unchanged -/

theorem LoadReduceFiles_frame {c c1 : Coordinator} (h : LoadReduceFiles c = .ok c1) :
    c1.JobPhase = c.JobPhase ∧ c1.Workers = c.Workers ∧ c1.MapTasks = c.MapTasks ∧
      c1.ReduceTasks.ReduceNumber = c.ReduceTasks.ReduceNumber ∧
      c1.ReduceTasks.RunningTask = c.ReduceTasks.RunningTask ∧
      c1.ReduceTasks.FinishedTask = c.ReduceTasks.FinishedTask := by
  unfold LoadReduceFiles at h
  split at h
  · cases h
  · split at h
    · cases h
    · cases h
      exact ⟨rfl, rfl, rfl, rfl, rfl, rfl⟩

theorem AskTaskRpc.body_phase {c c1 : Coordinator} {r r1 : WorkerInfo} {now : Int}
    (h : AskTaskRpc.body c r now = .ok (c1, r1)) : c1.JobPhase = c.JobPhase := by
  unfold AskTaskRpc.body at h
  split_ifs at h
  · cases h; rfl
  · split at h
    · cases h
    · split at h
      · cases h
      · cases h; rfl
  · split at h
    · cases h
    · split at h
      · cases h
      · cases h; rfl
  · cases h; rfl
  · cases h; rfl

theorem AskTaskRpc_phase {c c1 : Coordinator} {args : JobArgs} {reply r1 : WorkerInfo}
    {now : Int} (h : AskTaskRpc c args reply now = .ok (c1, r1)) :
    c1.JobPhase = c.JobPhase := by
  unfold AskTaskRpc at h
  split_ifs at h
  · simp only at h
    split at h
    · cases h
    · split at h
      · cases h
      · rename_i hb
        cases h
        exact (AskTaskRpc.body_phase hb).trans rfl
  · exact AskTaskRpc.body_phase h

theorem TimeOut.loop_phase (now : Int) (ws : List (Int × WorkerInfo)) :
    ∀ {c c1 : Coordinator}, TimeOut.loop now ws c = .ok c1 → c1.JobPhase = c.JobPhase := by
  induction ws with
  | nil => intro c c1 h; cases h; rfl
  | cons e rest ih =>
    intro c c1 h
    obtain ⟨k, info⟩ := e
    unfold TimeOut.loop at h
    split_ifs at h
    · split at h
      · cases h
      · exact (ih h).trans rfl
    · split at h
      · cases h
      · exact (ih h).trans rfl
    · exact ih h
    · exact ih h

theorem TimeOut_phase {c c1 : Coordinator} {now : Int} (h : TimeOut c now = .ok c1) :
    c1.JobPhase = c.JobPhase :=
  TimeOut.loop_phase now _ h

/-! ## Phase transitions -/

theorem TaskDoneRpc_phase_exit_iff {c c1 : Coordinator} {args reply r1 : WorkerInfo}
    (hp : c.JobPhase ≠ Exit) (h : TaskDoneRpc c args reply = .ok (c1, r1)) :
    c1.JobPhase = Exit ↔
      (GoMap.get WorkerInfo.zero c.Workers args.WorkerID).State = RunningReduceTask ∧
        (c1.ReduceTasks.FinishedTask.length : Int) = c1.ReduceTasks.ReduceNumber := by
  unfold TaskDoneRpc at h
  simp only at h
  split_ifs at h with hm hl hr hl
  · split at h
    · cases h
    · cases h
      have : ¬ (RunningMapTask = RunningReduceTask) := by decide
      simp [hm]
  · cases h
    have : ¬ (RunningMapTask = RunningReduceTask) := by decide
    simpa [hm] using hp
  · cases h
    simpa [hr] using hl
  · cases h
    simpa [hr, hp] using hl

theorem TaskDoneRpc_reduce_report_returns (c : Coordinator) (args reply : WorkerInfo)
    (hr : (GoMap.get WorkerInfo.zero c.Workers args.WorkerID).State = RunningReduceTask) :
    ∃ x, TaskDoneRpc c args reply = .ok x := by
  unfold TaskDoneRpc
  have hm : ¬ (GoMap.get WorkerInfo.zero c.Workers args.WorkerID).State = RunningMapTask := by
    rw [hr]; decide
  simp only []
  rw [if_neg hm, if_pos hr]
  split_ifs
  · exact ⟨_, rfl⟩
  · exact ⟨_, rfl⟩

theorem Done_fst (c : Coordinator) :
    (Done c).1 =
      if GoMap.len c.MapTasks.RunningTask = 0 ∧ GoMap.len c.ReduceTasks.RunningTask = 0
          ∧ c.JobPhase = ReduceTsk then
        { c with JobPhase := Exit }
      else c := by
  unfold Done
  simp only []
  split_ifs <;> rfl

theorem Done_phase_exit_iff (c : Coordinator) (hp : c.JobPhase = RunningReduceTask) :
    (Done c).1.JobPhase = Exit ↔
      GoMap.len c.MapTasks.RunningTask = 0 ∧ GoMap.len c.ReduceTasks.RunningTask = 0 := by
  have hne : ¬ (c.JobPhase = Exit) := by rw [hp]; decide
  rw [Done_fst]
  split_ifs with h
  · exact ⟨fun _ => ⟨h.1, h.2.1⟩, fun _ => rfl⟩
  · exact ⟨fun he => absurd he hne, fun hh => absurd ⟨hh.1, hh.2, hp⟩ h⟩

/-- C2 (as stated, refuted): in `reduceQueuedState` the phase is Reduce and no reduce
task has finished (0 of 1), yet `Done` moves the phase to Done (Exit). -/
theorem Done_exits_before_reduce_finished :
    reduceQueuedState.JobPhase = RunningReduceTask ∧
      (Done reduceQueuedState).1.JobPhase = Exit ∧
      ((Done reduceQueuedState).1.ReduceTasks.FinishedTask.length : Int) ≠
        (Done reduceQueuedState).1.ReduceTasks.ReduceNumber := by
  decide

/-- C2 (amended): from a state in phase Reduce, a returning AskTaskRpc or TimeOut
leaves the phase at Reduce; a returning TaskDoneRpc leaves the phase at Done (Exit)
exactly when the reporting worker's record is in state RunningReduce and the number
of finished reduce tasks after the call equals ReduceNumber, and such a reduce
report always returns; Done leaves the phase at Done (Exit) exactly when no map and
no reduce task is in flight on entry, whatever the finished count. -/
theorem phase_reduce_step (c : Coordinator) (hp : c.JobPhase = RunningReduceTask) :
    (∀ args reply now c1 r1, AskTaskRpc c args reply now = .ok (c1, r1) →
        c1.JobPhase = RunningReduceTask) ∧
    (∀ now c1, TimeOut c now = .ok c1 → c1.JobPhase = RunningReduceTask) ∧
    (∀ args reply c1 r1, TaskDoneRpc c args reply = .ok (c1, r1) →
        (c1.JobPhase = Exit ↔
          (GoMap.get WorkerInfo.zero c.Workers args.WorkerID).State = RunningReduceTask ∧
            (c1.ReduceTasks.FinishedTask.length : Int) = c1.ReduceTasks.ReduceNumber)) ∧
    (∀ args reply,
        (GoMap.get WorkerInfo.zero c.Workers args.WorkerID).State = RunningReduceTask →
        ∃ x, TaskDoneRpc c args reply = .ok x) ∧
    ((Done c).1.JobPhase = Exit ↔
      GoMap.len c.MapTasks.RunningTask = 0 ∧ GoMap.len c.ReduceTasks.RunningTask = 0) := by
  have hne : c.JobPhase ≠ Exit := by rw [hp]; decide
  refine ⟨?_, ?_, ?_, ?_, Done_phase_exit_iff c hp⟩
  · intro args reply now c1 r1 h
    rw [AskTaskRpc_phase h, hp]
  · intro now c1 h
    rw [TimeOut_phase h, hp]
  · intro args reply c1 r1 h
    exact TaskDoneRpc_phase_exit_iff hne h
  · intro args reply hr
    exact TaskDoneRpc_reduce_report_returns c args reply hr

/-- Witness for C2 (amended): `phase_reduce_step` at `reduceQueuedState`. -/
theorem phase_reduce_step_witness :
    reduceQueuedState.JobPhase = RunningReduceTask ∧
    ((∀ args reply now c1 r1, AskTaskRpc reduceQueuedState args reply now = .ok (c1, r1) →
        c1.JobPhase = RunningReduceTask) ∧
    (∀ now c1, TimeOut reduceQueuedState now = .ok c1 → c1.JobPhase = RunningReduceTask) ∧
    (∀ args reply c1 r1, TaskDoneRpc reduceQueuedState args reply = .ok (c1, r1) →
        (c1.JobPhase = Exit ↔
          (GoMap.get WorkerInfo.zero reduceQueuedState.Workers args.WorkerID).State
              = RunningReduceTask ∧
            (c1.ReduceTasks.FinishedTask.length : Int) = c1.ReduceTasks.ReduceNumber)) ∧
    (∀ args reply,
        (GoMap.get WorkerInfo.zero reduceQueuedState.Workers args.WorkerID).State
            = RunningReduceTask →
        ∃ x, TaskDoneRpc reduceQueuedState args reply = .ok x) ∧
    ((Done reduceQueuedState).1.JobPhase = Exit ↔
      GoMap.len reduceQueuedState.MapTasks.RunningTask = 0 ∧
        GoMap.len reduceQueuedState.ReduceTasks.RunningTask = 0)) :=
  ⟨by decide, phase_reduce_step reduceQueuedState (by decide)⟩

theorem TaskDoneRpc_phase_reduce_iff {c c1 : Coordinator} {args reply r1 : WorkerInfo}
    (hp : c.JobPhase = RunningMapTask) (h : TaskDoneRpc c args reply = .ok (c1, r1)) :
    c1.JobPhase = RunningReduceTask ↔
      (GoMap.get WorkerInfo.zero c.Workers args.WorkerID).State = RunningMapTask ∧
        (c1.MapTasks.FinishedTask.length : Int) = c1.MapTasks.MapNumber := by
  have h12 : ¬ (RunningMapTask = RunningReduceTask) := by decide
  have h32 : ¬ (Exit = RunningReduceTask) := by decide
  unfold TaskDoneRpc at h
  simp only at h
  split_ifs at h with hm hl hr hl
  · split at h
    · cases h
    · rename_i c2 hload
      cases h
      obtain ⟨-, -, hmt, -⟩ := LoadReduceFiles_frame hload
      refine ⟨fun _ => ⟨hm, ?_⟩, fun _ => rfl⟩
      show (c2.MapTasks.FinishedTask.length : Int) = c2.MapTasks.MapNumber
      rw [hmt]
      exact hl
  · cases h
    constructor
    · intro hh
      exact absurd (hp.symm.trans hh) h12
    · rintro ⟨-, hh⟩
      exact absurd hh hl
  · cases h
    constructor
    · intro hh
      exact absurd hh h32
    · rintro ⟨hh, -⟩
      exact absurd hh hm
  · cases h
    constructor
    · intro hh
      exact absurd (hp.symm.trans hh) h12
    · rintro ⟨hh, -⟩
      exact absurd hh hm

/-- Support for C3: from a state in phase Map, among the operations that return, only
a map completion report after which the finished-map count equals MapNumber leaves
the phase at Reduce; AskTaskRpc, TimeOut and Done leave the phase at Map. -/
theorem phase_map_step_of_returns (c : Coordinator) (hp : c.JobPhase = RunningMapTask) :
    (∀ args reply now c1 r1, AskTaskRpc c args reply now = .ok (c1, r1) →
        c1.JobPhase = RunningMapTask) ∧
    (∀ now c1, TimeOut c now = .ok c1 → c1.JobPhase = RunningMapTask) ∧
    (∀ args reply c1 r1, TaskDoneRpc c args reply = .ok (c1, r1) →
        (c1.JobPhase = RunningReduceTask ↔
          (GoMap.get WorkerInfo.zero c.Workers args.WorkerID).State = RunningMapTask ∧
            (c1.MapTasks.FinishedTask.length : Int) = c1.MapTasks.MapNumber)) ∧
    (Done c).1.JobPhase = RunningMapTask := by
  refine ⟨?_, ?_, ?_, ?_⟩
  · intro args reply now c1 r1 h
    rw [AskTaskRpc_phase h, hp]
  · intro now c1 h
    rw [TimeOut_phase h, hp]
  · intro args reply c1 r1 h
    exact TaskDoneRpc_phase_reduce_iff hp h
  · rw [Done_fst]
    have : ¬ (c.JobPhase = ReduceTsk) := by rw [hp]; decide
    rw [if_neg (fun hh => this hh.2.2)]
    exact hp

/-- C3 (failing input): `mapReportState` is in phase Map, worker 1 is recorded as
running the only map task, and its report makes the finished-map count equal
MapNumber (0 + 1 = 1); yet TaskDoneRpc does not reach `c.JobPhase = RunningReduceTask`:
LoadReduceFiles panics on the write into its nil `ReduceFile` map. -/
theorem TaskDoneRpc_last_map_report_panics :
    mapReportState.JobPhase = RunningMapTask ∧
      (GoMap.get WorkerInfo.zero mapReportState.Workers 1).State = RunningMapTask ∧
      ((mapReportState.MapTasks.FinishedTask.length : Int) + 1
        = mapReportState.MapTasks.MapNumber) ∧
      TaskDoneRpc mapReportState { WorkerInfo.zero with WorkerID := 1 } WorkerInfo.zero
        = .error (.panic nilMapMsg) := by
  refine ⟨by decide, by decide, by decide, rfl⟩

/-! ## `MakeCoordinator` -/

/-- C4 (failing input, every non-empty file list): MakeCoordinator never returns when
at least one input file is given: the first `c.MapTasks.WaitedTask <- t` is a send on
the nil channel of the freshly built coordinator, which blocks forever. -/
theorem MakeCoordinator_blocks (filename : String) (rest : List String) (nReduce : Int)
    (tmpDirOk : Bool) :
    MakeCoordinator (filename :: rest) nReduce tmpDirOk = .error .block := by
  rfl

/-- With no input file the constructor returns (when `mr-tmp` is available): phase
Map, MapNumber 0, and every map and channel still nil. -/
theorem MakeCoordinator_nil (nReduce : Int) :
    MakeCoordinator [] nReduce true =
      .ok { JobPhase := RunningMapTask, Workers := none,
            MapTasks := { MapNumber := 0, WaitedTask := none, RunningTask := none,
                          FinishedTask := [] },
            ReduceTasks := { ReduceNumber := nReduce, WaitedTask := none,
                             RunningTask := none, FinishedTask := [] } } := by
  rfl

/-! ## `AskTaskRpc` -/

/-- C5 (failing input): in `mapQueuedState` (phase Map, `mapTaskA` at the head of the
queue, worker 1 registered) AskTaskRpc at time 5 replies RunningMap with the head
task stamped 5 and removes it from the queue, but the entry it stores in
`MapTasks.RunningTask` is the task as dequeued, with BeginTime 0: line 124 copies the
task into the map before line 125 stamps the reply. -/
theorem AskTaskRpc_running_entry_unstamped :
    ∃ c1 r1, AskTaskRpc mapQueuedState { WorkerID := 1 } WorkerInfo.zero 5 = .ok (c1, r1) ∧
      r1.State = RunningMapTask ∧ r1.RunTask = { mapTaskA with BeginTime := 5 } ∧
      GoChan.queue c1.MapTasks.WaitedTask = [] ∧
      GoMap.find? c1.MapTasks.RunningTask mapTaskA.TaskID = some mapTaskA ∧
      mapTaskA.BeginTime = 0 ∧ mapTaskA ≠ r1.RunTask :=
  ⟨_, _, rfl, rfl, rfl, rfl, rfl, rfl, by decide⟩

/-- C6 (failing input): in `exitState` (phase Exit, empty registry) a first-contact
AskTaskRpc (WorkerID 0) leaves the caller's reply as it was passed in, so the caller
reads state Waiting and not Exit: line 108 rebinds `reply` to a fresh value and line
116 sets `State = Exit` on that fresh value only. -/
theorem AskTaskRpc_first_contact_exit_not_delivered :
    exitState.JobPhase = Exit ∧
      AskTaskRpc exitState { WorkerID := 0 } WorkerInfo.zero 0
        = .ok (exitState, WorkerInfo.zero) ∧
      WorkerInfo.zero.State = Waiting ∧ WorkerInfo.zero.State ≠ Exit := by
  refine ⟨by decide, rfl, by decide, by decide⟩

/-! ## `LoadReduceFiles` -/

/-- C9 (failing input): in `mapsFinishedState` (one finished map task with the file
`mr-0-0` for partition 0, ReduceNumber 1, room in the reduce queue) LoadReduceFiles
enqueues nothing: it panics at `ReduceFile[idx] = ...`, a write into the nil map
declared at line 175. -/
theorem LoadReduceFiles_panics_on_intermediate_file :
    mapsFinishedState.ReduceTasks.ReduceNumber = 1 ∧
      (mapsFinishedState.MapTasks.FinishedTask.map
        (fun t => GoMap.find? t.MapFilename 0)) = [some "mr-0-0"] ∧
      LoadReduceFiles mapsFinishedState = .error (.panic nilMapMsg) := by
  refine ⟨by decide, by decide, rfl⟩

/-! ## Lookup after a write or a delete -/

theorem GoMap.find_filter_ne_self {V : Type} (l : List (Int × V)) (k : Int) :
    (l.filter (fun e => e.1 != k)).find? (fun e => e.1 == k) = none := by
  induction l with
  | nil => rfl
  | cons e rest ih =>
    by_cases h : e.1 = k
    · simp [List.filter_cons, h, ih]
    · simp [List.filter_cons, h, List.find?_cons, ih]

theorem GoMap.find_filter_ne_other {V : Type} (l : List (Int × V)) {j k : Int} (hjk : j ≠ k) :
    (l.filter (fun e => e.1 != k)).find? (fun e => e.1 == j) =
      l.find? (fun e => e.1 == j) := by
  induction l with
  | nil => rfl
  | cons e rest ih =>
    by_cases h : e.1 = k
    · have hj : ¬ e.1 = j := fun hh => hjk (hh.symm.trans h)
      simp [List.filter_cons, h, List.find?_cons, hj, ih, hjk.symm]
    · by_cases hj : e.1 = j
      · simp [List.filter_cons, h, List.find?_cons, hj, hjk]
      · simp [List.filter_cons, h, List.find?_cons, hj, ih]

theorem GoMap.find_set_self {V : Type} {m m1 : GoMap V} {k : Int} {v : V}
    (h : GoMap.set m k v = .ok m1) : GoMap.find? m1 k = some v := by
  cases m with
  | none => cases h
  | some l =>
    cases h
    simp [GoMap.find?, List.find?_append, GoMap.find_filter_ne_self]

theorem GoMap.find_set_other {V : Type} {m m1 : GoMap V} {j k : Int} {v : V}
    (h : GoMap.set m k v = .ok m1) (hjk : j ≠ k) : GoMap.find? m1 j = GoMap.find? m j := by
  cases m with
  | none => cases h
  | some l =>
    cases h
    simp [GoMap.find?, List.find?_append, GoMap.find_filter_ne_other l hjk, hjk.symm]

theorem GoMap.find_delete_self {V : Type} (m : GoMap V) (k : Int) :
    GoMap.find? (GoMap.delete m k) k = none := by
  cases m with
  | none => rfl
  | some l => simp [GoMap.find?, GoMap.delete, GoMap.find_filter_ne_self]

theorem GoMap.find_delete_other {V : Type} (m : GoMap V) {j k : Int} (hjk : j ≠ k) :
    GoMap.find? (GoMap.delete m k) j = GoMap.find? m j := by
  cases m with
  | none => rfl
  | some l => simp [GoMap.find?, GoMap.delete, GoMap.find_filter_ne_other l hjk]

theorem GoMap.find_delete_none {V : Type} (m : GoMap V) {j : Int} (k : Int)
    (h : GoMap.find? m j = none) : GoMap.find? (GoMap.delete m k) j = none := by
  by_cases hjk : j = k
  · subst hjk; exact GoMap.find_delete_self m j
  · rw [GoMap.find_delete_other m hjk]; exact h

/-! ## First contact and the registry -/

theorem GoChan.recv_of_len_pos {ch : GoChan} (h : GoChan.len ch > 0) :
    ∃ t q, GoChan.recv ch = .ok (t, q) ∧ GoChan.queue ch = t :: GoChan.queue q := by
  cases ch with
  | none => simp [GoChan.len] at h
  | some q =>
    obtain ⟨cap, buf⟩ := q
    cases buf with
    | nil => simp [GoChan.len] at h
    | cons t rest => exact ⟨t, _, rfl, rfl⟩

theorem GoMap.set_of_ne_none {V : Type} {m : GoMap V} (h : m ≠ none) (k : Int) (v : V) :
    ∃ m1, GoMap.set m k v = .ok m1 ∧ m1 ≠ none := by
  cases m with
  | none => exact absurd rfl h
  | some l => exact ⟨_, rfl, by simp⟩

/-- On a coordinator whose two in-flight maps are allocated, lines 114-141 return, and
they change the registry only in phase Exit, by deleting the entry of `r.WorkerID`. -/
theorem AskTaskRpc.body_registry (c : Coordinator) (r : WorkerInfo) (now : Int)
    (hm : c.MapTasks.RunningTask ≠ none) (hr : c.ReduceTasks.RunningTask ≠ none) :
    ∃ c1 r1, AskTaskRpc.body c r now = .ok (c1, r1) ∧
      c1.Workers = if c.JobPhase = Exit then GoMap.delete c.Workers r.WorkerID
                   else c.Workers := by
  unfold AskTaskRpc.body
  split_ifs with h1 h2 h3 h4
  · exact ⟨_, _, rfl, rfl⟩
  · obtain ⟨t, q, hq, -⟩ := GoChan.recv_of_len_pos h2.2
    obtain ⟨m1, hs, -⟩ := GoMap.set_of_ne_none hm t.TaskID t
    simp only [hq, hs]
    exact ⟨_, _, rfl, rfl⟩
  · obtain ⟨t, q, hq, -⟩ := GoChan.recv_of_len_pos h3.2
    obtain ⟨m1, hs, -⟩ := GoMap.set_of_ne_none hr t.TaskID t
    simp only [hq, hs]
    exact ⟨_, _, rfl, rfl⟩
  · exact ⟨_, _, rfl, rfl⟩
  · exact ⟨_, _, rfl, rfl⟩

/-- C7 (as stated, refuted): in `exitOneLeftState` the registry holds one record, that
of worker 2; a first contact is given the id `len(c.Workers)+1 = 2`, the id of that
record, and after the call worker 2 has no record any more. -/
theorem AskTaskRpc_first_contact_reuses_id :
    GoMap.find? exitOneLeftState.Workers 2 = some { WorkerInfo.zero with WorkerID := 2 } ∧
      (GoMap.len exitOneLeftState.Workers : Int) + 1 = 2 ∧
      ∃ c1, AskTaskRpc exitOneLeftState { WorkerID := 0 } WorkerInfo.zero 0
              = .ok (c1, WorkerInfo.zero) ∧
        GoMap.find? c1.Workers 2 = none :=
  ⟨rfl, by decide, _, rfl, rfl⟩

/-- C7 (amended): on a coordinator whose registry and in-flight maps are allocated, a
first-contact AskTaskRpc returns; the id it allocates is `len(c.Workers)+1`, which is
non-zero; outside phase Exit the registry then holds the fresh record under that id
(in phase Exit the entry of that id is deleted again); and every record stored under
any other id is left as it was. So an existing record is overwritten or removed only
when it is stored under the id `len(c.Workers)+1`. -/
theorem AskTaskRpc_first_contact_registry (c : Coordinator) (reply : WorkerInfo) (now : Int)
    (hw : c.Workers ≠ none) (hm : c.MapTasks.RunningTask ≠ none)
    (hr : c.ReduceTasks.RunningTask ≠ none) :
    ∃ c1, AskTaskRpc c { WorkerID := 0 } reply now = .ok (c1, reply) ∧
      (GoMap.len c.Workers : Int) + 1 ≠ 0 ∧
      (c.JobPhase ≠ Exit →
        GoMap.find? c1.Workers ((GoMap.len c.Workers : Int) + 1) =
          some { WorkerInfo.zero with WorkerID := (GoMap.len c.Workers : Int) + 1 }) ∧
      (c.JobPhase = Exit →
        GoMap.find? c1.Workers ((GoMap.len c.Workers : Int) + 1) = none) ∧
      (∀ k : Int, k ≠ (GoMap.len c.Workers : Int) + 1 →
        GoMap.find? c1.Workers k = GoMap.find? c.Workers k) := by
  obtain ⟨ws, hs, -⟩ := GoMap.set_of_ne_none hw ((GoMap.len c.Workers : Int) + 1)
    { WorkerInfo.zero with WorkerID := (GoMap.len c.Workers : Int) + 1 }
  obtain ⟨c1, r1, hb, hreg⟩ := AskTaskRpc.body_registry { c with Workers := ws }
    { WorkerInfo.zero with WorkerID := (GoMap.len c.Workers : Int) + 1 } now hm hr
  refine ⟨c1, ?_, by omega, ?_, ?_, ?_⟩
  · unfold AskTaskRpc
    simp only [if_true, hs, hb]
  · intro hp
    rw [hreg, if_neg hp]
    exact GoMap.find_set_self hs
  · intro hp
    rw [hreg, if_pos hp]
    exact GoMap.find_delete_self _ _
  · intro k hk
    rw [hreg]
    split_ifs
    · rw [GoMap.find_delete_other _ hk]
      exact GoMap.find_set_other hs hk
    · exact GoMap.find_set_other hs hk

/-- Witness for C7 (amended): `AskTaskRpc_first_contact_registry` at `mapQueuedState`. -/
theorem AskTaskRpc_first_contact_registry_witness :
    (mapQueuedState.Workers ≠ none ∧ mapQueuedState.MapTasks.RunningTask ≠ none ∧
      mapQueuedState.ReduceTasks.RunningTask ≠ none) ∧
    ∃ c1, AskTaskRpc mapQueuedState { WorkerID := 0 } WorkerInfo.zero 5
            = .ok (c1, WorkerInfo.zero) ∧
      (GoMap.len mapQueuedState.Workers : Int) + 1 ≠ 0 ∧
      (mapQueuedState.JobPhase ≠ Exit →
        GoMap.find? c1.Workers ((GoMap.len mapQueuedState.Workers : Int) + 1) =
          some { WorkerInfo.zero with
                 WorkerID := (GoMap.len mapQueuedState.Workers : Int) + 1 }) ∧
      (mapQueuedState.JobPhase = Exit →
        GoMap.find? c1.Workers ((GoMap.len mapQueuedState.Workers : Int) + 1) = none) ∧
      (∀ k : Int, k ≠ (GoMap.len mapQueuedState.Workers : Int) + 1 →
        GoMap.find? c1.Workers k = GoMap.find? mapQueuedState.Workers k) :=
  ⟨⟨by decide, by decide, by decide⟩,
   AskTaskRpc_first_contact_registry mapQueuedState WorkerInfo.zero 5
     (by decide) (by decide) (by decide)⟩

/-! ## The timeout sweep -/

theorem GoChan.send_of_hasRoom {ch : GoChan} {n : Nat} (t : Task)
    (h : GoChan.hasRoom ch (n + 1) = true) :
    ∃ ch1, GoChan.send ch t = .ok ch1 ∧ GoChan.queue ch1 = GoChan.queue ch ++ [t] ∧
      GoChan.hasRoom ch1 n = true := by
  cases ch with
  | none => simp [GoChan.hasRoom] at h
  | some q =>
    simp only [GoChan.hasRoom, decide_eq_true_eq] at h
    have hlt : q.buf.length < q.cap := by omega
    refine ⟨some { q with buf := q.buf ++ [t] }, ?_, rfl, ?_⟩
    · simp [GoChan.send, hlt]
    · cases n with
      | zero => rfl
      | succ k =>
        simp only [GoChan.hasRoom, decide_eq_true_eq, List.length_append, List.length_singleton]
        omega

theorem TimeOut.reclaimed_cons (ty now : Int) (e : Int × WorkerInfo)
    (rest : List (Int × WorkerInfo)) :
    TimeOut.reclaimed ty now (e :: rest) =
      if e.2.IsTimeout now = true ∧ e.2.RunTask.TaskType = ty then
        e.2.RunTask :: TimeOut.reclaimed ty now rest
      else TimeOut.reclaimed ty now rest := by
  unfold TimeOut.reclaimed
  by_cases h1 : e.2.IsTimeout now = true <;> by_cases h2 : e.2.RunTask.TaskType = ty <;>
    simp [List.filter_cons, h1, h2]

/-- The sweep returns when both ready queues have room for what it sends back, and
it appends exactly the reclaimed tasks to each queue. -/
theorem TimeOut.loop_queues (now : Int) (ws : List (Int × WorkerInfo)) :
    ∀ c : Coordinator,
      GoChan.hasRoom c.MapTasks.WaitedTask (TimeOut.reclaimed MapTsk now ws).length = true →
      GoChan.hasRoom c.ReduceTasks.WaitedTask
          (TimeOut.reclaimed ReduceTsk now ws).length = true →
      ∃ c1, TimeOut.loop now ws c = .ok c1 ∧
        GoChan.queue c1.MapTasks.WaitedTask =
          GoChan.queue c.MapTasks.WaitedTask ++ TimeOut.reclaimed MapTsk now ws ∧
        GoChan.queue c1.ReduceTasks.WaitedTask =
          GoChan.queue c.ReduceTasks.WaitedTask ++ TimeOut.reclaimed ReduceTsk now ws := by
  have h12 : ¬ (MapTsk = ReduceTsk) := by decide
  induction ws with
  | nil =>
    intro c _ _
    exact ⟨c, rfl, by simp [TimeOut.reclaimed], by simp [TimeOut.reclaimed]⟩
  | cons e rest ih =>
    intro c hM hR
    obtain ⟨k, info⟩ := e
    rw [TimeOut.reclaimed_cons] at hM hR
    rw [TimeOut.reclaimed_cons, TimeOut.reclaimed_cons]
    unfold TimeOut.loop
    by_cases ht : info.IsTimeout now = true
    · by_cases hm : info.RunTask.TaskType = MapTsk
      · have hr : ¬ info.RunTask.TaskType = ReduceTsk := fun hh => h12 (hm.symm.trans hh)
        simp only [ht, hm, hr, and_self, and_false, if_true, if_false, true_and,
          List.length_cons] at hM hR ⊢
        obtain ⟨ch1, hs, hq, hroom⟩ := GoChan.send_of_hasRoom info.RunTask hM
        obtain ⟨c1, hl, hq1, hq2⟩ := ih
          { c with MapTasks := { c.MapTasks with
              WaitedTask := ch1,
              RunningTask := GoMap.delete c.MapTasks.RunningTask info.RunTask.TaskID } }
          hroom hR
        simp only [hs]
        refine ⟨c1, hl, ?_, hq2⟩
        rw [hq1, hq, List.append_assoc]
        rfl
      · by_cases hr : info.RunTask.TaskType = ReduceTsk
        · simp only [ht, hm, hr, and_self, and_false, if_true, if_false, true_and,
            List.length_cons] at hM hR ⊢
          obtain ⟨ch1, hs, hq, hroom⟩ := GoChan.send_of_hasRoom info.RunTask hR
          obtain ⟨c1, hl, hq1, hq2⟩ := ih
            { c with ReduceTasks := { c.ReduceTasks with
                WaitedTask := ch1,
                RunningTask := GoMap.delete c.ReduceTasks.RunningTask info.RunTask.TaskID } }
            hM hroom
          simp only [hs]
          refine ⟨c1, hl, hq1, ?_⟩
          rw [hq2, hq, List.append_assoc]
          rfl
        · simp only [ht, hm, hr, and_self, and_false, if_true, if_false] at hM hR ⊢
          exact ih c hM hR
    · simp only [ht, false_and, if_false] at hM hR ⊢
      simp only [Bool.false_eq_true, if_false]
      exact ih c hM hR

theorem TimeOut.loop_find_none (now : Int) (ws : List (Int × WorkerInfo)) (k : Int) :
    ∀ {c c1 : Coordinator}, TimeOut.loop now ws c = .ok c1 →
      (GoMap.find? c.MapTasks.RunningTask k = none →
        GoMap.find? c1.MapTasks.RunningTask k = none) ∧
      (GoMap.find? c.ReduceTasks.RunningTask k = none →
        GoMap.find? c1.ReduceTasks.RunningTask k = none) := by
  induction ws with
  | nil => intro c c1 h; cases h; exact ⟨id, id⟩
  | cons e rest ih =>
    intro c c1 h
    obtain ⟨j, info⟩ := e
    unfold TimeOut.loop at h
    split_ifs at h
    · split at h
      · cases h
      · obtain ⟨h1, h2⟩ := ih h
        exact ⟨fun hk => h1 (GoMap.find_delete_none _ _ hk), h2⟩
    · split at h
      · cases h
      · obtain ⟨h1, h2⟩ := ih h
        exact ⟨h1, fun hk => h2 (GoMap.find_delete_none _ _ hk)⟩
    · exact ih h
    · exact ih h

theorem TimeOut.loop_absent (now : Int) (ws : List (Int × WorkerInfo)) :
    ∀ {c c1 : Coordinator}, TimeOut.loop now ws c = .ok c1 →
      ∀ e ∈ ws, e.2.IsTimeout now = true →
        (e.2.RunTask.TaskType = MapTsk →
          GoMap.find? c1.MapTasks.RunningTask e.2.RunTask.TaskID = none) ∧
        (e.2.RunTask.TaskType = ReduceTsk →
          GoMap.find? c1.ReduceTasks.RunningTask e.2.RunTask.TaskID = none) := by
  have h12 : ¬ (MapTsk = ReduceTsk) := by decide
  induction ws with
  | nil => intro c c1 _ e he; cases he
  | cons e0 rest ih =>
    intro c c1 h e he ht
    rcases List.mem_cons.1 he with heq | hmem
    · subst heq
      obtain ⟨j, info⟩ := e
      unfold TimeOut.loop at h
      simp only [ht, if_true] at h
      split_ifs at h with hm hr
      · split at h
        · cases h
        · refine ⟨fun _ => ?_, fun hh => absurd (hm.symm.trans hh) h12⟩
          exact (TimeOut.loop_find_none now rest _ h).1 (GoMap.find_delete_self _ _)
      · split at h
        · cases h
        · refine ⟨fun hh => absurd hh hm, fun _ => ?_⟩
          exact (TimeOut.loop_find_none now rest _ h).2 (GoMap.find_delete_self _ _)
      · exact ⟨fun hh => absurd hh hm, fun hh => absurd hh hr⟩
    · obtain ⟨j, info⟩ := e0
      unfold TimeOut.loop at h
      split_ifs at h
      · split at h
        · cases h
        · exact ih h e hmem ht
      · split at h
        · cases h
        · exact ih h e hmem ht
      · exact ih h e hmem ht
      · exact ih h e hmem ht

theorem TimeOut.mem_reclaimed {ty now : Int} {ws : List (Int × WorkerInfo)}
    {e : Int × WorkerInfo} (he : e ∈ ws) (ht : e.2.IsTimeout now = true)
    (hty : e.2.RunTask.TaskType = ty) : e.2.RunTask ∈ TimeOut.reclaimed ty now ws := by
  unfold TimeOut.reclaimed
  refine List.mem_map.2 ⟨e, List.mem_filter.2 ⟨he, ?_⟩, rfl⟩
  simp [ht, hty]

/-- C8 (as stated, refuted): in `stalledState` worker 1 holds `mapTaskB` since time 0
while `mapTaskA` waits in the queue; the sweep at 10000000001 ns finds the task timed
out and sends it back, but it comes behind `mapTaskA`, which stays the head of the
queue, and the registry record of worker 1 is still in state RunningMap. -/
theorem TimeOut_requeues_at_tail :
    (GoMap.get WorkerInfo.zero stalledState.Workers 1).RunTask = mapTaskB ∧
      (GoMap.get WorkerInfo.zero stalledState.Workers 1).IsTimeout 10000000001 = true ∧
      ∃ c1, TimeOut stalledState 10000000001 = .ok c1 ∧
        GoChan.queue c1.MapTasks.WaitedTask = [mapTaskA, mapTaskB] ∧
        (GoChan.queue c1.MapTasks.WaitedTask).head? ≠ some mapTaskB ∧
        (GoMap.get WorkerInfo.zero c1.Workers 1).State = RunningMapTask :=
  ⟨rfl, by decide, _, rfl, rfl, by decide, rfl⟩

/-- C8 (amended): when each ready queue has room for the tasks the sweep sends back to
it, one TimeOut sweep returns, and for every registry record whose task (of type Map
or Reduce) has been in flight longer than ten seconds, that task's TaskID is then
absent from its phase's RunningTask map and the task is in its phase's ready queue:
the queue after the sweep is the queue before it followed by the reclaimed tasks, so
the task comes behind everything queued before (tail, not head), and the queue holds
it as often as it held it before plus once per timed-out record carrying it. -/
theorem TimeOut_reclaims (c : Coordinator) (now : Int)
    (hM : GoChan.hasRoom c.MapTasks.WaitedTask
      (TimeOut.reclaimed MapTsk now (GoMap.toList c.Workers)).length = true)
    (hR : GoChan.hasRoom c.ReduceTasks.WaitedTask
      (TimeOut.reclaimed ReduceTsk now (GoMap.toList c.Workers)).length = true) :
    ∃ c1, TimeOut c now = .ok c1 ∧
      GoChan.queue c1.MapTasks.WaitedTask =
        GoChan.queue c.MapTasks.WaitedTask
          ++ TimeOut.reclaimed MapTsk now (GoMap.toList c.Workers) ∧
      GoChan.queue c1.ReduceTasks.WaitedTask =
        GoChan.queue c.ReduceTasks.WaitedTask
          ++ TimeOut.reclaimed ReduceTsk now (GoMap.toList c.Workers) ∧
      ∀ e ∈ GoMap.toList c.Workers, e.2.IsTimeout now = true →
        (e.2.RunTask.TaskType = MapTsk →
          GoMap.find? c1.MapTasks.RunningTask e.2.RunTask.TaskID = none ∧
          e.2.RunTask ∈ TimeOut.reclaimed MapTsk now (GoMap.toList c.Workers) ∧
          (GoChan.queue c1.MapTasks.WaitedTask).count e.2.RunTask =
            (GoChan.queue c.MapTasks.WaitedTask).count e.2.RunTask +
              (TimeOut.reclaimed MapTsk now (GoMap.toList c.Workers)).count e.2.RunTask) ∧
        (e.2.RunTask.TaskType = ReduceTsk →
          GoMap.find? c1.ReduceTasks.RunningTask e.2.RunTask.TaskID = none ∧
          e.2.RunTask ∈ TimeOut.reclaimed ReduceTsk now (GoMap.toList c.Workers) ∧
          (GoChan.queue c1.ReduceTasks.WaitedTask).count e.2.RunTask =
            (GoChan.queue c.ReduceTasks.WaitedTask).count e.2.RunTask +
              (TimeOut.reclaimed ReduceTsk now (GoMap.toList c.Workers)).count
                e.2.RunTask) := by
  obtain ⟨c1, hl, hq1, hq2⟩ := TimeOut.loop_queues now (GoMap.toList c.Workers) c hM hR
  refine ⟨c1, hl, hq1, hq2, ?_⟩
  intro e he ht
  obtain ⟨ha1, ha2⟩ := TimeOut.loop_absent now (GoMap.toList c.Workers) hl e he ht
  refine ⟨fun hty => ⟨ha1 hty, TimeOut.mem_reclaimed he ht hty, ?_⟩,
    fun hty => ⟨ha2 hty, TimeOut.mem_reclaimed he ht hty, ?_⟩⟩
  · rw [hq1, List.count_append]
  · rw [hq2, List.count_append]

/-- Witness for C8 (amended): `TimeOut_reclaims` at `stalledState`, swept at
10000000001 ns, where one map task is reclaimed and the map queue has room for it. -/
theorem TimeOut_reclaims_witness :
    (GoChan.hasRoom stalledState.MapTasks.WaitedTask
        (TimeOut.reclaimed MapTsk 10000000001 (GoMap.toList stalledState.Workers)).length
          = true ∧
      GoChan.hasRoom stalledState.ReduceTasks.WaitedTask
        (TimeOut.reclaimed ReduceTsk 10000000001 (GoMap.toList stalledState.Workers)).length
          = true) ∧
    ∃ c1, TimeOut stalledState 10000000001 = .ok c1 ∧
      GoChan.queue c1.MapTasks.WaitedTask =
        GoChan.queue stalledState.MapTasks.WaitedTask
          ++ TimeOut.reclaimed MapTsk 10000000001 (GoMap.toList stalledState.Workers) ∧
      GoChan.queue c1.ReduceTasks.WaitedTask =
        GoChan.queue stalledState.ReduceTasks.WaitedTask
          ++ TimeOut.reclaimed ReduceTsk 10000000001 (GoMap.toList stalledState.Workers) ∧
      ∀ e ∈ GoMap.toList stalledState.Workers, e.2.IsTimeout 10000000001 = true →
        (e.2.RunTask.TaskType = MapTsk →
          GoMap.find? c1.MapTasks.RunningTask e.2.RunTask.TaskID = none ∧
          e.2.RunTask ∈
            TimeOut.reclaimed MapTsk 10000000001 (GoMap.toList stalledState.Workers) ∧
          (GoChan.queue c1.MapTasks.WaitedTask).count e.2.RunTask =
            (GoChan.queue stalledState.MapTasks.WaitedTask).count e.2.RunTask +
              (TimeOut.reclaimed MapTsk 10000000001
                (GoMap.toList stalledState.Workers)).count e.2.RunTask) ∧
        (e.2.RunTask.TaskType = ReduceTsk →
          GoMap.find? c1.ReduceTasks.RunningTask e.2.RunTask.TaskID = none ∧
          e.2.RunTask ∈
            TimeOut.reclaimed ReduceTsk 10000000001 (GoMap.toList stalledState.Workers) ∧
          (GoChan.queue c1.ReduceTasks.WaitedTask).count e.2.RunTask =
            (GoChan.queue stalledState.ReduceTasks.WaitedTask).count e.2.RunTask +
              (TimeOut.reclaimed ReduceTsk 10000000001
                (GoMap.toList stalledState.Workers)).count e.2.RunTask) :=
  ⟨⟨by decide, by decide⟩, TimeOut_reclaims stalledState 10000000001 (by decide) (by decide)⟩

/-! ## The reduce step of `WorkReduce` -/

theorem sortByKey_sorts : SortsByKey sortByKey := by
  intro l
  haveI : IsTotal KeyValue (fun a b => a.Key ≤ b.Key) := ⟨fun a b => le_total a.Key b.Key⟩
  haveI : IsTrans KeyValue (fun a b => a.Key ≤ b.Key) :=
    ⟨fun _ _ _ hab hbc => le_trans hab hbc⟩
  refine ⟨List.perm_insertionSort _ l, ?_⟩
  have hs : List.Sorted (fun a b : KeyValue => a.Key ≤ b.Key) (sortByKey l) :=
    List.sorted_insertionSort _ l
  refine List.Pairwise.imp ?_ hs
  intro a b hab
  exact not_lt.2 hab

/-- More fuel than the length of the list changes nothing: the loop has stopped. -/
theorem WorkReduce.groups_fuel :
    ∀ (n m : Nat) (l : List KeyValue), l.length ≤ n → l.length ≤ m →
      WorkReduce.groups n l = WorkReduce.groups m l := by
  intro n
  induction n with
  | zero =>
    intro m l hn _
    have hl : l = [] := List.length_eq_zero.1 (Nat.le_zero.1 hn)
    subst hl
    cases m <;> rfl
  | succ n ih =>
    intro m l hn hm
    cases l with
    | nil => cases m <;> rfl
    | cons kv rest =>
      cases m with
      | zero => simp at hm
      | succ m =>
        have hd : (rest.dropWhile (fun x => x.Key == kv.Key)).length ≤ rest.length :=
          (List.dropWhile_sublist _).length_le
        simp only [List.length_cons, Nat.add_le_add_iff_right] at hn hm
        simp only [WorkReduce.groups]
        rw [ih m _ (le_trans hd hn) (le_trans hd hm)]

/-- In a list sorted by key whose keys are all at least `k`, the leading run of key
`k` has only key `k`, and what follows it has only larger keys. -/
theorem WorkReduce.run_split (k : String) :
    ∀ rest : List KeyValue, (∀ x ∈ rest, k ≤ x.Key) →
      rest.Pairwise (fun a b => a.Key ≤ b.Key) →
      (∀ x ∈ rest.takeWhile (fun x => x.Key == k), x.Key = k) ∧
      (∀ x ∈ rest.dropWhile (fun x => x.Key == k), k < x.Key) := by
  intro rest
  induction rest with
  | nil => intro _ _; simp
  | cons y ys ih =>
    intro hk hs
    have hys := ih (fun x hx => hk x (List.mem_cons_of_mem _ hx)) (List.Pairwise.of_cons hs)
    by_cases hy : y.Key = k
    · have hb : (y.Key == k) = true := by simp [hy]
      simp only [List.takeWhile_cons, List.dropWhile_cons, hb, if_true]
      refine ⟨?_, hys.2⟩
      intro x hx
      rcases List.mem_cons.1 hx with h | h
      · rw [h]; exact hy
      · exact hys.1 x h
    · have hb : (y.Key == k) = false := by simp [hy]
      simp only [List.takeWhile_cons, List.dropWhile_cons, hb, Bool.false_eq_true, if_false]
      refine ⟨by simp, ?_⟩
      have hky : k < y.Key := lt_of_le_of_ne (hk y (List.mem_cons_self _ _)) (Ne.symm hy)
      intro x hx
      rcases List.mem_cons.1 hx with h | h
      · rw [h]; exact hky
      · exact lt_of_lt_of_le hky (List.rel_of_pairwise_cons hs h)

/-- Filtering a key-sorted list `kv :: rest` by a key: for the key of `kv` the result
is `kv` and the leading run of `rest`; for a larger key only what follows the run
matters. -/
theorem WorkReduce.filter_split (kv : KeyValue) (rest : List KeyValue)
    (hs : (kv :: rest).Pairwise (fun a b => a.Key ≤ b.Key)) :
    (kv :: rest).filter (fun x => x.Key == kv.Key) =
        kv :: rest.takeWhile (fun x => x.Key == kv.Key) ∧
    ∀ k : String, kv.Key < k →
      (kv :: rest).filter (fun x => x.Key == k) =
        (rest.dropWhile (fun x => x.Key == kv.Key)).filter (fun x => x.Key == k) := by
  obtain ⟨hrun, htl⟩ := WorkReduce.run_split kv.Key rest
    (fun x hx => List.rel_of_pairwise_cons hs hx) (List.Pairwise.of_cons hs)
  have hsplit : rest.takeWhile (fun x => x.Key == kv.Key)
      ++ rest.dropWhile (fun x => x.Key == kv.Key) = rest :=
    List.takeWhile_append_dropWhile _ rest
  constructor
  · have h1 : (rest.takeWhile (fun x => x.Key == kv.Key)).filter (fun x => x.Key == kv.Key)
        = rest.takeWhile (fun x => x.Key == kv.Key) :=
      List.filter_eq_self.2 (fun x hx => by simp [hrun x hx])
    have h2 : (rest.dropWhile (fun x => x.Key == kv.Key)).filter (fun x => x.Key == kv.Key)
        = [] :=
      List.filter_eq_nil_iff.2 (fun x hx => by simp [ne_of_gt (htl x hx)])
    have h3 : rest.filter (fun x => x.Key == kv.Key)
        = rest.takeWhile (fun x => x.Key == kv.Key) := by
      calc rest.filter (fun x => x.Key == kv.Key)
          = (rest.takeWhile (fun x => x.Key == kv.Key)
              ++ rest.dropWhile (fun x => x.Key == kv.Key)).filter
                (fun x => x.Key == kv.Key) := by rw [hsplit]
        _ = rest.takeWhile (fun x => x.Key == kv.Key) := by
            rw [List.filter_append, h1, h2, List.append_nil]
    rw [List.filter_cons, h3]
    simp
  · intro k hk
    have hne : ¬ kv.Key = k := ne_of_lt hk
    have h1 : (rest.takeWhile (fun x => x.Key == kv.Key)).filter (fun x => x.Key == k)
        = [] :=
      List.filter_eq_nil_iff.2 (fun x hx => by simp [hrun x hx, hne])
    calc (kv :: rest).filter (fun x => x.Key == k)
        = rest.filter (fun x => x.Key == k) := by
          rw [List.filter_cons]; simp [hne]
      _ = (rest.takeWhile (fun x => x.Key == kv.Key)
            ++ rest.dropWhile (fun x => x.Key == kv.Key)).filter (fun x => x.Key == k) := by
          rw [hsplit]
      _ = (rest.dropWhile (fun x => x.Key == kv.Key)).filter (fun x => x.Key == k) := by
          rw [List.filter_append, h1, List.nil_append]

/-- The grouping loop on a key-sorted list, with fuel at least its length: the keys of
the calls are keys of the list, strictly ascending, every key of the list gets a
call, and the values of a call are the values of all pairs with its key, in list
order. -/
theorem WorkReduce.groups_spec :
    ∀ (n : Nat) (l : List KeyValue), l.length ≤ n →
      l.Pairwise (fun a b => a.Key ≤ b.Key) →
      (∀ g ∈ WorkReduce.groups n l, ∃ x ∈ l, x.Key = g.1) ∧
      ((WorkReduce.groups n l).map Prod.fst).Pairwise (fun a b => a < b) ∧
      (∀ x ∈ l, x.Key ∈ (WorkReduce.groups n l).map Prod.fst) ∧
      (∀ g ∈ WorkReduce.groups n l,
        g.2 = (l.filter (fun kv => kv.Key == g.1)).map KeyValue.Value) := by
  intro n
  induction n with
  | zero =>
    intro l hn _
    have hl : l = [] := List.length_eq_zero.1 (Nat.le_zero.1 hn)
    subst hl
    simp [WorkReduce.groups]
  | succ n ih =>
    intro l hn hs
    cases l with
    | nil => simp [WorkReduce.groups]
    | cons kv rest =>
      obtain ⟨-, htl⟩ := WorkReduce.run_split kv.Key rest
        (fun x hx => List.rel_of_pairwise_cons hs hx) (List.Pairwise.of_cons hs)
      obtain ⟨hf1, hf2⟩ := WorkReduce.filter_split kv rest hs
      have hsub : (rest.dropWhile (fun x => x.Key == kv.Key)).Sublist rest :=
        List.dropWhile_sublist _
      have hlen : (rest.dropWhile (fun x => x.Key == kv.Key)).length ≤ n := by
        have := hsub.length_le
        simp only [List.length_cons, Nat.add_le_add_iff_right] at hn
        omega
      obtain ⟨i1, i2, i3, i4⟩ := ih (rest.dropWhile (fun x => x.Key == kv.Key)) hlen
        ((List.Pairwise.of_cons hs).sublist hsub)
      have hgt : ∀ g ∈ WorkReduce.groups n (rest.dropWhile (fun x => x.Key == kv.Key)),
          kv.Key < g.1 := by
        intro g hg
        obtain ⟨x, hx, hxk⟩ := i1 g hg
        rw [← hxk]
        exact htl x hx
      have hunf : WorkReduce.groups (n + 1) (kv :: rest) =
          (kv.Key, (kv :: rest.takeWhile (fun x => x.Key == kv.Key)).map KeyValue.Value)
            :: WorkReduce.groups n (rest.dropWhile (fun x => x.Key == kv.Key)) := rfl
      rw [hunf]
      refine ⟨?_, ?_, ?_, ?_⟩
      · intro g hg
        rcases List.mem_cons.1 hg with h | h
        · exact ⟨kv, List.mem_cons_self _ _, by rw [h]⟩
        · obtain ⟨x, hx, hxk⟩ := i1 g h
          exact ⟨x, List.mem_cons_of_mem _ (hsub.subset hx), hxk⟩
      · rw [List.map_cons, List.pairwise_cons]
        refine ⟨?_, i2⟩
        intro k hk
        obtain ⟨g, hg, hgk⟩ := List.mem_map.1 hk
        rw [← hgk]
        exact hgt g hg
      · intro x hx
        rw [List.map_cons]
        by_cases hxk : x.Key = kv.Key
        · rw [hxk]; exact List.mem_cons_self _ _
        · rcases List.mem_cons.1 hx with h | h
          · exact absurd (by rw [h]) hxk
          · have hxr : x ∈ rest.takeWhile (fun x => x.Key == kv.Key)
                ++ rest.dropWhile (fun x => x.Key == kv.Key) := by
              rw [List.takeWhile_append_dropWhile]; exact h
            rcases List.mem_append.1 hxr with h1 | h1
            · have := List.mem_takeWhile_imp h1
              simp only [beq_iff_eq] at this
              exact absurd this hxk
            · exact List.mem_cons_of_mem _ (i3 x h1)
      · intro g hg
        rcases List.mem_cons.1 hg with h | h
        · rw [h]
          show _ = ((kv :: rest).filter (fun x => x.Key == kv.Key)).map KeyValue.Value
          rw [hf1]
        · rw [hf2 g.1 (hgt g h)]
          exact i4 g h

/-- C10: for every library sort meeting the contract of `sort.Sort(ByKey(...))`,
every reduce callable and every list of intermediate pairs, the reduce step of
WorkReduce stops within `len(intermediate)` outer iterations (more fuel gives the
same calls), writes one line `key ++ " " ++ reducef key values ++ newline` per call,
the keys of the calls are strictly ascending (so pairwise distinct) and are exactly
the keys occurring in the input, and the values passed with a key are a permutation
of the values of all input pairs with that key. -/
theorem WorkReduce_one_line_per_key (sort : List KeyValue → List KeyValue)
    (hsort : SortsByKey sort) (reducef : String → List String → String)
    (intermediate : List KeyValue) :
    ∃ gs : List (String × List String),
      gs = WorkReduce.groups (sort intermediate).length (sort intermediate) ∧
      (∀ fuel, (sort intermediate).length ≤ fuel →
        WorkReduce.groups fuel (sort intermediate) = gs) ∧
      WorkReduce sort reducef intermediate =
        gs.map (fun g => g.1 ++ " " ++ reducef g.1 g.2 ++ "\n") ∧
      (gs.map Prod.fst).Pairwise (fun a b => a < b) ∧
      (∀ k, k ∈ gs.map Prod.fst ↔ k ∈ intermediate.map KeyValue.Key) ∧
      (∀ g ∈ gs,
        g.2.Perm ((intermediate.filter (fun kv => kv.Key == g.1)).map KeyValue.Value)) := by
  obtain ⟨hperm, hpw⟩ := hsort intermediate
  have hs : (sort intermediate).Pairwise (fun a b => a.Key ≤ b.Key) := by
    refine List.Pairwise.imp ?_ hpw
    intro a b hab
    exact not_lt.1 hab
  obtain ⟨g1, g2, g3, g4⟩ :=
    WorkReduce.groups_spec (sort intermediate).length (sort intermediate) le_rfl hs
  refine ⟨_, rfl, ?_, rfl, g2, ?_, ?_⟩
  · intro fuel hfuel
    exact WorkReduce.groups_fuel fuel _ _ hfuel le_rfl
  · intro k
    constructor
    · intro hk
      obtain ⟨g, hg, hgk⟩ := List.mem_map.1 hk
      obtain ⟨x, hx, hxk⟩ := g1 g hg
      exact List.mem_map.2 ⟨x, hperm.mem_iff.1 hx, hxk.trans hgk⟩
    · intro hk
      obtain ⟨x, hx, hxk⟩ := List.mem_map.1 hk
      rw [← hxk]
      exact g3 x (hperm.mem_iff.2 hx)
  · intro g hg
    rw [g4 g hg]
    exact (hperm.filter _).map _

/-- Witness for C10: `WorkReduce_one_line_per_key` with insertion sort by key, the
word-count Reduce and three pairs with two distinct keys. -/
theorem WorkReduce_one_line_per_key_witness :
    SortsByKey sortByKey ∧
    ∃ gs : List (String × List String),
      gs = WorkReduce.groups
        (sortByKey [⟨"the", "1"⟩, ⟨"cat", "1"⟩, ⟨"the", "1"⟩]).length
        (sortByKey [⟨"the", "1"⟩, ⟨"cat", "1"⟩, ⟨"the", "1"⟩]) ∧
      (∀ fuel, (sortByKey [⟨"the", "1"⟩, ⟨"cat", "1"⟩, ⟨"the", "1"⟩]).length ≤ fuel →
        WorkReduce.groups fuel (sortByKey [⟨"the", "1"⟩, ⟨"cat", "1"⟩, ⟨"the", "1"⟩]) = gs) ∧
      WorkReduce sortByKey mrfunc.Reduce [⟨"the", "1"⟩, ⟨"cat", "1"⟩, ⟨"the", "1"⟩] =
        gs.map (fun g => g.1 ++ " " ++ mrfunc.Reduce g.1 g.2 ++ "\n") ∧
      (gs.map Prod.fst).Pairwise (fun a b => a < b) ∧
      (∀ k, k ∈ gs.map Prod.fst ↔
        k ∈ ([⟨"the", "1"⟩, ⟨"cat", "1"⟩, ⟨"the", "1"⟩] : List KeyValue).map KeyValue.Key) ∧
      (∀ g ∈ gs,
        g.2.Perm ((([⟨"the", "1"⟩, ⟨"cat", "1"⟩, ⟨"the", "1"⟩] : List KeyValue).filter
          (fun kv => kv.Key == g.1)).map KeyValue.Value)) :=
  ⟨sortByKey_sorts,
   WorkReduce_one_line_per_key sortByKey sortByKey_sorts mrfunc.Reduce
     [⟨"the", "1"⟩, ⟨"cat", "1"⟩, ⟨"the", "1"⟩]⟩

/-! ## Further facts about `AskTaskRpc` -/

/-- Support for C5: for a registered worker, in phase Map with a task `t` at the head
of the queue and an allocated in-flight map, AskTaskRpc returns the worker's record
with state RunningMap and `t` stamped `now`; the queue loses its head and the
in-flight map holds `t` as dequeued under `t.TaskID`. -/
theorem AskTaskRpc_map_branch (c : Coordinator) (args : JobArgs) (reply : WorkerInfo)
    (now : Int) (cap : Nat) (t : Task) (rest : List Task) (m : List (Int × Task))
    (hid : args.WorkerID ≠ 0) (hp : c.JobPhase = RunningMapTask)
    (hq : c.MapTasks.WaitedTask = some { cap := cap, buf := t :: rest })
    (hm : c.MapTasks.RunningTask = some m) :
    ∃ c1, AskTaskRpc c args reply now =
        .ok (c1, { GoMap.get WorkerInfo.zero c.Workers args.WorkerID with
                   State := RunningMapTask, RunTask := { t with BeginTime := now } }) ∧
      c1.MapTasks.WaitedTask = some { cap := cap, buf := rest } ∧
      GoMap.find? c1.MapTasks.RunningTask t.TaskID = some t := by
  have hne : ¬ (c.JobPhase = Exit) := by rw [hp]; decide
  have hlen : GoChan.len c.MapTasks.WaitedTask > 0 := by simp [hq, GoChan.len]
  have hset : GoMap.set c.MapTasks.RunningTask t.TaskID t =
      .ok (some (m.filter (fun e => e.1 != t.TaskID) ++ [(t.TaskID, t)])) := by
    rw [hm]; rfl
  refine ⟨{ c with MapTasks := { c.MapTasks with
      WaitedTask := some { cap := cap, buf := rest },
      RunningTask := some (m.filter (fun e => e.1 != t.TaskID) ++ [(t.TaskID, t)]) } },
    ?_, rfl, GoMap.find_set_self hset⟩
  unfold AskTaskRpc
  rw [if_neg hid]
  unfold AskTaskRpc.body
  rw [if_neg hne, if_pos ⟨hp, hlen⟩]
  simp only [hq, GoChan.recv, hset]

/-- Support for C6: for a registered worker in phase Exit, AskTaskRpc returns the
worker's record with state Exit and deletes the registry entry of the record's
WorkerID; nothing else changes. -/
theorem AskTaskRpc_exit_registered (c : Coordinator) (args : JobArgs) (reply : WorkerInfo)
    (now : Int) (hid : args.WorkerID ≠ 0) (hp : c.JobPhase = Exit) :
    AskTaskRpc c args reply now =
      .ok ({ c with Workers := GoMap.delete c.Workers
                      (GoMap.get WorkerInfo.zero c.Workers args.WorkerID).WorkerID },
           { GoMap.get WorkerInfo.zero c.Workers args.WorkerID with State := Exit }) := by
  unfold AskTaskRpc
  rw [if_neg hid]
  unfold AskTaskRpc.body
  rw [if_pos hp]

/-! ## The registry along sequences of operations -/

theorem AskTaskRpc.body_workers {c c1 : Coordinator} {r r1 : WorkerInfo} {now : Int}
    (h : AskTaskRpc.body c r now = .ok (c1, r1)) :
    c1.Workers = if c.JobPhase = Exit then GoMap.delete c.Workers r.WorkerID
                 else c.Workers := by
  unfold AskTaskRpc.body at h
  split_ifs at h with h1 h2 h3 h4
  · cases h; rw [if_pos h1]
  · rw [if_neg h1]
    split at h
    · cases h
    · split at h
      · cases h
      · cases h; rfl
  · rw [if_neg h1]
    split at h
    · cases h
    · split at h
      · cases h
      · cases h; rfl
  · cases h; rw [if_neg h1]
  · cases h; rw [if_neg h1]

theorem TimeOut.loop_workers (now : Int) (ws : List (Int × WorkerInfo)) :
    ∀ {c c1 : Coordinator}, TimeOut.loop now ws c = .ok c1 → c1.Workers = c.Workers := by
  induction ws with
  | nil => intro c c1 h; cases h; rfl
  | cons e rest ih =>
    intro c c1 h
    obtain ⟨k, info⟩ := e
    unfold TimeOut.loop at h
    split_ifs at h
    · split at h
      · cases h
      · exact (ih h).trans rfl
    · split at h
      · cases h
      · exact (ih h).trans rfl
    · exact ih h
    · exact ih h

theorem GoMap.mem_toList_delete {V : Type} {m : GoMap V} {k : Int} {e : Int × V}
    (h : e ∈ GoMap.toList (GoMap.delete m k)) : e ∈ GoMap.toList m := by
  cases m with
  | none => exact h
  | some l => exact (List.mem_filter.1 h).1

theorem GoMap.mem_toList_set {V : Type} {m m1 : GoMap V} {k : Int} {v : V} {e : Int × V}
    (hs : GoMap.set m k v = .ok m1) (h : e ∈ GoMap.toList m1) :
    e ∈ GoMap.toList m ∨ e = (k, v) := by
  cases m with
  | none => cases hs
  | some l =>
    cases hs
    rcases List.mem_append.1 h with h1 | h1
    · exact Or.inl (List.mem_filter.1 h1).1
    · exact Or.inr (List.mem_singleton.1 h1)

theorem GoMap.get_mem_or_zero {V : Type} (z : V) (m : GoMap V) (k : Int) :
    GoMap.get z m k = z ∨ ∃ j, (j, GoMap.get z m k) ∈ GoMap.toList m := by
  cases m with
  | none => exact Or.inl rfl
  | some l =>
    have hg : GoMap.get z (some l) k =
        ((l.find? (fun e => e.1 == k)).map Prod.snd).getD z := rfl
    cases hf : l.find? (fun e => e.1 == k) with
    | none => left; rw [hg, hf]; rfl
    | some e =>
      right
      refine ⟨e.1, ?_⟩
      rw [hg, hf]
      exact List.mem_of_find?_eq_some hf

theorem RegistryFresh.get_state {c : Coordinator} (h : RegistryFresh c) (k : Int) :
    (GoMap.get WorkerInfo.zero c.Workers k).State = Waiting ∧
      (GoMap.get WorkerInfo.zero c.Workers k).RunTask = Task.zero := by
  rcases GoMap.get_mem_or_zero WorkerInfo.zero c.Workers k with hz | ⟨j, hj⟩
  · rw [hz]; exact ⟨rfl, rfl⟩
  · exact h _ hj

theorem RegistryFresh.taskDone_panics {c : Coordinator} (h : RegistryFresh c)
    (args reply : WorkerInfo) :
    TaskDoneRpc c args reply = .error (.panic "TaskDone Error") := by
  have hs := (h.get_state args.WorkerID).1
  have h1 : ¬ (GoMap.get WorkerInfo.zero c.Workers args.WorkerID).State = RunningMapTask := by
    rw [hs]; decide
  have h2 : ¬ (GoMap.get WorkerInfo.zero c.Workers args.WorkerID).State
      = RunningReduceTask := by
    rw [hs]; decide
  unfold TaskDoneRpc
  simp only []
  rw [if_neg h1, if_neg h2]

theorem RegistryFresh.preserved_by_askTask {c c1 : Coordinator} {args : JobArgs} {reply r1 : WorkerInfo}
    {now : Int} (h : RegistryFresh c) (hr : AskTaskRpc c args reply now = .ok (c1, r1)) :
    RegistryFresh c1 := by
  unfold AskTaskRpc at hr
  split_ifs at hr with hid
  · simp only at hr
    split at hr
    · cases hr
    · rename_i ws hset
      split at hr
      · cases hr
      · rename_i c2 r2 hb
        cases hr
        have hw := AskTaskRpc.body_workers hb
        intro e he
        rw [hw] at he
        have he2 : e ∈ GoMap.toList ws := by
          split_ifs at he
          · exact GoMap.mem_toList_delete he
          · exact he
        rcases GoMap.mem_toList_set hset he2 with h1 | h1
        · exact h e h1
        · rw [h1]; exact ⟨rfl, rfl⟩
  · have hw := AskTaskRpc.body_workers hr
    intro e he
    rw [hw] at he
    split_ifs at he
    · exact h e (GoMap.mem_toList_delete he)
    · exact h e he

theorem RegistryFresh.preserved_by_op {c c1 : Coordinator} {op : Op} (h : RegistryFresh c)
    (hr : op.apply c = .ok c1) : RegistryFresh c1 := by
  cases op with
  | askTask args reply now =>
    simp only [Op.apply] at hr
    split at hr
    · cases hr
    · rename_i c2 r2 hask
      cases hr
      exact h.preserved_by_askTask hask
  | taskDone args reply =>
    simp only [Op.apply, h.taskDone_panics args reply] at hr
    cases hr
  | timeOut now =>
    have hw : c1.Workers = c.Workers := TimeOut.loop_workers now _ hr
    intro e he
    rw [hw] at he
    exact h e he
  | done =>
    simp only [Op.apply] at hr
    cases hr
    have hw : (Done c).1.Workers = c.Workers := by
      rw [Done_fst]; split_ifs <;> rfl
    intro e he
    rw [hw] at he
    exact h e he
  | loadReduceFiles =>
    have hw : c1.Workers = c.Workers := (LoadReduceFiles_frame hr).2.1
    intro e he
    rw [hw] at he
    exact h e he

theorem RegistryFresh.preserved_by_ops (ops : List Op) :
    ∀ {c c1 : Coordinator}, RegistryFresh c → runOps ops c = .ok c1 → RegistryFresh c1 := by
  induction ops with
  | nil => intro c c1 h hr; cases hr; exact h
  | cons op rest ih =>
    intro c c1 h hr
    unfold mr.runOps at hr
    split at hr
    · cases hr
    · rename_i c2 hop
      exact ih (h.preserved_by_op hop) hr

theorem MakeCoordinator_registry_nil {files : List String} {nReduce : Int} {tmpDirOk : Bool}
    {c0 : Coordinator} (h : MakeCoordinator files nReduce tmpDirOk = .ok c0) :
    c0.Workers = none ∧ c0.MapTasks.WaitedTask = none ∧ c0.ReduceTasks.WaitedTask = none ∧
      c0.MapTasks.RunningTask = none ∧ c0.ReduceTasks.RunningTask = none ∧
      c0.MapTasks.FinishedTask = [] ∧ c0.ReduceTasks.FinishedTask = [] := by
  cases files with
  | cons f rest => cases h
  | nil =>
    cases tmpDirOk with
    | false => cases h
    | true => cases h; exact ⟨rfl, rfl, rfl, rfl, rfl, rfl, rfl⟩

theorem MakeCoordinator_registry_fresh {files : List String} {nReduce : Int}
    {tmpDirOk : Bool} {c0 : Coordinator}
    (h : MakeCoordinator files nReduce tmpDirOk = .ok c0) : RegistryFresh c0 := by
  intro e he
  rw [(MakeCoordinator_registry_nil h).1] at he
  cases he

/-- C19: from a freshly constructed coordinator, be it the one MakeCoordinator returns
or any coordinator whose registry holds only records as line 108 creates them
(allocated or not), in every state reached by a sequence of returning operations (in
particular by any sequence of AskTaskRpc, TimeOut and Done calls), every record
stored in the registry has state Waiting and the zero-valued RunTask, even after
tasks have been handed to its worker; and TaskDoneRpc called there with any worker id
takes the default branch: it panics with "TaskDone Error", before any task is
moved. -/
theorem registry_records_stay_fresh (c0 c : Coordinator) (ops : List Op)
    (h0 : (∃ files nReduce tmpDirOk, MakeCoordinator files nReduce tmpDirOk = .ok c0) ∨
      ∀ e ∈ GoMap.toList c0.Workers, e.2.State = Waiting ∧ e.2.RunTask = Task.zero)
    (hrun : runOps ops c0 = .ok c) :
    (∀ e ∈ GoMap.toList c.Workers, e.2.State = Waiting ∧ e.2.RunTask = Task.zero) ∧
    ∀ args reply : WorkerInfo, TaskDoneRpc c args reply = .error (.panic "TaskDone Error") := by
  have hf0 : RegistryFresh c0 := by
    rcases h0 with ⟨files, nReduce, tmpDirOk, hb⟩ | hfresh
    · exact MakeCoordinator_registry_fresh hb
    · exact hfresh
  have hf : RegistryFresh c := RegistryFresh.preserved_by_ops ops hf0 hrun
  exact ⟨hf, fun args reply => hf.taskDone_panics args reply⟩

/-- Witness for C19: `registry_records_stay_fresh` from `mapQueuedState` (worker 1
registered, `mapTaskA` queued): AskTaskRpc hands the task to worker 1, a second
worker makes first contact, a sweep runs 20 seconds later and Done is polled. The
task is in flight, yet both records are still in state Waiting with the zero task. -/
theorem registry_records_stay_fresh_witness :
    ((∀ e ∈ GoMap.toList mapQueuedState.Workers,
        e.2.State = Waiting ∧ e.2.RunTask = Task.zero) ∧
      runOps [.askTask { WorkerID := 1 } WorkerInfo.zero 5,
              .askTask { WorkerID := 0 } WorkerInfo.zero 6,
              .timeOut 20000000000, .done] mapQueuedState = .ok twoWorkersState ∧
      GoMap.find? twoWorkersState.MapTasks.RunningTask 0 = some mapTaskA ∧
      GoMap.len twoWorkersState.Workers = 2) ∧
    ((∀ e ∈ GoMap.toList twoWorkersState.Workers,
        e.2.State = Waiting ∧ e.2.RunTask = Task.zero) ∧
      ∀ args reply : WorkerInfo,
        TaskDoneRpc twoWorkersState args reply = .error (.panic "TaskDone Error")) :=
  ⟨⟨by decide, rfl, rfl, rfl⟩,
   registry_records_stay_fresh mapQueuedState twoWorkersState
     [.askTask { WorkerID := 1 } WorkerInfo.zero 5,
      .askTask { WorkerID := 0 } WorkerInfo.zero 6,
      .timeOut 20000000000, .done] (Or.inr (by decide)) rfl⟩

/-! ## The phase along sequences of operations -/

/-- While every registry record is as created, no returning operation moves the phase
to an earlier value: TaskDoneRpc does not return, and Done only moves Reduce to
Exit. -/
theorem RegistryFresh.phase_le {c c1 : Coordinator} {op : Op} (h : RegistryFresh c)
    (hr : op.apply c = .ok c1) : c.JobPhase ≤ c1.JobPhase := by
  cases op with
  | askTask args reply now =>
    simp only [Op.apply] at hr
    split at hr
    · cases hr
    · rename_i c2 r2 hask
      cases hr
      rw [AskTaskRpc_phase hask]
  | taskDone args reply =>
    simp only [Op.apply, h.taskDone_panics args reply] at hr
    cases hr
  | timeOut now =>
    have hp : c1.JobPhase = c.JobPhase := TimeOut_phase hr
    rw [hp]
  | done =>
    simp only [Op.apply] at hr
    cases hr
    rw [Done_fst]
    split_ifs with hc
    · show c.JobPhase ≤ Exit
      rw [hc.2.2]
      decide
    · exact le_refl _
  | loadReduceFiles =>
    have hp : c1.JobPhase = c.JobPhase := (LoadReduceFiles_frame hr).1
    rw [hp]

theorem AskTaskRpc.body_map_count {c c1 : Coordinator} {r r1 : WorkerInfo} {now : Int}
    (h : AskTaskRpc.body c r now = .ok (c1, r1)) :
    c1.MapTasks.MapNumber = c.MapTasks.MapNumber ∧
      c1.MapTasks.FinishedTask = c.MapTasks.FinishedTask := by
  unfold AskTaskRpc.body at h
  split_ifs at h
  · cases h; exact ⟨rfl, rfl⟩
  · split at h
    · cases h
    · split at h
      · cases h
      · cases h; exact ⟨rfl, rfl⟩
  · split at h
    · cases h
    · split at h
      · cases h
      · cases h; exact ⟨rfl, rfl⟩
  · cases h; exact ⟨rfl, rfl⟩
  · cases h; exact ⟨rfl, rfl⟩

theorem AskTaskRpc_map_count {c c1 : Coordinator} {args : JobArgs} {reply r1 : WorkerInfo}
    {now : Int} (h : AskTaskRpc c args reply now = .ok (c1, r1)) :
    c1.MapTasks.MapNumber = c.MapTasks.MapNumber ∧
      c1.MapTasks.FinishedTask = c.MapTasks.FinishedTask := by
  unfold AskTaskRpc at h
  split_ifs at h
  · simp only at h
    split at h
    · cases h
    · split at h
      · cases h
      · rename_i hb
        cases h
        obtain ⟨h1, h2⟩ := AskTaskRpc.body_map_count hb
        exact ⟨h1.trans rfl, h2.trans rfl⟩
  · exact AskTaskRpc.body_map_count h

/-- A record found in the registry after AskTaskRpc was there before the call, or is
the record that line 108 creates. -/
theorem AskTaskRpc_registry_mem {c c1 : Coordinator} {args : JobArgs} {reply r1 : WorkerInfo}
    {now : Int} (hr : AskTaskRpc c args reply now = .ok (c1, r1)) (e : Int × WorkerInfo)
    (he : e ∈ GoMap.toList c1.Workers) :
    e ∈ GoMap.toList c.Workers ∨ e.2.State = Waiting := by
  unfold AskTaskRpc at hr
  split_ifs at hr with hid
  · simp only at hr
    split at hr
    · cases hr
    · rename_i ws hset
      split at hr
      · cases hr
      · rename_i c2 r2 hb
        cases hr
        have hw := AskTaskRpc.body_workers hb
        rw [hw] at he
        have he2 : e ∈ GoMap.toList ws := by
          split_ifs at he
          · exact GoMap.mem_toList_delete he
          · exact he
        rcases GoMap.mem_toList_set hset he2 with h1 | h1
        · exact Or.inl h1
        · rw [h1]; exact Or.inr rfl
  · have hw := AskTaskRpc.body_workers hr
    rw [hw] at he
    split_ifs at he
    · exact Or.inl (GoMap.mem_toList_delete he)
    · exact Or.inl he

theorem TimeOut.loop_map_count (now : Int) (ws : List (Int × WorkerInfo)) :
    ∀ {c c1 : Coordinator}, TimeOut.loop now ws c = .ok c1 →
      c1.MapTasks.MapNumber = c.MapTasks.MapNumber ∧
        c1.MapTasks.FinishedTask = c.MapTasks.FinishedTask := by
  induction ws with
  | nil => intro c c1 h; cases h; exact ⟨rfl, rfl⟩
  | cons e rest ih =>
    intro c c1 h
    obtain ⟨k, info⟩ := e
    unfold TimeOut.loop at h
    split_ifs at h
    · split at h
      · cases h
      · obtain ⟨h1, h2⟩ := ih h
        exact ⟨h1.trans rfl, h2.trans rfl⟩
    · split at h
      · cases h
      · obtain ⟨h1, h2⟩ := ih h
        exact ⟨h1.trans rfl, h2.trans rfl⟩
    · exact ih h
    · exact ih h

/-- One returning operation, run where the phase is consistent with the count of
finished map tasks and the registry, leaves the phase equal or later and keeps that
consistency. -/
theorem PhaseConsistent.after_op {c c1 : Coordinator} {op : Op} (h : PhaseConsistent c)
    (hr : op.apply c = .ok c1) : c.JobPhase ≤ c1.JobPhase ∧ PhaseConsistent c1 := by
  obtain ⟨hle, hcnt, hreg⟩ := h
  have h23 : RunningReduceTask ≤ Exit := by decide
  have h22 : ¬ (RunningReduceTask < RunningReduceTask) := by decide
  have h32 : ¬ (Exit < RunningReduceTask) := by decide
  cases op with
  | askTask args reply now =>
    simp only [Op.apply] at hr
    split at hr
    · cases hr
    · rename_i c2 r2 hask
      cases hr
      have hp := AskTaskRpc_phase hask
      have hm := AskTaskRpc_map_count hask
      refine ⟨le_of_eq hp.symm, ?_, ?_, ?_⟩
      · rw [hp]; exact hle
      · rw [hp, hm.1, hm.2]; exact hcnt
      · rw [hp]
        intro hlt e he
        rcases AskTaskRpc_registry_mem hask e he with h1 | h1
        · exact hreg hlt e h1
        · rw [h1]; decide
  | taskDone args reply =>
    simp only [Op.apply] at hr
    split at hr
    · cases hr
    · rename_i c2 r2 hdone
      cases hr
      unfold TaskDoneRpc at hdone
      simp only at hdone
      split_ifs at hdone with hm hl hs hl
      · split at hdone
        · cases hdone
        · rename_i c3 hload
          cases hdone
          obtain ⟨hp3, hw3, hm3, -⟩ := LoadReduceFiles_frame hload
          have hlt : c.JobPhase < RunningReduceTask := by
            by_contra hge
            have h1 := hcnt (not_lt.1 hge)
            simp only [List.length_append, List.length_singleton, Nat.cast_add,
              Nat.cast_one] at hl
            omega
          refine ⟨le_of_lt hlt, h23, fun _ => ?_, fun hh => absurd hh h22⟩
          show c3.MapTasks.MapNumber ≤ (c3.MapTasks.FinishedTask.length : Int)
          rw [hm3]
          exact le_of_eq hl.symm
      · cases hdone
        refine ⟨le_refl _, hle, fun hge => ?_, hreg⟩
        have h1 := hcnt hge
        show c.MapTasks.MapNumber ≤ ((c.MapTasks.FinishedTask ++ [_]).length : Int)
        simp only [List.length_append, List.length_singleton, Nat.cast_add, Nat.cast_one]
        omega
      · have hge : RunningReduceTask ≤ c.JobPhase := by
          by_contra hlt
          rcases GoMap.get_mem_or_zero WorkerInfo.zero c.Workers args.WorkerID with hz | ⟨j, hj⟩
          · rw [hz] at hs
            exact absurd hs (by decide)
          · exact hreg (not_le.1 hlt) _ hj hs
        cases hdone
        exact ⟨hle, le_refl _, fun _ => hcnt hge, fun hh => absurd hh h32⟩
      · cases hdone
        exact ⟨le_refl _, hle, hcnt, hreg⟩
  | timeOut now =>
    have hp : c1.JobPhase = c.JobPhase := TimeOut_phase hr
    have hm := TimeOut.loop_map_count now _ hr
    have hw : c1.Workers = c.Workers := TimeOut.loop_workers now _ hr
    refine ⟨le_of_eq hp.symm, ?_, ?_, ?_⟩
    · rw [hp]; exact hle
    · rw [hp, hm.1, hm.2]; exact hcnt
    · rw [hp, hw]; exact hreg
  | done =>
    simp only [Op.apply] at hr
    cases hr
    rw [Done_fst]
    split_ifs with hc
    · refine ⟨hle, le_refl _, fun _ => ?_, fun hh => absurd hh h32⟩
      exact hcnt (le_of_eq hc.2.2.symm)
    · exact ⟨le_refl _, hle, hcnt, hreg⟩
  | loadReduceFiles =>
    obtain ⟨hp, hw, hm, -⟩ := LoadReduceFiles_frame hr
    refine ⟨le_of_eq hp.symm, ?_, ?_, ?_⟩
    · rw [hp]; exact hle
    · rw [hp, hm]; exact hcnt
    · rw [hp, hw]; exact hreg

theorem PhaseConsistent.after_ops (ops : List Op) :
    ∀ {c c1 : Coordinator}, PhaseConsistent c → runOps ops c = .ok c1 →
      c.JobPhase ≤ c1.JobPhase ∧ PhaseConsistent c1 := by
  induction ops with
  | nil => intro c c1 h hr; cases hr; exact ⟨le_refl _, h⟩
  | cons op rest ih =>
    intro c c1 h hr
    simp only [runOps] at hr
    split at hr
    · cases hr
    · rename_i c2 hop
      have h2 := h.after_op hop
      have h3 := ih h2.2 hr
      exact ⟨le_trans h2.1 h3.1, h3.2⟩

theorem MakeCoordinator_phase_consistent {files : List String} {nReduce : Int}
    {tmpDirOk : Bool} {c : Coordinator}
    (h : MakeCoordinator files nReduce tmpDirOk = .ok c) : PhaseConsistent c := by
  have hn := (MakeCoordinator_registry_nil h).1
  have h13 : RunningMapTask ≤ Exit := by decide
  have h21 : ¬ (RunningReduceTask ≤ RunningMapTask) := by decide
  unfold MakeCoordinator at h
  simp only at h
  split at h
  · cases h
  · split_ifs at h
    cases h
    refine ⟨h13, fun hge => absurd hge h21, fun _ e he => ?_⟩
    simp only [GoMap.toList] at he
    cases he

/-- C13: with the phases ordered Waiting < Map < Reduce < Done (Exit) as their integer
values are, along every sequence of returning operations (AskTaskRpc, TaskDoneRpc,
TimeOut, Done, and LoadReduceFiles as well) that starts from the coordinator
MakeCoordinator returns, or from any coordinator whose phase is consistent with its
count of finished map tasks (whatever its registry, queues and in-flight maps hold),
JobPhase never moves to an earlier value: it is not earlier after the sequence than
at the start, and no further operation moves it back. -/
theorem phase_never_decreases (c0 c1 c2 : Coordinator) (ops : List Op) (op : Op)
    (h0 : (∃ files nReduce tmpDirOk, MakeCoordinator files nReduce tmpDirOk = .ok c0) ∨
      PhaseConsistent c0)
    (h1 : runOps ops c0 = .ok c1) (h2 : op.apply c1 = .ok c2) :
    (Waiting < RunningMapTask ∧ RunningMapTask < RunningReduceTask ∧
      RunningReduceTask < Exit) ∧
    c0.JobPhase ≤ c1.JobPhase ∧ c1.JobPhase ≤ c2.JobPhase := by
  have hc0 : PhaseConsistent c0 := by
    rcases h0 with ⟨files, nReduce, tmpDirOk, hb⟩ | hc
    · exact MakeCoordinator_phase_consistent hb
    · exact hc
  have hrun := PhaseConsistent.after_ops ops hc0 h1
  exact ⟨by decide, hrun.1, (hrun.2.after_op h2).1⟩

/-- Witness for C13: `phase_never_decreases` from `mapReportReadyState`. Worker 1
asks again, a sweep runs, then worker 1 reports the only map task: TaskDoneRpc runs
LoadReduceFiles and moves the phase from Map to Reduce. The Done call that follows
moves it from Reduce to Done (Exit). -/
theorem phase_never_decreases_witness :
    (PhaseConsistent mapReportReadyState ∧
      runOps [.askTask { WorkerID := 1 } WorkerInfo.zero 3, .timeOut 4,
              .taskDone { WorkerInfo.zero with WorkerID := 1 } WorkerInfo.zero]
        mapReportReadyState = .ok reduceLoadedState ∧
      Op.apply .done reduceLoadedState = .ok { reduceLoadedState with JobPhase := Exit } ∧
      mapReportReadyState.JobPhase = RunningMapTask ∧
      reduceLoadedState.JobPhase = RunningReduceTask) ∧
    ((Waiting < RunningMapTask ∧ RunningMapTask < RunningReduceTask ∧
        RunningReduceTask < Exit) ∧
      mapReportReadyState.JobPhase ≤ reduceLoadedState.JobPhase ∧
      reduceLoadedState.JobPhase ≤ ({ reduceLoadedState with JobPhase := Exit } :
        Coordinator).JobPhase) :=
  ⟨⟨by decide, rfl, rfl, rfl, rfl⟩,
   phase_never_decreases mapReportReadyState reduceLoadedState
     { reduceLoadedState with JobPhase := Exit }
     [.askTask { WorkerID := 1 } WorkerInfo.zero 3, .timeOut 4,
      .taskDone { WorkerInfo.zero with WorkerID := 1 } WorkerInfo.zero] .done
     (Or.inr (by decide)) rfl rfl⟩

/-- Support for C13: the start matters. In `lateMapReportState` the phase is Done
(Exit) while no map task is recorded as finished, so the phase is not consistent with
the count; there a map report takes the phase back from Done to Reduce. -/
theorem TaskDoneRpc_can_leave_exit :
    lateMapReportState.JobPhase = Exit ∧ ¬ PhaseConsistent lateMapReportState ∧
      ∃ c1 r1, TaskDoneRpc lateMapReportState { WorkerInfo.zero with WorkerID := 1 }
                 WorkerInfo.zero = .ok (c1, r1) ∧
        c1.JobPhase = RunningReduceTask :=
  ⟨rfl, by decide, _, _, rfl, rfl⟩

/-! ## Tasks in exactly one collection -/

/-- Moving the head of the queue into the in-flight map keeps the TaskIDs distinct. -/
theorem taskIds_move (a : Int) (t : Task) (q fs : List Int) (m : List (Int × Task))
    (h : ((a :: q) ++ m.map Prod.fst ++ fs).Nodup) :
    (q ++ ((m.filter (fun e : Int × Task => e.1 != a)) ++ [(a, t)]).map Prod.fst
      ++ fs).Nodup := by
  have ha : a ∉ m.map Prod.fst := by
    intro hm
    have h1 := (List.nodup_append.1 h).1
    have h2 := (List.nodup_append.1 h1).2.2
    exact h2 (List.mem_cons_self a q) hm
  have hf : m.filter (fun e => e.1 != a) = m := by
    refine List.filter_eq_self.2 (fun e he => ?_)
    have : e.1 ≠ a := fun hh => ha (hh ▸ List.mem_map_of_mem Prod.fst he)
    simpa using this
  rw [hf]
  have hp : (q ++ (m ++ [(a, t)]).map Prod.fst ++ fs).Perm
      ((a :: q) ++ m.map Prod.fst ++ fs) := by
    rw [List.map_append, List.map_singleton]
    refine List.Perm.append_right fs ?_
    have h1 : (q ++ (m.map Prod.fst ++ [a])).Perm (q ++ (a :: m.map Prod.fst)) :=
      List.Perm.append_left q (List.perm_append_singleton a (m.map Prod.fst))
    exact h1.trans (List.perm_middle)
  exact hp.nodup_iff.2 h

theorem AskTaskRpc.body_placed_once {c c1 : Coordinator} {r r1 : WorkerInfo} {now : Int}
    (hP : TasksPlacedOnce c) (h : AskTaskRpc.body c r now = .ok (c1, r1)) :
    TasksPlacedOnce c1 := by
  unfold AskTaskRpc.body at h
  split_ifs at h with h1 h2 h3 h4
  · cases h; exact hP
  · obtain ⟨t, q, hq, hqq⟩ := GoChan.recv_of_len_pos h2.2
    rw [hq] at h
    simp only at h
    cases hm : c.MapTasks.RunningTask with
    | none => rw [hm] at h; cases h
    | some m =>
      rw [hm] at h
      simp only [GoMap.set] at h
      cases h
      refine ⟨?_, hP.2⟩
      have h0 := hP.1
      unfold taskIds at h0 ⊢
      rw [hqq, hm] at h0
      exact taskIds_move t.TaskID t _ _ m h0
  · obtain ⟨t, q, hq, hqq⟩ := GoChan.recv_of_len_pos h3.2
    rw [hq] at h
    simp only at h
    cases hm : c.ReduceTasks.RunningTask with
    | none => rw [hm] at h; cases h
    | some m =>
      rw [hm] at h
      simp only [GoMap.set] at h
      cases h
      refine ⟨hP.1, ?_⟩
      have h0 := hP.2
      unfold taskIds at h0 ⊢
      rw [hqq, hm] at h0
      exact taskIds_move t.TaskID t _ _ m h0
  · cases h; exact hP
  · cases h; exact hP

theorem AskTaskRpc_placed_once {c c1 : Coordinator} {args : JobArgs} {reply r1 : WorkerInfo}
    {now : Int} (hP : TasksPlacedOnce c) (h : AskTaskRpc c args reply now = .ok (c1, r1)) :
    TasksPlacedOnce c1 := by
  unfold AskTaskRpc at h
  split_ifs at h with hid
  · simp only at h
    split at h
    · cases h
    · rename_i ws hset
      split at h
      · cases h
      · rename_i hb
        cases h
        have hP1 : TasksPlacedOnce { c with Workers := ws } := hP
        exact AskTaskRpc.body_placed_once hP1 hb
  · exact AskTaskRpc.body_placed_once hP h

theorem Unallocated.placed_once {c : Coordinator} (h : Unallocated c) : TasksPlacedOnce c := by
  obtain ⟨-, h1, h2, h3, h4, h5, h6⟩ := h
  unfold TasksPlacedOnce taskIds
  rw [h1, h2, h3, h4, h5, h6]
  exact ⟨List.nodup_nil, List.nodup_nil⟩

theorem Unallocated.fresh {c : Coordinator} (h : Unallocated c) : RegistryFresh c := by
  intro e he
  rw [h.1] at he
  cases he

theorem Unallocated.kept_by_body {c c1 : Coordinator} {r r1 : WorkerInfo} {now : Int}
    (h : Unallocated c) (hb : AskTaskRpc.body c r now = .ok (c1, r1)) : Unallocated c1 := by
  obtain ⟨h0, h1, h2, h3, h4, h5, h6⟩ := h
  unfold AskTaskRpc.body at hb
  split_ifs at hb with g1 g2 g3 g4
  · cases hb
    refine ⟨?_, h1, h2, h3, h4, h5, h6⟩
    show GoMap.delete c.Workers r.WorkerID = none
    rw [h0]; rfl
  · rw [h1] at g2; simp [GoChan.len] at g2
  · rw [h2] at g3; simp [GoChan.len] at g3
  · cases hb; exact ⟨h0, h1, h2, h3, h4, h5, h6⟩
  · cases hb; exact ⟨h0, h1, h2, h3, h4, h5, h6⟩

theorem Unallocated.kept_by_op {c c1 : Coordinator} {op : Op} (h : Unallocated c)
    (hr : op.apply c = .ok c1) : Unallocated c1 := by
  cases op with
  | askTask args reply now =>
    simp only [Op.apply] at hr
    split at hr
    · cases hr
    · rename_i c2 r2 hask
      cases hr
      unfold AskTaskRpc at hask
      split_ifs at hask with hid
      · rw [h.1] at hask
        simp [GoMap.set] at hask
      · exact h.kept_by_body hask
  | taskDone args reply =>
    simp only [Op.apply, h.fresh.taskDone_panics args reply] at hr
    cases hr
  | timeOut now =>
    simp only [Op.apply, TimeOut, h.1, GoMap.toList, TimeOut.loop] at hr
    cases hr
    exact h
  | done =>
    simp only [Op.apply] at hr
    cases hr
    rw [Done_fst]
    split_ifs
    · exact h
    · exact h
  | loadReduceFiles =>
    obtain ⟨h0, h1, h2, h3, h4, h5, h6⟩ := h
    obtain ⟨-, f1, f2, -, f4, f5⟩ := LoadReduceFiles_frame hr
    refine ⟨f1.trans h0, ?_, ?_, ?_, f4.trans h4, ?_, f5.trans h6⟩
    · rw [f2]; exact h1
    · simp only [Op.apply, LoadReduceFiles] at hr
      split at hr
      · cases hr
      · split at hr
        · cases hr
        · rename_i ch hen
          cases hr
          rw [h2] at hen
          show ch = none
          cases hl : List.range c.ReduceTasks.ReduceNumber.toNat with
          | nil => rw [hl] at hen; cases hen; rfl
          | cons i rest => rw [hl] at hen; cases hen
    · rw [f2]; exact h3
    · rw [f2]; exact h5

theorem Unallocated.kept_by_ops (ops : List Op) :
    ∀ {c c1 : Coordinator}, Unallocated c → runOps ops c = .ok c1 → Unallocated c1 := by
  induction ops with
  | nil => intro c c1 h hr; cases hr; exact h
  | cons op rest ih =>
    intro c c1 h hr
    unfold mr.runOps at hr
    split at hr
    · cases hr
    · rename_i c2 hop
      exact ih (h.kept_by_op hop) hr

/-- C14 (as stated, refuted): `reclaimedState` satisfies the predicate (the map queue
holds tasks 0 and 1, nothing is in flight or finished), but worker 1's record still
carries task 1 from before it was reclaimed; the next sweep finds it timed out again
and sends it to the queue a second time, so the predicate fails after TimeOut. -/
theorem TimeOut_breaks_placed_once :
    TasksPlacedOnce reclaimedState ∧
      ∃ c1, TimeOut reclaimedState 15000000000 = .ok c1 ∧
        GoChan.queue c1.MapTasks.WaitedTask = [mapTaskA, mapTaskB, mapTaskB] ∧
        ¬ TasksPlacedOnce c1 :=
  ⟨by decide, _, rfl, rfl, by decide⟩

/-- A sweep over records that all carry the zero task changes nothing: the zero task
is of neither type, so no branch of the switch at line 205 is taken. -/
theorem TimeOut.loop_fresh (now : Int) (ws : List (Int × WorkerInfo)) (c : Coordinator)
    (h : ∀ e ∈ ws, e.2.RunTask = Task.zero) : TimeOut.loop now ws c = .ok c := by
  induction ws with
  | nil => rfl
  | cons e rest ih =>
    obtain ⟨k, info⟩ := e
    have hi : info.RunTask = Task.zero := h (k, info) (List.mem_cons_self _ _)
    have hrest := ih (fun e he => h e (List.mem_cons_of_mem _ he))
    have h1 : ¬ (info.RunTask.TaskType = MapTsk) := by rw [hi]; decide
    have h2 : ¬ (info.RunTask.TaskType = ReduceTsk) := by rw [hi]; decide
    unfold TimeOut.loop
    split_ifs
    · exact hrest
    · exact hrest

theorem GoChan.queue_send {ch ch1 : GoChan} {t : Task} (hs : GoChan.send ch t = .ok ch1) :
    GoChan.queue ch1 = GoChan.queue ch ++ [t] := by
  cases ch with
  | none => cases hs
  | some q =>
    simp only [GoChan.send] at hs
    split_ifs at hs
    cases hs
    rfl

theorem LoadReduceFiles.enqueue_queue (R : Int) (rf : GoMap (List String)) (l : List Nat) :
    ∀ {ch ch1 : GoChan}, LoadReduceFiles.enqueue R rf l ch = .ok ch1 →
      GoChan.queue ch1 = GoChan.queue ch ++ l.map (LoadReduceFiles.mkTask R rf) := by
  induction l with
  | nil => intro ch ch1 h; cases h; simp
  | cons i rest ih =>
    intro ch ch1 h
    unfold LoadReduceFiles.enqueue at h
    split at h
    · cases h
    · rename_i ch2 hs
      rw [ih h, GoChan.queue_send hs, List.append_assoc]
      rfl

/-- With the three collections of the Reduce phase empty, a returning LoadReduceFiles
leaves the reduce tasks 0 .. ReduceNumber-1 in the queue, each once. -/
theorem LoadReduceFiles_placed_once {c c1 : Coordinator} (hP : TasksPlacedOnce c)
    (hq : GoChan.queue c.ReduceTasks.WaitedTask = [])
    (hr : GoMap.toList c.ReduceTasks.RunningTask = [])
    (hf : c.ReduceTasks.FinishedTask = []) (h : LoadReduceFiles c = .ok c1) :
    TasksPlacedOnce c1 := by
  obtain ⟨-, -, hm, -, hr1, hf1⟩ := LoadReduceFiles_frame h
  unfold LoadReduceFiles at h
  split at h
  · cases h
  · rename_i rf hcol
    split at h
    · cases h
    · rename_i ch hen
      cases h
      have hqueue := LoadReduceFiles.enqueue_queue _ _ _ hen
      refine ⟨hP.1, ?_⟩
      show (taskIds ch c.ReduceTasks.RunningTask c.ReduceTasks.FinishedTask).Nodup
      unfold taskIds
      rw [hqueue, hq, hr, hf, List.nil_append, List.map_nil, List.map_nil, List.append_nil,
        List.append_nil, List.map_map]
      refine (List.nodup_range _).map ?_
      intro i j hij
      have : ((i : Nat) : Int) = (j : Int) := hij
      exact Int.ofNat.inj this

/-- One returning operation other than a direct LoadReduceFiles, run where every
registry record is as created, keeps both that and the distinctness of TaskIDs. -/
theorem TasksPlacedOnce.kept_fresh_op {c c1 : Coordinator} {op : Op} (hF : RegistryFresh c)
    (hP : TasksPlacedOnce c) (hop : op ≠ .loadReduceFiles) (hr : op.apply c = .ok c1) :
    RegistryFresh c1 ∧ TasksPlacedOnce c1 := by
  refine ⟨hF.preserved_by_op hr, ?_⟩
  cases op with
  | askTask args reply now =>
    simp only [Op.apply] at hr
    split at hr
    · cases hr
    · rename_i c2 r2 hask
      cases hr
      exact AskTaskRpc_placed_once hP hask
  | taskDone args reply =>
    simp only [Op.apply, hF.taskDone_panics args reply] at hr
    cases hr
  | timeOut now =>
    have hsame : TimeOut c now = .ok c :=
      TimeOut.loop_fresh now _ c (fun e he => (hF e he).2)
    have hr1 : TimeOut c now = .ok c1 := hr
    rw [hsame] at hr1
    cases hr1
    exact hP
  | done =>
    simp only [Op.apply] at hr
    cases hr
    rw [Done_fst]
    split_ifs
    · exact hP
    · exact hP
  | loadReduceFiles => exact absurd rfl hop

theorem TasksPlacedOnce.kept_fresh_ops (ops : List Op) :
    ∀ {c c1 : Coordinator}, RegistryFresh c → TasksPlacedOnce c →
      (∀ op ∈ ops, op ≠ .loadReduceFiles) → runOps ops c = .ok c1 →
      RegistryFresh c1 ∧ TasksPlacedOnce c1 := by
  induction ops with
  | nil => intro c c1 hF hP _ hr; cases hr; exact ⟨hF, hP⟩
  | cons op rest ih =>
    intro c c1 hF hP hops hr
    simp only [runOps] at hr
    split at hr
    · cases hr
    · rename_i c2 hop
      have h2 := TasksPlacedOnce.kept_fresh_op hF hP (hops op (List.mem_cons_self _ _)) hop
      exact ih h2.1 h2.2 (fun o ho => hops o (List.mem_cons_of_mem _ ho)) hr

/-- C14 (amended): with the predicate "no TaskID occurs twice among a phase's ready
queue, in-flight map and finished list":
(1) it holds in the coordinator MakeCoordinator returns, whose registry records are
all as created, and in every state reached from it by returning operations;
(2) every returning AskTaskRpc preserves it, from any state whatever;
(3) from any state that satisfies it and whose registry records are all as created
(state Waiting, zero task), every sequence of returning AskTaskRpc, TaskDoneRpc,
TimeOut and Done calls preserves it, and the records stay as created;
(4) a returning LoadReduceFiles preserves it when the three collections of the
Reduce phase are empty;
(5) TaskDoneRpc does not preserve it in general: in `reclaimedState`, which
satisfies it, the report of worker 1 returns and leaves task 1 both queued and
finished;
(6) LoadReduceFiles does not preserve it in general: in `reduceRequeuedState`, which
satisfies it, the call returns and leaves reduce task 0 queued twice. -/
theorem tasks_placed_once :
    (∀ (files : List String) (nReduce : Int) (tmpDirOk : Bool) (c0 c : Coordinator)
        (ops : List Op),
        MakeCoordinator files nReduce tmpDirOk = .ok c0 → runOps ops c0 = .ok c →
        TasksPlacedOnce c0 ∧ RegistryFresh c0 ∧ TasksPlacedOnce c) ∧
    (∀ (c c1 : Coordinator) (args : JobArgs) (reply r1 : WorkerInfo) (now : Int),
        TasksPlacedOnce c → AskTaskRpc c args reply now = .ok (c1, r1) →
        TasksPlacedOnce c1) ∧
    (∀ (c0 c : Coordinator) (ops : List Op),
        RegistryFresh c0 → TasksPlacedOnce c0 → (∀ op ∈ ops, op ≠ .loadReduceFiles) →
        runOps ops c0 = .ok c → RegistryFresh c ∧ TasksPlacedOnce c) ∧
    (∀ (c c1 : Coordinator),
        TasksPlacedOnce c → GoChan.queue c.ReduceTasks.WaitedTask = [] →
        GoMap.toList c.ReduceTasks.RunningTask = [] → c.ReduceTasks.FinishedTask = [] →
        LoadReduceFiles c = .ok c1 → TasksPlacedOnce c1) ∧
    (TasksPlacedOnce reclaimedState ∧
      ∃ c1 r1, TaskDoneRpc reclaimedState { WorkerInfo.zero with WorkerID := 1 }
                 WorkerInfo.zero = .ok (c1, r1) ∧
        GoChan.queue c1.MapTasks.WaitedTask = [mapTaskA, mapTaskB] ∧
        c1.MapTasks.FinishedTask = [mapTaskB] ∧ ¬ TasksPlacedOnce c1) ∧
    (TasksPlacedOnce reduceRequeuedState ∧
      ∃ c1, LoadReduceFiles reduceRequeuedState = .ok c1 ∧
        GoChan.queue c1.ReduceTasks.WaitedTask = [reduceTask0, reduceTask0] ∧
        ¬ TasksPlacedOnce c1) := by
  refine ⟨?_, ?_, ?_, ?_, ?_, ?_⟩
  · intro files nReduce tmpDirOk c0 c ops h0 hrun
    have hu : Unallocated c0 := MakeCoordinator_registry_nil h0
    exact ⟨hu.placed_once, hu.fresh, (Unallocated.kept_by_ops ops hu hrun).placed_once⟩
  · intro c c1 args reply r1 now hP h
    exact AskTaskRpc_placed_once hP h
  · intro c0 c ops hF hP hops hrun
    exact TasksPlacedOnce.kept_fresh_ops ops hF hP hops hrun
  · intro c c1 hP hq hr hf h
    exact LoadReduceFiles_placed_once hP hq hr hf h
  · exact ⟨by decide, _, _, rfl, rfl, rfl, by decide⟩
  · exact ⟨by decide, _, rfl, rfl, by decide⟩

/-- Witness for C14 (amended): `tasks_placed_once` on states that hold tasks. Part 2
at the AskTaskRpc that hands `mapTaskA` to worker 1 in `mapQueuedState`; part 3 from
`mapQueuedState` along that call, a first contact, a sweep and a Done call, which
ends in `twoWorkersState` with task 0 in flight; part 4 at `reduceQueuedState` with
its reduce queue emptied, where LoadReduceFiles queues reduce task 0 again. -/
theorem tasks_placed_once_witness :
    (TasksPlacedOnce mapQueuedState ∧ RegistryFresh mapQueuedState ∧
      AskTaskRpc mapQueuedState { WorkerID := 1 } WorkerInfo.zero 5 =
        .ok (mapHandedState,
             { WorkerID := 1, State := RunningMapTask,
               RunTask := { mapTaskA with BeginTime := 5 }, ReduceNumber := 0 }) ∧
      runOps [.askTask { WorkerID := 1 } WorkerInfo.zero 5,
              .askTask { WorkerID := 0 } WorkerInfo.zero 6,
              .timeOut 20000000000, .done] mapQueuedState = .ok twoWorkersState ∧
      GoMap.find? twoWorkersState.MapTasks.RunningTask 0 = some mapTaskA ∧
      LoadReduceFiles { reduceQueuedState with
          ReduceTasks := mapsFinishedState.ReduceTasks } = .ok reduceQueuedState) ∧
    TasksPlacedOnce mapHandedState ∧
    (RegistryFresh twoWorkersState ∧ TasksPlacedOnce twoWorkersState) ∧
    TasksPlacedOnce reduceQueuedState :=
  ⟨⟨by decide, by decide, rfl, rfl, rfl, rfl⟩,
   tasks_placed_once.2.1 mapQueuedState mapHandedState { WorkerID := 1 } WorkerInfo.zero _ 5
     (by decide) rfl,
   tasks_placed_once.2.2.1 mapQueuedState twoWorkersState
     [.askTask { WorkerID := 1 } WorkerInfo.zero 5,
      .askTask { WorkerID := 0 } WorkerInfo.zero 6,
      .timeOut 20000000000, .done] (by decide) (by decide) (by decide) rfl,
   tasks_placed_once.2.2.2.1
     { reduceQueuedState with ReduceTasks := mapsFinishedState.ReduceTasks }
     reduceQueuedState (by decide) rfl rfl rfl rfl⟩

/-! ## The registry view and the in-flight view -/

/-- C15 (failing input): in `mapQueuedState` AskTaskRpc hands `mapTaskA` to the
registered worker 1 (reply state RunningMap, the task in `MapTasks.RunningTask`), but
the registry record of worker 1 is not touched: its state is still Waiting and its
RunTask still the zero task. Line 111 copies the record into `*reply`, and lines
122-125 write into that copy only. -/
theorem AskTaskRpc_registry_not_updated :
    AskTaskRpc mapQueuedState { WorkerID := 1 } WorkerInfo.zero 5 =
        .ok (mapHandedState,
             { WorkerID := 1, State := RunningMapTask,
               RunTask := { mapTaskA with BeginTime := 5 }, ReduceNumber := 0 }) ∧
      GoMap.find? mapHandedState.MapTasks.RunningTask 0 = some mapTaskA ∧
      GoMap.find? mapHandedState.Workers 1 = some { WorkerInfo.zero with WorkerID := 1 } ∧
      (GoMap.get WorkerInfo.zero mapHandedState.Workers 1).State = Waiting ∧
      (GoMap.get WorkerInfo.zero mapHandedState.Workers 1).State ≠ RunningMapTask ∧
      (GoMap.get WorkerInfo.zero mapHandedState.Workers 1).RunTask = Task.zero :=
  ⟨rfl, rfl, rfl, rfl, by decide, rfl⟩

/-- Support for C15: outside phase Exit, a returning AskTaskRpc of a registered
worker leaves the whole registry as it was, whatever it replies. -/
theorem AskTaskRpc_registry_unchanged (c c1 : Coordinator) (args : JobArgs)
    (reply r1 : WorkerInfo) (now : Int) (hid : args.WorkerID ≠ 0) (hp : c.JobPhase ≠ Exit)
    (h : AskTaskRpc c args reply now = .ok (c1, r1)) : c1.Workers = c.Workers := by
  unfold AskTaskRpc at h
  rw [if_neg hid] at h
  rw [AskTaskRpc.body_workers h, if_neg hp]

/-! ## `AskTaskRpc` when no task can be handed out -/

/-- C16 (failing inputs): in `builtState`, the coordinator MakeCoordinator returns for
no input file (phase Map, nothing queued, nothing in flight), a first-contact
AskTaskRpc does not return: the write `c.Workers[w] = *reply` into the nil registry
panics. And in `mapHandedState` (phase Map, nothing queued, one task in flight, an
allocated registry), a first-contact call whose caller passes a reply in state
RunningMap returns that reply untouched, not state Waiting. -/
theorem AskTaskRpc_no_task_first_contact :
    (MakeCoordinator [] 1 true = .ok builtState ∧ builtState.JobPhase ≠ Exit ∧
      GoChan.len builtState.MapTasks.WaitedTask = 0 ∧
      AskTaskRpc builtState { WorkerID := 0 } WorkerInfo.zero 0
        = .error (.panic nilMapMsg)) ∧
    (mapHandedState.JobPhase ≠ Exit ∧ GoChan.len mapHandedState.MapTasks.WaitedTask = 0 ∧
      GoMap.len mapHandedState.MapTasks.RunningTask > 0 ∧
      ∃ c1, AskTaskRpc mapHandedState { WorkerID := 0 }
              { WorkerInfo.zero with State := RunningMapTask } 0
            = .ok (c1, { WorkerInfo.zero with State := RunningMapTask }) ∧
        ({ WorkerInfo.zero with State := RunningMapTask } : WorkerInfo).State ≠ Waiting) :=
  ⟨⟨rfl, by decide, rfl, rfl⟩, by decide, rfl, by decide, _, rfl, by decide⟩

/-- Support for C16: for a worker id other than 0, outside phase Exit and with no task
to dequeue for the current phase, AskTaskRpc returns and leaves the coordinator as it
was; it replies the registry record with state Waiting when some task is in flight,
and the registry record unchanged otherwise. -/
theorem AskTaskRpc_no_task_registered (c : Coordinator) (args : JobArgs)
    (reply : WorkerInfo) (now : Int) (hid : args.WorkerID ≠ 0) (hp : c.JobPhase ≠ Exit)
    (hm : ¬ (c.JobPhase = RunningMapTask ∧ GoChan.len c.MapTasks.WaitedTask > 0))
    (hr : ¬ (c.JobPhase = RunningReduceTask ∧ GoChan.len c.ReduceTasks.WaitedTask > 0)) :
    AskTaskRpc c args reply now =
      .ok (c,
        if GoMap.len c.MapTasks.RunningTask > 0 ∨ GoMap.len c.ReduceTasks.RunningTask > 0
        then { GoMap.get WorkerInfo.zero c.Workers args.WorkerID with State := Waiting }
        else GoMap.get WorkerInfo.zero c.Workers args.WorkerID) := by
  unfold AskTaskRpc
  rw [if_neg hid]
  unfold AskTaskRpc.body
  rw [if_neg hp, if_neg hm, if_neg hr]
  split_ifs <;> rfl

/-! ## First contact and the caller's reply -/

/-- C17 (as stated, refuted): in `builtState`, the coordinator MakeCoordinator returns
for no input file, the registry is the nil map, and a first-contact AskTaskRpc
inserts no record: the write `c.Workers[w] = *reply` panics. -/
theorem AskTaskRpc_first_contact_nil_registry :
    MakeCoordinator [] 1 true = .ok builtState ∧ builtState.Workers = none ∧
      AskTaskRpc builtState { WorkerID := 0 } WorkerInfo.zero 0
        = .error (.panic nilMapMsg) :=
  ⟨rfl, rfl, rfl⟩

/-- C17 (amended): for every coordinator state, caller's reply and clock reading, a
first-contact AskTaskRpc (WorkerID 0) that returns hands the caller's reply back
exactly as it was passed in, although it has inserted the fresh record under the new
id `len(c.Workers)+1` and has run lines 114-141 on that fresh value `r2` (whose state
and task the caller never sees); outside phase Exit the fresh record is still in the
registry on return. The call returns whenever the registry and the in-flight maps are
allocated; on a nil registry the insertion itself panics. -/
theorem AskTaskRpc_first_contact_reply_unmodified (c : Coordinator) (reply : WorkerInfo)
    (now : Int) :
    (∀ c1 r1, AskTaskRpc c { WorkerID := 0 } reply now = .ok (c1, r1) →
      r1 = reply ∧
      ∃ ws r2,
        GoMap.set c.Workers ((GoMap.len c.Workers : Int) + 1)
            { WorkerInfo.zero with WorkerID := (GoMap.len c.Workers : Int) + 1 } = .ok ws ∧
        GoMap.find? ws ((GoMap.len c.Workers : Int) + 1) =
          some { WorkerInfo.zero with WorkerID := (GoMap.len c.Workers : Int) + 1 } ∧
        AskTaskRpc.body { c with Workers := ws }
            { WorkerInfo.zero with WorkerID := (GoMap.len c.Workers : Int) + 1 } now
          = .ok (c1, r2) ∧
        (c.JobPhase ≠ Exit →
          GoMap.find? c1.Workers ((GoMap.len c.Workers : Int) + 1) =
            some { WorkerInfo.zero with WorkerID := (GoMap.len c.Workers : Int) + 1 })) ∧
    (c.Workers ≠ none → c.MapTasks.RunningTask ≠ none → c.ReduceTasks.RunningTask ≠ none →
      ∃ c1, AskTaskRpc c { WorkerID := 0 } reply now = .ok (c1, reply)) ∧
    (c.Workers = none →
      AskTaskRpc c { WorkerID := 0 } reply now = .error (.panic nilMapMsg)) := by
  refine ⟨?_, ?_, ?_⟩
  · intro c1 r1 h
    unfold AskTaskRpc at h
    simp only [if_true] at h
    split at h
    · cases h
    · rename_i ws hset
      split at h
      · cases h
      · rename_i c2 r2 hb
        cases h
        refine ⟨rfl, ws, r2, hset, GoMap.find_set_self hset, hb, ?_⟩
        intro hp
        have hw := AskTaskRpc.body_workers hb
        have hp1 : ¬ ({ c with Workers := ws } : Coordinator).JobPhase = Exit := hp
        rw [if_neg hp1] at hw
        rw [hw]
        exact GoMap.find_set_self hset
  · intro hw hm hr
    obtain ⟨ws, hs, -⟩ := GoMap.set_of_ne_none hw ((GoMap.len c.Workers : Int) + 1)
      { WorkerInfo.zero with WorkerID := (GoMap.len c.Workers : Int) + 1 }
    obtain ⟨c1, r1, hb, -⟩ := AskTaskRpc.body_registry { c with Workers := ws }
      { WorkerInfo.zero with WorkerID := (GoMap.len c.Workers : Int) + 1 } now hm hr
    refine ⟨c1, ?_⟩
    unfold AskTaskRpc
    simp only [if_true, hs, hb]
  · intro hw
    unfold AskTaskRpc
    simp only [if_true, hw, GoMap.set]

/-! ## When `LoadReduceFiles` fails -/

theorem LoadReduceFiles.inner_nil (l : List (Int × String)) :
    LoadReduceFiles.inner none l =
      if l = [] then .ok none else .error (.panic nilMapMsg) := by
  cases l with
  | nil => rfl
  | cons e rest => obtain ⟨idx, f⟩ := e; rfl

theorem LoadReduceFiles.collect_nil (tasks : List Task) :
    LoadReduceFiles.collect none tasks =
      if ∀ t ∈ tasks, GoMap.toList t.MapFilename = [] then .ok none
      else .error (.panic nilMapMsg) := by
  induction tasks with
  | nil => simp [LoadReduceFiles.collect]
  | cons t rest ih =>
    unfold LoadReduceFiles.collect
    rw [LoadReduceFiles.inner_nil]
    by_cases ht : GoMap.toList t.MapFilename = []
    · simp only [ht, if_true, ih, List.mem_cons, forall_eq_or_imp, true_and]
    · simp only [ht, if_false, List.mem_cons, forall_eq_or_imp, false_and]

theorem GoChan.hasRoom_of_send {ch ch1 : GoChan} {t : Task} {n : Nat}
    (hs : GoChan.send ch t = .ok ch1) (h : GoChan.hasRoom ch1 n = true) :
    GoChan.hasRoom ch (n + 1) = true := by
  cases ch with
  | none => cases hs
  | some q =>
    simp only [GoChan.send] at hs
    split_ifs at hs with hlt
    cases hs
    cases n with
    | zero =>
      simp only [GoChan.hasRoom, decide_eq_true_eq]
      omega
    | succ k =>
      simp only [GoChan.hasRoom, decide_eq_true_eq, List.length_append,
        List.length_singleton] at h ⊢
      omega

theorem LoadReduceFiles.enqueue_returns_iff (R : Int) (rf : GoMap (List String))
    (l : List Nat) :
    ∀ ch : GoChan, (∃ ch1, LoadReduceFiles.enqueue R rf l ch = .ok ch1) ↔
      GoChan.hasRoom ch l.length = true := by
  induction l with
  | nil => intro ch; exact ⟨fun _ => by cases ch <;> rfl, fun _ => ⟨ch, rfl⟩⟩
  | cons i rest ih =>
    intro ch
    constructor
    · rintro ⟨ch1, h⟩
      unfold LoadReduceFiles.enqueue at h
      split at h
      · cases h
      · rename_i ch2 hs
        exact GoChan.hasRoom_of_send hs ((ih ch2).1 ⟨ch1, h⟩)
    · intro h
      obtain ⟨ch2, hs, -, hroom⟩ :=
        GoChan.send_of_hasRoom (LoadReduceFiles.mkTask R rf i) h
      obtain ⟨ch1, h1⟩ := (ih ch2).2 hroom
      refine ⟨ch1, ?_⟩
      unfold LoadReduceFiles.enqueue
      simp only [hs]
      exact h1

theorem LoadReduceFiles.enqueue_no_panic (R : Int) (rf : GoMap (List String))
    (l : List Nat) :
    ∀ (ch : GoChan) (msg : String),
      LoadReduceFiles.enqueue R rf l ch ≠ .error (.panic msg) := by
  induction l with
  | nil => intro ch msg h; cases h
  | cons i rest ih =>
    intro ch msg h
    unfold LoadReduceFiles.enqueue at h
    split at h
    · rename_i e hs
      cases ch with
      | none => cases hs; cases h
      | some q =>
        simp only [GoChan.send] at hs
        split_ifs at hs
        cases hs
        cases h
    · exact ih _ msg h

theorem LoadReduceFiles_panics_iff (c : Coordinator) :
    LoadReduceFiles c = .error (.panic nilMapMsg) ↔
      ∃ t ∈ c.MapTasks.FinishedTask, GoMap.toList t.MapFilename ≠ [] := by
  unfold LoadReduceFiles
  rw [LoadReduceFiles.collect_nil]
  by_cases hall : ∀ t ∈ c.MapTasks.FinishedTask, GoMap.toList t.MapFilename = []
  · rw [if_pos hall]
    simp only
    constructor
    · intro h
      split at h
      · rename_i e he
        cases h
        exact absurd he (LoadReduceFiles.enqueue_no_panic _ _ _ _ _)
      · cases h
    · rintro ⟨t, ht, hne⟩
      exact absurd (hall t ht) hne
  · rw [if_neg hall]
    simp only [true_iff]
    by_contra hno
    exact hall (fun t ht => by_contra (fun hne => hno ⟨t, ht, hne⟩))

theorem LoadReduceFiles_returns_iff (c : Coordinator) :
    (∃ c1, LoadReduceFiles c = .ok c1) ↔
      (∀ t ∈ c.MapTasks.FinishedTask, GoMap.toList t.MapFilename = []) ∧
        GoChan.hasRoom c.ReduceTasks.WaitedTask c.ReduceTasks.ReduceNumber.toNat = true := by
  unfold LoadReduceFiles
  rw [LoadReduceFiles.collect_nil]
  by_cases hall : ∀ t ∈ c.MapTasks.FinishedTask, GoMap.toList t.MapFilename = []
  · rw [if_pos hall]
    simp only
    have hiff := LoadReduceFiles.enqueue_returns_iff c.ReduceTasks.ReduceNumber none
      (List.range c.ReduceTasks.ReduceNumber.toNat) c.ReduceTasks.WaitedTask
    rw [List.length_range] at hiff
    constructor
    · rintro ⟨c1, h⟩
      split at h
      · cases h
      · rename_i ch he
        exact ⟨hall, hiff.1 ⟨ch, he⟩⟩
    · rintro ⟨-, hroom⟩
      obtain ⟨ch, he⟩ := hiff.2 hroom
      rw [he]
      exact ⟨_, rfl⟩
  · rw [if_neg hall]
    constructor
    · rintro ⟨c1, h⟩
      cases h
    · rintro ⟨h1, -⟩
      exact absurd h1 hall

/-- C18 (as stated, refuted): in `mapsFinishedNoQueueState` the only finished map task
has an empty MapFilename, yet LoadReduceFiles does not complete: its first
`c.ReduceTasks.WaitedTask <- task` blocks, the reduce queue being the nil channel. -/
theorem LoadReduceFiles_blocks_without_queue :
    (∀ t ∈ mapsFinishedNoQueueState.MapTasks.FinishedTask,
        GoMap.toList t.MapFilename = []) ∧
      LoadReduceFiles mapsFinishedNoQueueState = .error .block ∧
      ¬ ∃ c1, LoadReduceFiles mapsFinishedNoQueueState = .ok c1 := by
  refine ⟨by decide, rfl, ?_⟩
  rintro ⟨c1, h⟩
  cases h

/-- C18 (amended): for every coordinator state, LoadReduceFiles panics on the write
into its unallocated map exactly when some finished map task has a non-empty
MapFilename; it completes exactly when every finished map task's MapFilename is empty
and the reduce queue has room for ReduceNumber more tasks (otherwise a send blocks);
and a map-completion report that completes the map phase while the reported task or
an earlier finished one carries an intermediate file panics in TaskDoneRpc, so it
never reaches the Reduce phase. -/
theorem LoadReduceFiles_outcome (c : Coordinator) :
    (LoadReduceFiles c = .error (.panic nilMapMsg) ↔
      ∃ t ∈ c.MapTasks.FinishedTask, GoMap.toList t.MapFilename ≠ []) ∧
    ((∃ c1, LoadReduceFiles c = .ok c1) ↔
      (∀ t ∈ c.MapTasks.FinishedTask, GoMap.toList t.MapFilename = []) ∧
        GoChan.hasRoom c.ReduceTasks.WaitedTask c.ReduceTasks.ReduceNumber.toNat = true) ∧
    (∀ args reply : WorkerInfo,
      (GoMap.get WorkerInfo.zero c.Workers args.WorkerID).State = RunningMapTask →
      (c.MapTasks.FinishedTask.length : Int) + 1 = c.MapTasks.MapNumber →
      (∃ t ∈ c.MapTasks.FinishedTask
            ++ [(GoMap.get WorkerInfo.zero c.Workers args.WorkerID).RunTask],
          GoMap.toList t.MapFilename ≠ []) →
      TaskDoneRpc c args reply = .error (.panic nilMapMsg)) := by
  refine ⟨LoadReduceFiles_panics_iff c, LoadReduceFiles_returns_iff c, ?_⟩
  intro args reply hst hlen hfile
  have hload := (LoadReduceFiles_panics_iff
    { c with MapTasks := { c.MapTasks with
        FinishedTask := c.MapTasks.FinishedTask
          ++ [(GoMap.get WorkerInfo.zero c.Workers args.WorkerID).RunTask],
        RunningTask := GoMap.delete c.MapTasks.RunningTask
          (GoMap.get WorkerInfo.zero c.Workers args.WorkerID).RunTask.TaskID } }).2 hfile
  have hcount : ((c.MapTasks.FinishedTask
      ++ [(GoMap.get WorkerInfo.zero c.Workers args.WorkerID).RunTask]).length : Int)
      = c.MapTasks.MapNumber := by
    rw [List.length_append, List.length_singleton]
    push_cast
    exact hlen
  unfold TaskDoneRpc
  simp only []
  rw [if_pos hst, if_pos hcount, hload]

/-! ## `ihash` and the partition index -/

theorem fnv32a_lt (bytes : List Nat) : fnv32a bytes < 4294967296 := by
  unfold fnv32a
  have key : ∀ (l : List Nat) (h : Nat), h < 4294967296 →
      l.foldl (fun h b => ((h ^^^ b) * 16777619) % 4294967296) h < 4294967296 := by
    intro l
    induction l with
    | nil => intro h hh; exact hh
    | cons b rest ih =>
      intro h _
      exact ih _ (Nat.mod_lt _ (by decide))
  exact key bytes 2166136261 (by decide)

theorem ihash_eq_mod (key : String) :
    ihash key = ((fnv32a (keyBytes key) % 2147483648 : Nat) : Int) := by
  unfold ihash
  have h := Nat.and_pow_two_sub_one_eq_mod (fnv32a (keyBytes key)) 31
  have h31 : (2 : Nat) ^ 31 - 1 = 2147483647 := by decide
  have h32 : (2 : Nat) ^ 31 = 2147483648 := by decide
  rw [h31, h32] at h
  rw [h]

theorem ihash_nonneg (key : String) : 0 ≤ ihash key := by
  unfold ihash
  exact Int.ofNat_nonneg _

theorem ihash_lt (key : String) : ihash key < 2147483648 := by
  rw [ihash_eq_mod]
  have : fnv32a (keyBytes key) % 2147483648 < 2147483648 := Nat.mod_lt _ (by decide)
  exact_mod_cast this

theorem WorkMap.toFileIndex_bounds (key : String) {R : Int} (hR : 0 < R) :
    0 ≤ WorkMap.toFileIndex key R ∧ WorkMap.toFileIndex key R < R :=
  ⟨Int.tmod_nonneg R (ihash_nonneg key), Int.tmod_lt_of_pos _ hR⟩

/-- C12: for every key and every reduce count R > 0, `ihash key` is the 32-bit FNV-1a
hash of the key's bytes with the top bit cleared (the hash, below 2^32, reduced
modulo 2^31), so `0 <= ihash key < 2^31`; the partition index `ihash key % R` lies in
`0 .. R-1`, so the write loop of WorkMap never indexes its R encoders out of bounds
(on any list of pairs and any encoders it returns); and equal keys get the same
partition index. -/
theorem ihash_partition_in_bounds (key : String) (R : Int) (hR : 0 < R) :
    fnv32a (keyBytes key) < 2 ^ 32 ∧
    ihash key = ((fnv32a (keyBytes key) % 2 ^ 31 : Nat) : Int) ∧
    0 ≤ ihash key ∧ ihash key < 2 ^ 31 ∧
    0 ≤ WorkMap.toFileIndex key R ∧ WorkMap.toFileIndex key R < R ∧
    (∀ key1 : String, key1 = key →
      WorkMap.toFileIndex key1 R = WorkMap.toFileIndex key R) ∧
    (∀ (ρ : Type) (encode : KeyValue → ρ) (kva : List KeyValue) (fileEnc : Nat → List ρ),
      ∃ fileEnc1, WorkMap.write encode R kva fileEnc = .ok fileEnc1) := by
  have hb := WorkMap.toFileIndex_bounds key hR
  refine ⟨fnv32a_lt _, ihash_eq_mod key, ihash_nonneg key, ihash_lt key, hb.1, hb.2,
    fun key1 h => by rw [h], ?_⟩
  intro ρ encode kva
  induction kva with
  | nil => intro fileEnc; exact ⟨fileEnc, rfl⟩
  | cons kv rest ih =>
    intro fileEnc
    unfold WorkMap.write
    rw [if_neg (ne_of_gt hR), if_pos (WorkMap.toFileIndex_bounds kv.Key hR)]
    exact ih _

/-- Witness for C12: `ihash_partition_in_bounds` for the key "the" and two
partitions. -/
theorem ihash_partition_in_bounds_witness :
    (0 : Int) < 2 ∧
    (fnv32a (keyBytes "the") < 2 ^ 32 ∧
    ihash "the" = ((fnv32a (keyBytes "the") % 2 ^ 31 : Nat) : Int) ∧
    0 ≤ ihash "the" ∧ ihash "the" < 2 ^ 31 ∧
    0 ≤ WorkMap.toFileIndex "the" 2 ∧ WorkMap.toFileIndex "the" 2 < 2 ∧
    (∀ key1 : String, key1 = "the" →
      WorkMap.toFileIndex key1 2 = WorkMap.toFileIndex "the" 2) ∧
    (∀ (ρ : Type) (encode : KeyValue → ρ) (kva : List KeyValue) (fileEnc : Nat → List ρ),
      ∃ fileEnc1, WorkMap.write encode 2 kva fileEnc = .ok fileEnc1)) :=
  ⟨by decide, ihash_partition_in_bounds "the" 2 (by decide)⟩

/-- Test vectors of 32-bit FNV-1a: the empty input, "a" and "foobar". -/
theorem fnv32a_test_vectors :
    fnv32a (keyBytes "") = 0x811c9dc5 ∧ fnv32a (keyBytes "a") = 0xe40c292c ∧
      fnv32a (keyBytes "foobar") = 0xbf9cf968 := by
  decide

/-! ## The data flow from map tasks to reduce tasks -/

theorem WorkMap.write_spec {ρ : Type} (encode : KeyValue → ρ) {R : Int} (hR : 0 < R) :
    ∀ (kva : List KeyValue) (fileEnc : Nat → List ρ),
      ∃ fileEnc1, WorkMap.write encode R kva fileEnc = .ok fileEnc1 ∧
        ∀ i : Nat, fileEnc1 i = fileEnc i ++ (kva.filter (inPartition R i)).map encode := by
  intro kva
  induction kva with
  | nil => intro fileEnc; exact ⟨fileEnc, rfl, fun i => by simp⟩
  | cons kv rest ih =>
    intro fileEnc
    have hb := WorkMap.toFileIndex_bounds kv.Key hR
    obtain ⟨fe1, h1, h2⟩ := ih
      (Function.update fileEnc (WorkMap.toFileIndex kv.Key R).toNat
        (fileEnc (WorkMap.toFileIndex kv.Key R).toNat ++ [encode kv]))
    refine ⟨fe1, ?_, fun i => ?_⟩
    · unfold WorkMap.write
      rw [if_neg (ne_of_gt hR), if_pos hb]
      exact h1
    · rw [h2 i]
      by_cases hi : WorkMap.toFileIndex kv.Key R = (i : Int)
      · have hnat : (WorkMap.toFileIndex kv.Key R).toNat = i := by rw [hi]; rfl
        have hp : inPartition R i kv = true := by simp [inPartition, hi]
        rw [hnat, Function.update_same, List.filter_cons, if_pos hp, List.map_cons,
          List.append_assoc]
        rfl
      · have hnat : i ≠ (WorkMap.toFileIndex kv.Key R).toNat := by
          intro h
          apply hi
          rw [h, Int.toNat_of_nonneg hb.1]
        have hp : ¬ inPartition R i kv = true := by simp [inPartition, hi]
        rw [Function.update_noteq hnat, List.filter_cons, if_neg hp]

theorem WorkMap_spec {ρ : Type} (sort : List KeyValue → List KeyValue)
    (mapf : String → String → List KeyValue) (encode : KeyValue → ρ) {R : Int} (hR : 0 < R)
    (filename content : String) :
    ∃ fileEnc, WorkMap sort mapf encode R filename content = .ok fileEnc ∧
      ∀ i : Nat, fileEnc i =
        ((sort (mapf filename content)).filter (inPartition R i)).map encode := by
  obtain ⟨fe, h1, h2⟩ := WorkMap.write_spec encode hR (sort (mapf filename content))
    (fun _ => [])
  refine ⟨fe, ?_, fun i => by rw [h2 i]; rfl⟩
  unfold WorkMap
  rw [if_neg (not_lt.2 (le_of_lt hR))]
  exact h1

theorem WorkReduce.readFile_encode {ρ : Type} {encode : KeyValue → ρ}
    {decode : ρ → Option KeyValue} (hjson : JsonRoundTrip encode decode)
    (l : List KeyValue) : WorkReduce.readFile decode (l.map encode) = l := by
  induction l with
  | nil => rfl
  | cons kv rest ih =>
    rw [List.map_cons]
    unfold WorkReduce.readFile
    rw [hjson kv]
    simp only [ih]

theorem runMaps_spec {ρ : Type} (sort : List KeyValue → List KeyValue)
    (mapf : String → String → List KeyValue) (encode : KeyValue → ρ) {R : Int} (hR : 0 < R)
    (finished : List (String × String)) :
    ∃ maps, runMaps sort mapf encode R finished = .ok maps ∧
      ∀ i : Nat, maps.map (fun fileEnc => fileEnc i) =
        finished.map (fun f => ((sort (mapf f.1 f.2)).filter (inPartition R i)).map encode) := by
  induction finished with
  | nil => exact ⟨[], rfl, fun _ => rfl⟩
  | cons f rest ih =>
    obtain ⟨maps, h1, h2⟩ := ih
    obtain ⟨fe, g1, g2⟩ := WorkMap_spec sort mapf encode hR f.1 f.2
    refine ⟨fe :: maps, ?_, fun i => ?_⟩
    · unfold runMaps
      simp only [g1, h1]
    · rw [List.map_cons, List.map_cons, h2 i, g2 i]

/-- What reduce task `i` reads: the pairs of partition `i` of every finished map
task, in the order the map tasks finished, each task's pairs in sorted order. -/
theorem readAll_runMaps {ρ : Type} (sort : List KeyValue → List KeyValue)
    (mapf : String → String → List KeyValue) {encode : KeyValue → ρ}
    {decode : ρ → Option KeyValue} (hjson : JsonRoundTrip encode decode) {R : Int}
    (hR : 0 < R) (finished : List (String × String)) :
    ∃ maps, runMaps sort mapf encode R finished = .ok maps ∧
      ∀ i : Nat, WorkReduce.readAll decode (maps.map (fun fileEnc => fileEnc i)) =
        finished.flatMap (fun f => (sort (mapf f.1 f.2)).filter (inPartition R i)) := by
  obtain ⟨maps, h1, h2⟩ := runMaps_spec sort mapf encode hR finished
  refine ⟨maps, h1, fun i => ?_⟩
  unfold WorkReduce.readAll
  rw [h2 i, List.flatMap_map]
  simp only [WorkReduce.readFile_encode hjson]

theorem partition_input_perm (sort : List KeyValue → List KeyValue) (hsort : SortsByKey sort)
    (mapf : String → String → List KeyValue) (R : Int) (i : Nat)
    {files finished : List (String × String)} (hfin : finished.Perm files) :
    (finished.flatMap (fun f => (sort (mapf f.1 f.2)).filter (inPartition R i))).Perm
      ((files.flatMap (fun f => mapf f.1 f.2)).filter (inPartition R i)) := by
  have h1 : (finished.flatMap (fun f => (sort (mapf f.1 f.2)).filter (inPartition R i))).Perm
      (finished.flatMap (fun f => (mapf f.1 f.2).filter (inPartition R i))) :=
    List.Perm.flatMap_left finished (fun f _ => (hsort (mapf f.1 f.2)).1.filter _)
  have h2 : (finished.flatMap (fun f => (mapf f.1 f.2).filter (inPartition R i))).Perm
      (files.flatMap (fun f => (mapf f.1 f.2).filter (inPartition R i))) :=
    List.Perm.flatMap_right _ hfin
  rw [List.filter_flatMap]
  exact h1.trans h2

/-- Lines of the reduce step, one per key of the input in strictly ascending order,
with the values of each key taken from any list `base` that holds, for the keys of
the input, the same values as the input up to order. -/
theorem WorkReduce_lines (sort : List KeyValue → List KeyValue) (hsort : SortsByKey sort)
    (reducef : String → List String → String) (hred : OrderIndependent reducef)
    (input base : List KeyValue)
    (hbase : ∀ k ∈ input.map KeyValue.Key, (valuesOf input k).Perm (valuesOf base k)) :
    WorkReduce sort reducef input =
        (WorkReduce.keys sort input).map
          (fun k => WorkReduce.line k (reducef k (valuesOf base k))) ∧
      (WorkReduce.keys sort input).Pairwise (fun a b => a < b) ∧
      ∀ k, k ∈ WorkReduce.keys sort input ↔ k ∈ input.map KeyValue.Key := by
  obtain ⟨hperm, hpw⟩ := hsort input
  have hs : (sort input).Pairwise (fun a b => a.Key ≤ b.Key) := by
    refine List.Pairwise.imp ?_ hpw
    intro a b hab
    exact not_lt.1 hab
  obtain ⟨g1, g2, g3, g4⟩ :=
    WorkReduce.groups_spec (sort input).length (sort input) le_rfl hs
  have hmem : ∀ k, k ∈ WorkReduce.keys sort input ↔ k ∈ input.map KeyValue.Key := by
    intro k
    constructor
    · intro hk
      obtain ⟨g, hg, hgk⟩ := List.mem_map.1 hk
      obtain ⟨x, hx, hxk⟩ := g1 g hg
      exact List.mem_map.2 ⟨x, hperm.mem_iff.1 hx, hxk.trans hgk⟩
    · intro hk
      obtain ⟨x, hx, hxk⟩ := List.mem_map.1 hk
      rw [← hxk]
      exact g3 x (hperm.mem_iff.2 hx)
  refine ⟨?_, g2, hmem⟩
  unfold WorkReduce WorkReduce.keys
  simp only
  rw [List.map_map]
  refine List.map_congr_left (fun g hg => ?_)
  have hk : g.1 ∈ input.map KeyValue.Key := (hmem g.1).1 (List.mem_map_of_mem Prod.fst hg)
  have hv : g.2.Perm (valuesOf base g.1) := by
    rw [g4 g hg]
    exact ((hperm.filter _).map _).trans (hbase g.1 hk)
  show WorkReduce.line g.1 (reducef g.1 g.2) = WorkReduce.line g.1 (reducef g.1 _)
  rw [hred g.1 _ _ hv]

theorem mem_partitionInput_keys (sort : List KeyValue → List KeyValue)
    (hsort : SortsByKey sort) (mapf : String → String → List KeyValue) (R : Int) (i : Nat)
    {files finished : List (String × String)} (hfin : finished.Perm files) (k : String) :
    k ∈ (partitionInput sort mapf R finished i).map KeyValue.Key ↔
      k ∈ (allPairs mapf files).map KeyValue.Key ∧ WorkMap.toFileIndex k R = (i : Int) := by
  have hp := partition_input_perm sort hsort mapf R i hfin
  constructor
  · intro hk
    obtain ⟨x, hx, hxk⟩ := List.mem_map.1 hk
    have hx1 := List.mem_filter.1 (hp.mem_iff.1 hx)
    refine ⟨List.mem_map.2 ⟨x, hx1.1, hxk⟩, ?_⟩
    have := hx1.2
    simp only [inPartition, decide_eq_true_eq] at this
    rw [← hxk]
    exact this
  · rintro ⟨hk, hidx⟩
    obtain ⟨x, hx, hxk⟩ := List.mem_map.1 hk
    refine List.mem_map.2 ⟨x, hp.mem_iff.2 (List.mem_filter.2 ⟨hx, ?_⟩), hxk⟩
    simp only [inPartition, decide_eq_true_eq]
    rw [hxk]
    exact hidx

theorem valuesOf_partitionInput (sort : List KeyValue → List KeyValue)
    (hsort : SortsByKey sort) (mapf : String → String → List KeyValue) (R : Int) (i : Nat)
    {files finished : List (String × String)} (hfin : finished.Perm files) (k : String)
    (hk : k ∈ (partitionInput sort mapf R finished i).map KeyValue.Key) :
    (valuesOf (partitionInput sort mapf R finished i) k).Perm
      (valuesOf (allPairs mapf files) k) := by
  have hidx := ((mem_partitionInput_keys sort hsort mapf R i hfin k).1 hk).2
  have hp := partition_input_perm sort hsort mapf R i hfin
  have h1 : (valuesOf (partitionInput sort mapf R finished i) k).Perm
      ((((files.flatMap (fun f => mapf f.1 f.2)).filter (inPartition R i)).filter
        (fun kv => kv.Key == k)).map KeyValue.Value) :=
    (hp.filter _).map _
  have h2 : ((files.flatMap (fun f => mapf f.1 f.2)).filter (inPartition R i)).filter
      (fun kv => kv.Key == k) =
      (files.flatMap (fun f => mapf f.1 f.2)).filter (fun kv => kv.Key == k) := by
    rw [List.filter_filter]
    refine List.filter_congr (fun x _ => ?_)
    by_cases hx : x.Key = k
    · simp [inPartition, hx, hidx]
    · simp [hx]
  rw [h2] at h1
  exact h1

/-- The distributed run returns when there is at least one partition; output `i`
holds one line per key of partition `i`, the keys in strictly ascending order, each
line computed from the values the key has among all intermediate pairs; and the
keys of partition `i` are the keys of the run whose partition index is `i`. -/
theorem distributed_core {ρ : Type} (sort : List KeyValue → List KeyValue)
    (hsort : SortsByKey sort) (mapf : String → String → List KeyValue)
    (reducef : String → List String → String) (hred : OrderIndependent reducef)
    (encode : KeyValue → ρ) (decode : ρ → Option KeyValue)
    (hjson : JsonRoundTrip encode decode) (R : Int) (hR : 0 < R)
    (files finished : List (String × String)) (hfin : finished.Perm files) :
    distributed sort mapf reducef encode decode R finished =
        .ok ((List.range R.toNat).map (fun i =>
          (WorkReduce.keys sort (partitionInput sort mapf R finished i)).map
            (fun k => WorkReduce.line k (reducef k (valuesOf (allPairs mapf files) k))))) ∧
      ∀ i : Nat,
        (WorkReduce.keys sort (partitionInput sort mapf R finished i)).Pairwise
            (fun a b => a < b) ∧
        ∀ k, k ∈ WorkReduce.keys sort (partitionInput sort mapf R finished i) ↔
          k ∈ (allPairs mapf files).map KeyValue.Key ∧
            WorkMap.toFileIndex k R = (i : Int) := by
  obtain ⟨maps, h1, h2⟩ := readAll_runMaps sort mapf hjson hR finished
  have hl : ∀ i : Nat, _ := fun i =>
    WorkReduce_lines sort hsort reducef hred (partitionInput sort mapf R finished i)
      (allPairs mapf files)
      (fun k hk => valuesOf_partitionInput sort hsort mapf R i hfin k hk)
  refine ⟨?_, fun i => ⟨(hl i).2.1, fun k => ?_⟩⟩
  · unfold distributed
    rw [h1]
    simp only [h2]
    congr 1
    refine List.map_congr_left (fun i _ => ?_)
    exact (hl i).1
  · rw [(hl i).2.2 k]
    exact mem_partitionInput_keys sort hsort mapf R i hfin k

theorem flatten_map_map {α β γ : Type} (K : α → List β) (F : β → γ) (l : List α) :
    (l.map (fun i => (K i).map F)).flatten = (l.flatMap K).map F := by
  induction l with
  | nil => rfl
  | cons a rest ih =>
    rw [List.map_cons, List.flatten_cons, ih, List.flatMap_cons, List.map_append]

/-- The keys of all partitions together are the keys of the whole run, each once. -/
theorem partition_keys_perm (mapf : String → String → List KeyValue) (R : Int) (hR : 0 < R)
    (files : List (String × String)) (ks : List String) (hks : ks.Nodup)
    (hmem : ∀ k, k ∈ ks ↔ k ∈ (allPairs mapf files).map KeyValue.Key)
    (K : Nat → List String) (hK1 : ∀ i, (K i).Pairwise (fun a b => a < b))
    (hK2 : ∀ i k, k ∈ K i ↔
      k ∈ (allPairs mapf files).map KeyValue.Key ∧ WorkMap.toFileIndex k R = (i : Int)) :
    ((List.range R.toNat).flatMap K).Perm ks := by
  have hnd : ((List.range R.toNat).flatMap K).Nodup := by
    rw [List.nodup_flatMap]
    refine ⟨fun i _ => ?_, ?_⟩
    · exact (hK1 i).imp (fun h => ne_of_lt h)
    · refine (List.nodup_range _).pairwise_of_forall_ne (fun i _ j _ hij => ?_)
      intro k hki hkj
      have e1 := ((hK2 i k).1 hki).2
      have e2 := ((hK2 j k).1 hkj).2
      exact hij (by exact_mod_cast e1.symm.trans e2)
  refine (List.perm_ext_iff_of_nodup hnd hks).2 (fun k => ?_)
  rw [hmem k, List.mem_flatMap]
  constructor
  · rintro ⟨i, -, hk⟩
    exact ((hK2 i k).1 hk).1
  · intro hk
    have hb := WorkMap.toFileIndex_bounds k hR
    refine ⟨(WorkMap.toFileIndex k R).toNat, ?_, ?_⟩
    · rw [List.mem_range, Int.lt_toNat, Int.toNat_of_nonneg hb.1]
      exact hb.2
    · exact (hK2 _ k).2 ⟨hk, (Int.toNat_of_nonneg hb.1).symm⟩

/-! ## The distributed run and the sequential runner -/

/-- On keys and values that are Unicode strings, where the JSON round trip is the
identity: the distributed run returns R outputs whose lines, taken together, are a
rearrangement of the lines of the sequential runner. -/
theorem distributed_perm_sequential {ρ : Type} (sort : List KeyValue → List KeyValue)
    (hsort : SortsByKey sort) (mapf : String → String → List KeyValue)
    (reducef : String → List String → String) (hred : OrderIndependent reducef)
    (encode : KeyValue → ρ) (decode : ρ → Option KeyValue)
    (hjson : JsonRoundTrip encode decode) (R : Int) (hR : 0 < R)
    (files finished : List (String × String)) (hfin : finished.Perm files) :
    ∃ outs, distributed sort mapf reducef encode decode R finished = .ok outs ∧
      outs.length = R.toNat ∧
      outs.flatten.Perm (mrsequential sort mapf reducef files) := by
  obtain ⟨hd, hK⟩ := distributed_core sort hsort mapf reducef hred encode decode hjson R hR
    files finished hfin
  obtain ⟨hs1, hs2, hs3⟩ := WorkReduce_lines sort hsort reducef hred (allPairs mapf files)
    (allPairs mapf files) (fun k _ => List.Perm.refl _)
  refine ⟨_, hd, by simp, ?_⟩
  have hseq : mrsequential sort mapf reducef files =
      WorkReduce sort reducef (allPairs mapf files) := rfl
  rw [hseq, hs1, flatten_map_map]
  refine List.Perm.map _ ?_
  exact partition_keys_perm mapf R hR files _ (hs2.imp (fun h => ne_of_lt h)) hs3 _
    (fun i => (hK i).1) (fun i k => (hK i).2 k)

theorem mrfunc.Reduce_orderIndependent : OrderIndependent mrfunc.Reduce := by
  intro key values values1 h
  unfold mrfunc.Reduce
  rw [h.length_eq]

theorem jsonRoundTrip_id : JsonRoundTrip (fun kv : KeyValue => kv) some :=
  fun _ => rfl

/-! ## Word count through the distributed run -/

theorem allPairs_wordcount (isLetter : Char → Bool) (files : List (String × String)) :
    allPairs (mrfunc.Map isLetter) files =
      (wordsOf isLetter files).map (fun w => ({ Key := w, Value := "1" } : KeyValue)) := by
  unfold allPairs wordsOf mrfunc.Map
  rw [List.map_flatMap]

theorem allPairs_wordcount_keys (isLetter : Char → Bool) (files : List (String × String)) :
    (allPairs (mrfunc.Map isLetter) files).map KeyValue.Key = wordsOf isLetter files := by
  rw [allPairs_wordcount, List.map_map]
  exact List.map_id _

theorem valuesOf_wordcount_length (isLetter : Char → Bool) (files : List (String × String))
    (w : String) :
    (valuesOf (allPairs (mrfunc.Map isLetter) files) w).length =
      (wordsOf isLetter files).count w := by
  unfold valuesOf
  rw [allPairs_wordcount, List.length_map, List.filter_map, List.length_map,
    List.count_eq_countP, List.countP_eq_length_filter]
  rfl

theorem wordcount_line (isLetter : Char → Bool) (files : List (String × String))
    (w : String) :
    WorkReduce.line w (mrfunc.Reduce w (valuesOf (allPairs (mrfunc.Map isLetter) files) w)) =
      w ++ " " ++ toString ((wordsOf isLetter files).count w) ++ "\n" := by
  unfold WorkReduce.line mrfunc.Reduce
  rw [valuesOf_wordcount_length]

theorem wordcount_core {ρ : Type} (isLetter : Char → Bool)
    (sort : List KeyValue → List KeyValue) (hsort : SortsByKey sort)
    (encode : KeyValue → ρ) (decode : ρ → Option KeyValue)
    (hjson : JsonRoundTrip encode decode) (R : Int) (hR : 0 < R)
    (files finished : List (String × String)) (hfin : finished.Perm files) :
    ∃ outs, distributed sort (mrfunc.Map isLetter) mrfunc.Reduce encode decode R finished
        = .ok outs ∧
      outs.length = R.toNat ∧
      (∀ (i : Nat) (lines : List String), outs[i]? = some lines →
        ∃ ks : List String,
          lines = ks.map (fun w =>
            w ++ " " ++ toString ((wordsOf isLetter files).count w) ++ "\n") ∧
          ks.Pairwise (fun a b => a < b) ∧
          ∀ w, w ∈ ks ↔
            w ∈ wordsOf isLetter files ∧ WorkMap.toFileIndex w R = (i : Int)) ∧
      outs.flatten.Perm ((wordsOf isLetter files).dedup.map (fun w =>
        w ++ " " ++ toString ((wordsOf isLetter files).count w) ++ "\n")) := by
  obtain ⟨hd, hK⟩ := distributed_core sort hsort (mrfunc.Map isLetter) mrfunc.Reduce
    mrfunc.Reduce_orderIndependent encode decode hjson R hR files finished hfin
  have hF : (fun k => WorkReduce.line k
      (mrfunc.Reduce k (valuesOf (allPairs (mrfunc.Map isLetter) files) k))) =
      (fun w => w ++ " " ++ toString ((wordsOf isLetter files).count w) ++ "\n") :=
    funext (fun w => wordcount_line isLetter files w)
  rw [hF] at hd
  simp only [allPairs_wordcount_keys] at hK
  refine ⟨_, hd, by simp, ?_, ?_⟩
  · intro i lines hi
    rw [List.getElem?_map] at hi
    cases hr : (List.range R.toNat)[i]? with
    | none => rw [hr] at hi; cases hi
    | some j =>
      rw [hr] at hi
      have hj : j = i := by
        have := List.getElem?_eq_some_iff.1 hr
        obtain ⟨hlt, heq⟩ := this
        rw [List.getElem_range] at heq
        exact heq.symm
      subst hj
      simp only [Option.map_some', Option.some.injEq] at hi
      exact ⟨_, hi.symm, (hK j).1, (hK j).2⟩
  · rw [flatten_map_map]
    refine List.Perm.map _ ?_
    refine partition_keys_perm (mrfunc.Map isLetter) R hR files _ (List.nodup_dedup _) ?_ _
      (fun i => (hK i).1) ?_
    · intro k
      rw [List.mem_dedup, allPairs_wordcount_keys]
    · intro i k
      rw [allPairs_wordcount_keys]
      exact (hK i).2 k

/-- C11: for every list of input files and every reduce count R > 0 (with a library
sort, a JSON encoder and decoder and a letter predicate as parameters, and the map
tasks finishing in any order), running the word-count Map on each file, partitioning
by `ihash(key) % R` and running the reduce step with the word-count Reduce on each
partition returns R outputs; output `i` has one line `word count newline` per word of
partition `i`, in strictly ascending order, the count being the decimal number of
occurrences of the word over all files; a word is in output `i` exactly when it
occurs in a file and its partition index is `i`, so no word is in two outputs; and
the lines of all outputs together are, up to order, one line per distinct word. -/
theorem wordcount_round_trip {ρ : Type} (isLetter : Char → Bool)
    (sort : List KeyValue → List KeyValue) (hsort : SortsByKey sort)
    (encode : KeyValue → ρ) (decode : ρ → Option KeyValue)
    (hjson : JsonRoundTrip encode decode) (R : Int) (hR : 0 < R)
    (files finished : List (String × String)) (hfin : finished.Perm files) :
    ∃ outs, distributed sort (mrfunc.Map isLetter) mrfunc.Reduce encode decode R finished
        = .ok outs ∧
      outs.length = R.toNat ∧
      (∀ (i : Nat) (lines : List String), outs[i]? = some lines →
        ∃ ks : List String,
          lines = ks.map (fun w =>
            w ++ " " ++ toString ((wordsOf isLetter files).count w) ++ "\n") ∧
          ks.Pairwise (fun a b => a < b) ∧
          ∀ w, w ∈ ks ↔
            w ∈ wordsOf isLetter files ∧ WorkMap.toFileIndex w R = (i : Int)) ∧
      outs.flatten.Perm ((wordsOf isLetter files).dedup.map (fun w =>
        w ++ " " ++ toString ((wordsOf isLetter files).count w) ++ "\n")) :=
  wordcount_core isLetter sort hsort encode decode hjson R hR files finished hfin

/-- Witness for C11: `wordcount_round_trip` on the files "the cat sat" and "the dog"
with two partitions, ASCII letters, insertion sort by key and the identity as
encoding. -/
theorem wordcount_round_trip_witness :
    (SortsByKey sortByKey ∧ JsonRoundTrip (fun kv : KeyValue => kv) some ∧ (0 : Int) < 2 ∧
      ([("a.txt", "the cat sat"), ("b.txt", "the dog")] : List (String × String)).Perm
        [("a.txt", "the cat sat"), ("b.txt", "the dog")]) ∧
    ∃ outs, distributed sortByKey (mrfunc.Map Char.isAlpha) mrfunc.Reduce
          (fun kv : KeyValue => kv) some 2 [("a.txt", "the cat sat"), ("b.txt", "the dog")]
        = .ok outs ∧
      outs.length = (2 : Int).toNat ∧
      (∀ (i : Nat) (lines : List String), outs[i]? = some lines →
        ∃ ks : List String,
          lines = ks.map (fun w =>
            w ++ " " ++ toString ((wordsOf Char.isAlpha
              [("a.txt", "the cat sat"), ("b.txt", "the dog")]).count w) ++ "\n") ∧
          ks.Pairwise (fun a b => a < b) ∧
          ∀ w, w ∈ ks ↔
            w ∈ wordsOf Char.isAlpha [("a.txt", "the cat sat"), ("b.txt", "the dog")] ∧
              WorkMap.toFileIndex w 2 = (i : Int)) ∧
      outs.flatten.Perm ((wordsOf Char.isAlpha
          [("a.txt", "the cat sat"), ("b.txt", "the dog")]).dedup.map (fun w =>
        w ++ " " ++ toString ((wordsOf Char.isAlpha
          [("a.txt", "the cat sat"), ("b.txt", "the dog")]).count w) ++ "\n")) :=
  ⟨⟨sortByKey_sorts, jsonRoundTrip_id, by decide, List.Perm.refl _⟩,
   wordcount_round_trip Char.isAlpha sortByKey sortByKey_sorts (fun kv : KeyValue => kv)
     some jsonRoundTrip_id 2 (by decide) [("a.txt", "the cat sat"), ("b.txt", "the dog")]
     [("a.txt", "the cat sat"), ("b.txt", "the dog")] (List.Perm.refl _)⟩

/-- The example of the specification: the files "the cat sat" and "the dog" with two
partitions give, over both outputs, exactly the lines for the:2, cat:1, sat:1 and
dog:1, whatever sort and JSON library meet their contracts and in whichever order
the two map tasks finish; "the" is in partition 0 and the other words in
partition 1. -/
theorem wordcount_example {ρ : Type} (sort : List KeyValue → List KeyValue)
    (hsort : SortsByKey sort) (encode : KeyValue → ρ) (decode : ρ → Option KeyValue)
    (hjson : JsonRoundTrip encode decode) (finished : List (String × String))
    (hfin : finished.Perm [("a.txt", "the cat sat"), ("b.txt", "the dog")]) :
    ∃ outs, distributed sort (mrfunc.Map Char.isAlpha) mrfunc.Reduce encode decode 2 finished
        = .ok outs ∧
      outs.flatten.Perm ["the 2\n", "cat 1\n", "sat 1\n", "dog 1\n"] ∧
      WorkMap.toFileIndex "the" 2 = 0 ∧ WorkMap.toFileIndex "cat" 2 = 1 ∧
      WorkMap.toFileIndex "sat" 2 = 1 ∧ WorkMap.toFileIndex "dog" 2 = 1 := by
  obtain ⟨outs, h1, -, -, h4⟩ := wordcount_core Char.isAlpha sort hsort encode decode hjson 2
    (by decide) [("a.txt", "the cat sat"), ("b.txt", "the dog")] finished hfin
  have hlines : (wordsOf Char.isAlpha
      [("a.txt", "the cat sat"), ("b.txt", "the dog")]).dedup.map (fun w =>
        w ++ " " ++ toString ((wordsOf Char.isAlpha
          [("a.txt", "the cat sat"), ("b.txt", "the dog")]).count w) ++ "\n") =
      ["cat 1\n", "sat 1\n", "the 2\n", "dog 1\n"] := by decide
  rw [hlines] at h4
  refine ⟨outs, h1, h4.trans ?_, by decide, by decide, by decide, by decide⟩
  decide

/-! ## Valid UTF-8 and the JSON coercion -/

theorem utf8.validSize_two {b0 b1 lo hi : Nat} (rest : List Nat)
    (hl : utf8.lead b0 = some (2, lo, hi)) (h1 : lo ≤ b1 ∧ b1 ≤ hi) :
    utf8.validSize (b0 :: b1 :: rest) = 2 := by
  simp only [utf8.validSize, hl, if_pos h1, if_true]

theorem utf8.validSize_three {b0 b1 b2 lo hi : Nat} (rest : List Nat)
    (hl : utf8.lead b0 = some (3, lo, hi)) (h1 : lo ≤ b1 ∧ b1 ≤ hi)
    (h2 : utf8.cont b2 = true) :
    utf8.validSize (b0 :: b1 :: b2 :: rest) = 3 := by
  have h32 : ¬ (3 = 2) := by decide
  simp only [utf8.validSize, hl, if_pos h1, if_neg h32, h2, if_true]

theorem utf8.validSize_four {b0 b1 b2 b3 lo hi : Nat} (rest : List Nat)
    (hl : utf8.lead b0 = some (4, lo, hi)) (h1 : lo ≤ b1 ∧ b1 ≤ hi)
    (h2 : utf8.cont b2 = true) (h3 : utf8.cont b3 = true) :
    utf8.validSize (b0 :: b1 :: b2 :: b3 :: rest) = 4 := by
  have h42 : ¬ (4 = 2) := by decide
  have h43 : ¬ (4 = 3) := by decide
  simp only [utf8.validSize, hl, if_pos h1, if_neg h42, if_neg h43, h2, h3, if_true]

theorem json.coerce.go_valid {b k : Nat} {rest : List Nat} (hb : ¬ b < 128)
    (hs : utf8.validSize (b :: rest) = k + 1) :
    json.coerce.go 0 (b :: rest) = b :: json.coerce.go k rest := by
  simp only [json.coerce.go, if_neg hb, hs]

theorem utf8.cont_of_mod (m : Nat) : utf8.cont (128 + m % 64) = true := by
  unfold utf8.cont
  rw [decide_eq_true_eq]
  omega

theorem json.coerce.go_char (c : Char) (rest : List Nat) :
    json.coerce.go 0 (utf8Bytes c ++ rest) = utf8Bytes c ++ json.coerce.go 0 rest := by
  have hv : c.toNat < 0xD800 ∨ (0xDFFF < c.toNat ∧ c.toNat < 0x110000) := c.valid
  unfold utf8Bytes
  generalize c.toNat = n at hv
  split_ifs with h1 h2 h3
  · simp [json.coerce.go, h1]
  · have hl : utf8.lead (192 + n / 64) = some (2, 0x80, 0xBF) := by
      unfold utf8.lead; rw [if_pos (by omega)]
    have hs : utf8.validSize ((192 + n / 64) :: (128 + n % 64) :: rest) = 2 :=
      utf8.validSize_two rest hl (by omega)
    show json.coerce.go 0 ((192 + n / 64) :: (128 + n % 64) :: rest) = _
    rw [json.coerce.go_valid (by omega) hs]
    rfl
  · have hl : ∃ lo hi, utf8.lead (224 + n / 4096) = some (3, lo, hi) ∧
        lo ≤ 128 + n / 64 % 64 ∧ 128 + n / 64 % 64 ≤ hi := by
      unfold utf8.lead
      split_ifs <;> first | exact ⟨_, _, rfl, by omega, by omega⟩ | omega
    obtain ⟨lo, hi, hl, hlo, hhi⟩ := hl
    have hs := utf8.validSize_three rest hl ⟨hlo, hhi⟩ (utf8.cont_of_mod n)
    show json.coerce.go 0 ((224 + n / 4096) :: (128 + n / 64 % 64) :: (128 + n % 64) :: rest)
      = _
    rw [json.coerce.go_valid (by omega) hs]
    rfl
  · have hl : ∃ lo hi, utf8.lead (240 + n / 262144) = some (4, lo, hi) ∧
        lo ≤ 128 + n / 4096 % 64 ∧ 128 + n / 4096 % 64 ≤ hi := by
      unfold utf8.lead
      split_ifs <;> first | exact ⟨_, _, rfl, by omega, by omega⟩ | omega
    obtain ⟨lo, hi, hl, hlo, hhi⟩ := hl
    have hs := utf8.validSize_four rest hl ⟨hlo, hhi⟩ (utf8.cont_of_mod (n / 64))
      (utf8.cont_of_mod n)
    show json.coerce.go 0 ((240 + n / 262144) :: (128 + n / 4096 % 64) ::
      (128 + n / 64 % 64) :: (128 + n % 64) :: rest) = _
    rw [json.coerce.go_valid (by omega) hs]
    rfl

/-- The UTF-8 encoding of a sequence of Unicode characters is valid UTF-8: the JSON
coercion leaves it as it is. -/
theorem json.coerce_keyBytes (s : String) :
    json.coerce { bytes := keyBytes s } = { bytes := keyBytes s } := by
  unfold json.coerce keyBytes
  congr 1
  show json.coerce.go 0 (s.data.flatMap utf8Bytes) = s.data.flatMap utf8Bytes
  induction s.data with
  | nil => rfl
  | cons c cs ih => rw [List.flatMap_cons, json.coerce.go_char, ih]

/-! ## The worker on byte strings -/

namespace raw

theorem sortByKey_sorts_bytes : SortsByKey sortByKey := by
  intro l
  haveI : IsTotal KeyValue (fun a b => a.Key ≤ b.Key) := ⟨fun a b => le_total a.Key b.Key⟩
  haveI : IsTrans KeyValue (fun a b => a.Key ≤ b.Key) :=
    ⟨fun _ _ _ hab hbc => le_trans hab hbc⟩
  refine ⟨List.perm_insertionSort _ l, ?_⟩
  have hs : List.Sorted (fun a b : KeyValue => a.Key ≤ b.Key) (sortByKey l) :=
    List.sorted_insertionSort _ l
  refine List.Pairwise.imp ?_ hs
  intro a b hab
  exact not_lt.2 hab

/-- More fuel than the length of the list changes nothing: the loop has stopped. -/
theorem WorkReduce.groups_fuel_bytes :
    ∀ (n m : Nat) (l : List KeyValue), l.length ≤ n → l.length ≤ m →
      WorkReduce.groups n l = WorkReduce.groups m l := by
  intro n
  induction n with
  | zero =>
    intro m l hn _
    have hl : l = [] := List.length_eq_zero.1 (Nat.le_zero.1 hn)
    subst hl
    cases m <;> rfl
  | succ n ih =>
    intro m l hn hm
    cases l with
    | nil => cases m <;> rfl
    | cons kv rest =>
      cases m with
      | zero => simp at hm
      | succ m =>
        have hd : (rest.dropWhile (fun x => x.Key == kv.Key)).length ≤ rest.length :=
          (List.dropWhile_sublist _).length_le
        simp only [List.length_cons, Nat.add_le_add_iff_right] at hn hm
        simp only [WorkReduce.groups]
        rw [ih m _ (le_trans hd hn) (le_trans hd hm)]

/-- In a list sorted by key whose keys are all at least `k`, the leading run of key
`k` has only key `k`, and what follows it has only larger keys. -/
theorem WorkReduce.run_split_bytes (k : GoString) :
    ∀ rest : List KeyValue, (∀ x ∈ rest, k ≤ x.Key) →
      rest.Pairwise (fun a b => a.Key ≤ b.Key) →
      (∀ x ∈ rest.takeWhile (fun x => x.Key == k), x.Key = k) ∧
      (∀ x ∈ rest.dropWhile (fun x => x.Key == k), k < x.Key) := by
  intro rest
  induction rest with
  | nil => intro _ _; simp
  | cons y ys ih =>
    intro hk hs
    have hys := ih (fun x hx => hk x (List.mem_cons_of_mem _ hx)) (List.Pairwise.of_cons hs)
    by_cases hy : y.Key = k
    · have hb : (y.Key == k) = true := by simp [hy]
      simp only [List.takeWhile_cons, List.dropWhile_cons, hb, if_true]
      refine ⟨?_, hys.2⟩
      intro x hx
      rcases List.mem_cons.1 hx with h | h
      · rw [h]; exact hy
      · exact hys.1 x h
    · have hb : (y.Key == k) = false := by simp [hy]
      simp only [List.takeWhile_cons, List.dropWhile_cons, hb, Bool.false_eq_true, if_false]
      refine ⟨by simp, ?_⟩
      have hky : k < y.Key := lt_of_le_of_ne (hk y (List.mem_cons_self _ _)) (Ne.symm hy)
      intro x hx
      rcases List.mem_cons.1 hx with h | h
      · rw [h]; exact hky
      · exact lt_of_lt_of_le hky (List.rel_of_pairwise_cons hs h)

/-- Filtering a key-sorted list `kv :: rest` by a key: for the key of `kv` the result
is `kv` and the leading run of `rest`; for a larger key only what follows the run
matters. -/
theorem WorkReduce.filter_split_bytes (kv : KeyValue) (rest : List KeyValue)
    (hs : (kv :: rest).Pairwise (fun a b => a.Key ≤ b.Key)) :
    (kv :: rest).filter (fun x => x.Key == kv.Key) =
        kv :: rest.takeWhile (fun x => x.Key == kv.Key) ∧
    ∀ k : GoString, kv.Key < k →
      (kv :: rest).filter (fun x => x.Key == k) =
        (rest.dropWhile (fun x => x.Key == kv.Key)).filter (fun x => x.Key == k) := by
  obtain ⟨hrun, htl⟩ := WorkReduce.run_split_bytes kv.Key rest
    (fun x hx => List.rel_of_pairwise_cons hs hx) (List.Pairwise.of_cons hs)
  have hsplit : rest.takeWhile (fun x => x.Key == kv.Key)
      ++ rest.dropWhile (fun x => x.Key == kv.Key) = rest :=
    List.takeWhile_append_dropWhile _ rest
  constructor
  · have h1 : (rest.takeWhile (fun x => x.Key == kv.Key)).filter (fun x => x.Key == kv.Key)
        = rest.takeWhile (fun x => x.Key == kv.Key) :=
      List.filter_eq_self.2 (fun x hx => by simp [hrun x hx])
    have h2 : (rest.dropWhile (fun x => x.Key == kv.Key)).filter (fun x => x.Key == kv.Key)
        = [] :=
      List.filter_eq_nil_iff.2 (fun x hx => by simp [ne_of_gt (htl x hx)])
    have h3 : rest.filter (fun x => x.Key == kv.Key)
        = rest.takeWhile (fun x => x.Key == kv.Key) := by
      calc rest.filter (fun x => x.Key == kv.Key)
          = (rest.takeWhile (fun x => x.Key == kv.Key)
              ++ rest.dropWhile (fun x => x.Key == kv.Key)).filter
                (fun x => x.Key == kv.Key) := by rw [hsplit]
        _ = rest.takeWhile (fun x => x.Key == kv.Key) := by
            rw [List.filter_append, h1, h2, List.append_nil]
    rw [List.filter_cons, h3]
    simp
  · intro k hk
    have hne : ¬ kv.Key = k := ne_of_lt hk
    have h1 : (rest.takeWhile (fun x => x.Key == kv.Key)).filter (fun x => x.Key == k)
        = [] :=
      List.filter_eq_nil_iff.2 (fun x hx => by simp [hrun x hx, hne])
    calc (kv :: rest).filter (fun x => x.Key == k)
        = rest.filter (fun x => x.Key == k) := by
          rw [List.filter_cons]; simp [hne]
      _ = (rest.takeWhile (fun x => x.Key == kv.Key)
            ++ rest.dropWhile (fun x => x.Key == kv.Key)).filter (fun x => x.Key == k) := by
          rw [hsplit]
      _ = (rest.dropWhile (fun x => x.Key == kv.Key)).filter (fun x => x.Key == k) := by
          rw [List.filter_append, h1, List.nil_append]

/-- The grouping loop on a key-sorted list, with fuel at least its length: the keys of
the calls are keys of the list, strictly ascending, every key of the list gets a
call, and the values of a call are the values of all pairs with its key, in list
order. -/
theorem WorkReduce.groups_spec_bytes :
    ∀ (n : Nat) (l : List KeyValue), l.length ≤ n →
      l.Pairwise (fun a b => a.Key ≤ b.Key) →
      (∀ g ∈ WorkReduce.groups n l, ∃ x ∈ l, x.Key = g.1) ∧
      ((WorkReduce.groups n l).map Prod.fst).Pairwise (fun a b => a < b) ∧
      (∀ x ∈ l, x.Key ∈ (WorkReduce.groups n l).map Prod.fst) ∧
      (∀ g ∈ WorkReduce.groups n l,
        g.2 = (l.filter (fun kv => kv.Key == g.1)).map KeyValue.Value) := by
  intro n
  induction n with
  | zero =>
    intro l hn _
    have hl : l = [] := List.length_eq_zero.1 (Nat.le_zero.1 hn)
    subst hl
    simp [WorkReduce.groups]
  | succ n ih =>
    intro l hn hs
    cases l with
    | nil => simp [WorkReduce.groups]
    | cons kv rest =>
      obtain ⟨-, htl⟩ := WorkReduce.run_split_bytes kv.Key rest
        (fun x hx => List.rel_of_pairwise_cons hs hx) (List.Pairwise.of_cons hs)
      obtain ⟨hf1, hf2⟩ := WorkReduce.filter_split_bytes kv rest hs
      have hsub : (rest.dropWhile (fun x => x.Key == kv.Key)).Sublist rest :=
        List.dropWhile_sublist _
      have hlen : (rest.dropWhile (fun x => x.Key == kv.Key)).length ≤ n := by
        have := hsub.length_le
        simp only [List.length_cons, Nat.add_le_add_iff_right] at hn
        omega
      obtain ⟨i1, i2, i3, i4⟩ := ih (rest.dropWhile (fun x => x.Key == kv.Key)) hlen
        ((List.Pairwise.of_cons hs).sublist hsub)
      have hgt : ∀ g ∈ WorkReduce.groups n (rest.dropWhile (fun x => x.Key == kv.Key)),
          kv.Key < g.1 := by
        intro g hg
        obtain ⟨x, hx, hxk⟩ := i1 g hg
        rw [← hxk]
        exact htl x hx
      have hunf : WorkReduce.groups (n + 1) (kv :: rest) =
          (kv.Key, (kv :: rest.takeWhile (fun x => x.Key == kv.Key)).map KeyValue.Value)
            :: WorkReduce.groups n (rest.dropWhile (fun x => x.Key == kv.Key)) := rfl
      rw [hunf]
      refine ⟨?_, ?_, ?_, ?_⟩
      · intro g hg
        rcases List.mem_cons.1 hg with h | h
        · exact ⟨kv, List.mem_cons_self _ _, by rw [h]⟩
        · obtain ⟨x, hx, hxk⟩ := i1 g h
          exact ⟨x, List.mem_cons_of_mem _ (hsub.subset hx), hxk⟩
      · rw [List.map_cons, List.pairwise_cons]
        refine ⟨?_, i2⟩
        intro k hk
        obtain ⟨g, hg, hgk⟩ := List.mem_map.1 hk
        rw [← hgk]
        exact hgt g hg
      · intro x hx
        rw [List.map_cons]
        by_cases hxk : x.Key = kv.Key
        · rw [hxk]; exact List.mem_cons_self _ _
        · rcases List.mem_cons.1 hx with h | h
          · exact absurd (by rw [h]) hxk
          · have hxr : x ∈ rest.takeWhile (fun x => x.Key == kv.Key)
                ++ rest.dropWhile (fun x => x.Key == kv.Key) := by
              rw [List.takeWhile_append_dropWhile]; exact h
            rcases List.mem_append.1 hxr with h1 | h1
            · have := List.mem_takeWhile_imp h1
              simp only [beq_iff_eq] at this
              exact absurd this hxk
            · exact List.mem_cons_of_mem _ (i3 x h1)
      · intro g hg
        rcases List.mem_cons.1 hg with h | h
        · rw [h]
          show _ = ((kv :: rest).filter (fun x => x.Key == kv.Key)).map KeyValue.Value
          rw [hf1]
        · rw [hf2 g.1 (hgt g h)]
          exact i4 g h

theorem ihash_nonneg_bytes (key : GoString) : 0 ≤ ihash key := by
  unfold ihash
  exact Int.ofNat_nonneg _

theorem WorkMap.toFileIndex_bounds_bytes (key : GoString) {R : Int} (hR : 0 < R) :
    0 ≤ WorkMap.toFileIndex key R ∧ WorkMap.toFileIndex key R < R :=
  ⟨Int.tmod_nonneg R (ihash_nonneg_bytes key), Int.tmod_lt_of_pos _ hR⟩

theorem WorkMap.write_spec_bytes {ρ : Type} (encode : KeyValue → ρ) {R : Int} (hR : 0 < R) :
    ∀ (kva : List KeyValue) (fileEnc : Nat → List ρ),
      ∃ fileEnc1, WorkMap.write encode R kva fileEnc = .ok fileEnc1 ∧
        ∀ i : Nat, fileEnc1 i = fileEnc i ++ (kva.filter (inPartition R i)).map encode := by
  intro kva
  induction kva with
  | nil => intro fileEnc; exact ⟨fileEnc, rfl, fun i => by simp⟩
  | cons kv rest ih =>
    intro fileEnc
    have hb := WorkMap.toFileIndex_bounds_bytes kv.Key hR
    obtain ⟨fe1, h1, h2⟩ := ih
      (Function.update fileEnc (WorkMap.toFileIndex kv.Key R).toNat
        (fileEnc (WorkMap.toFileIndex kv.Key R).toNat ++ [encode kv]))
    refine ⟨fe1, ?_, fun i => ?_⟩
    · unfold WorkMap.write
      rw [if_neg (ne_of_gt hR), if_pos hb]
      exact h1
    · rw [h2 i]
      by_cases hi : WorkMap.toFileIndex kv.Key R = (i : Int)
      · have hnat : (WorkMap.toFileIndex kv.Key R).toNat = i := by rw [hi]; rfl
        have hp : inPartition R i kv = true := by simp [inPartition, hi]
        rw [hnat, Function.update_same, List.filter_cons, if_pos hp, List.map_cons,
          List.append_assoc]
        rfl
      · have hnat : i ≠ (WorkMap.toFileIndex kv.Key R).toNat := by
          intro h
          apply hi
          rw [h, Int.toNat_of_nonneg hb.1]
        have hp : ¬ inPartition R i kv = true := by simp [inPartition, hi]
        rw [Function.update_noteq hnat, List.filter_cons, if_neg hp]

theorem WorkMap_spec_bytes {ρ : Type} (sort : List KeyValue → List KeyValue)
    (mapf : GoString → GoString → List KeyValue) (encode : KeyValue → ρ) {R : Int} (hR : 0 < R)
    (filename content : GoString) :
    ∃ fileEnc, WorkMap sort mapf encode R filename content = .ok fileEnc ∧
      ∀ i : Nat, fileEnc i =
        ((sort (mapf filename content)).filter (inPartition R i)).map encode := by
  obtain ⟨fe, h1, h2⟩ := WorkMap.write_spec_bytes encode hR (sort (mapf filename content))
    (fun _ => [])
  refine ⟨fe, ?_, fun i => by rw [h2 i]; rfl⟩
  unfold WorkMap
  rw [if_neg (not_lt.2 (le_of_lt hR))]
  exact h1

theorem WorkReduce.readFile_encode_bytes {ρ : Type} {encode : KeyValue → ρ}
    {decode : ρ → Option KeyValue} (hjson : JsonCoerces encode decode)
    (l : List KeyValue) :
    WorkReduce.readFile decode (l.map encode) = l.map json.roundTrip := by
  induction l with
  | nil => rfl
  | cons kv rest ih =>
    rw [List.map_cons]
    unfold WorkReduce.readFile
    rw [hjson kv]
    simp only [ih, List.map_cons]

theorem runMaps_spec_bytes {ρ : Type} (sort : List KeyValue → List KeyValue)
    (mapf : GoString → GoString → List KeyValue) (encode : KeyValue → ρ) {R : Int} (hR : 0 < R)
    (finished : List (GoString × GoString)) :
    ∃ maps, runMaps sort mapf encode R finished = .ok maps ∧
      ∀ i : Nat, maps.map (fun fileEnc => fileEnc i) =
        finished.map (fun f => ((sort (mapf f.1 f.2)).filter (inPartition R i)).map encode) := by
  induction finished with
  | nil => exact ⟨[], rfl, fun _ => rfl⟩
  | cons f rest ih =>
    obtain ⟨maps, h1, h2⟩ := ih
    obtain ⟨fe, g1, g2⟩ := WorkMap_spec_bytes sort mapf encode hR f.1 f.2
    refine ⟨fe :: maps, ?_, fun i => ?_⟩
    · unfold runMaps
      simp only [g1, h1]
    · rw [List.map_cons, List.map_cons, h2 i, g2 i]

theorem flatMap_congr_mem {α β : Type} {f g : α → List β} :
    ∀ {l : List α}, (∀ a ∈ l, f a = g a) → l.flatMap f = l.flatMap g := by
  intro l
  induction l with
  | nil => intro _; rfl
  | cons a rest ih =>
    intro h
    rw [List.flatMap_cons, List.flatMap_cons, h a (List.mem_cons_self _ _),
      ih (fun b hb => h b (List.mem_cons_of_mem _ hb))]

/-- What reduce task `i` reads when every emitted string is valid UTF-8: the pairs of
partition `i` of every finished map task, in the order the map tasks finished, each
task's pairs in sorted order. -/
theorem readAll_runMaps_bytes {ρ : Type} (sort : List KeyValue → List KeyValue)
    (hsort : SortsByKey sort)
    (mapf : GoString → GoString → List KeyValue) {encode : KeyValue → ρ}
    {decode : ρ → Option KeyValue} (hjson : JsonCoerces encode decode) {R : Int}
    (hR : 0 < R) (finished : List (GoString × GoString))
    (hutf : EmitsValidUTF8 mapf finished) :
    ∃ maps, runMaps sort mapf encode R finished = .ok maps ∧
      ∀ i : Nat, WorkReduce.readAll decode (maps.map (fun fileEnc => fileEnc i)) =
        finished.flatMap (fun f => (sort (mapf f.1 f.2)).filter (inPartition R i)) := by
  obtain ⟨maps, h1, h2⟩ := runMaps_spec_bytes sort mapf encode hR finished
  refine ⟨maps, h1, fun i => ?_⟩
  unfold WorkReduce.readAll
  rw [h2 i, List.flatMap_map]
  simp only [WorkReduce.readFile_encode_bytes hjson]
  refine flatMap_congr_mem (fun f hf => ?_)
  refine (List.map_congr_left (fun kv hkv => ?_)).trans (List.map_id _)
  exact hutf f hf kv ((hsort (mapf f.1 f.2)).1.mem_iff.1 (List.mem_filter.1 hkv).1)

theorem partition_input_perm_bytes (sort : List KeyValue → List KeyValue) (hsort : SortsByKey sort)
    (mapf : GoString → GoString → List KeyValue) (R : Int) (i : Nat)
    {files finished : List (GoString × GoString)} (hfin : finished.Perm files) :
    (finished.flatMap (fun f => (sort (mapf f.1 f.2)).filter (inPartition R i))).Perm
      ((files.flatMap (fun f => mapf f.1 f.2)).filter (inPartition R i)) := by
  have h1 : (finished.flatMap (fun f => (sort (mapf f.1 f.2)).filter (inPartition R i))).Perm
      (finished.flatMap (fun f => (mapf f.1 f.2).filter (inPartition R i))) :=
    List.Perm.flatMap_left finished (fun f _ => (hsort (mapf f.1 f.2)).1.filter _)
  have h2 : (finished.flatMap (fun f => (mapf f.1 f.2).filter (inPartition R i))).Perm
      (files.flatMap (fun f => (mapf f.1 f.2).filter (inPartition R i))) :=
    List.Perm.flatMap_right _ hfin
  rw [List.filter_flatMap]
  exact h1.trans h2

/-- Lines of the reduce step, one per key of the input in strictly ascending order,
with the values of each key taken from any list `base` that holds, for the keys of
the input, the same values as the input up to order. -/
theorem WorkReduce_lines_bytes (sort : List KeyValue → List KeyValue) (hsort : SortsByKey sort)
    (reducef : GoString → List GoString → GoString) (hred : OrderIndependent reducef)
    (input base : List KeyValue)
    (hbase : ∀ k ∈ input.map KeyValue.Key, (valuesOf input k).Perm (valuesOf base k)) :
    WorkReduce sort reducef input =
        (WorkReduce.keys sort input).map
          (fun k => WorkReduce.line k (reducef k (valuesOf base k))) ∧
      (WorkReduce.keys sort input).Pairwise (fun a b => a < b) ∧
      ∀ k, k ∈ WorkReduce.keys sort input ↔ k ∈ input.map KeyValue.Key := by
  obtain ⟨hperm, hpw⟩ := hsort input
  have hs : (sort input).Pairwise (fun a b => a.Key ≤ b.Key) := by
    refine List.Pairwise.imp ?_ hpw
    intro a b hab
    exact not_lt.1 hab
  obtain ⟨g1, g2, g3, g4⟩ :=
    WorkReduce.groups_spec_bytes (sort input).length (sort input) le_rfl hs
  have hmem : ∀ k, k ∈ WorkReduce.keys sort input ↔ k ∈ input.map KeyValue.Key := by
    intro k
    constructor
    · intro hk
      obtain ⟨g, hg, hgk⟩ := List.mem_map.1 hk
      obtain ⟨x, hx, hxk⟩ := g1 g hg
      exact List.mem_map.2 ⟨x, hperm.mem_iff.1 hx, hxk.trans hgk⟩
    · intro hk
      obtain ⟨x, hx, hxk⟩ := List.mem_map.1 hk
      rw [← hxk]
      exact g3 x (hperm.mem_iff.2 hx)
  refine ⟨?_, g2, hmem⟩
  unfold WorkReduce WorkReduce.keys
  simp only
  rw [List.map_map]
  refine List.map_congr_left (fun g hg => ?_)
  have hk : g.1 ∈ input.map KeyValue.Key := (hmem g.1).1 (List.mem_map_of_mem Prod.fst hg)
  have hv : g.2.Perm (valuesOf base g.1) := by
    rw [g4 g hg]
    exact ((hperm.filter _).map _).trans (hbase g.1 hk)
  show WorkReduce.line g.1 (reducef g.1 g.2) = WorkReduce.line g.1 (reducef g.1 _)
  rw [hred g.1 _ _ hv]

theorem mem_partitionInput_keys_bytes (sort : List KeyValue → List KeyValue)
    (hsort : SortsByKey sort) (mapf : GoString → GoString → List KeyValue) (R : Int) (i : Nat)
    {files finished : List (GoString × GoString)} (hfin : finished.Perm files) (k : GoString) :
    k ∈ (partitionInput sort mapf R finished i).map KeyValue.Key ↔
      k ∈ (allPairs mapf files).map KeyValue.Key ∧ WorkMap.toFileIndex k R = (i : Int) := by
  have hp := partition_input_perm_bytes sort hsort mapf R i hfin
  constructor
  · intro hk
    obtain ⟨x, hx, hxk⟩ := List.mem_map.1 hk
    have hx1 := List.mem_filter.1 (hp.mem_iff.1 hx)
    refine ⟨List.mem_map.2 ⟨x, hx1.1, hxk⟩, ?_⟩
    have := hx1.2
    simp only [inPartition, decide_eq_true_eq] at this
    rw [← hxk]
    exact this
  · rintro ⟨hk, hidx⟩
    obtain ⟨x, hx, hxk⟩ := List.mem_map.1 hk
    refine List.mem_map.2 ⟨x, hp.mem_iff.2 (List.mem_filter.2 ⟨hx, ?_⟩), hxk⟩
    simp only [inPartition, decide_eq_true_eq]
    rw [hxk]
    exact hidx

theorem valuesOf_partitionInput_bytes (sort : List KeyValue → List KeyValue)
    (hsort : SortsByKey sort) (mapf : GoString → GoString → List KeyValue) (R : Int) (i : Nat)
    {files finished : List (GoString × GoString)} (hfin : finished.Perm files) (k : GoString)
    (hk : k ∈ (partitionInput sort mapf R finished i).map KeyValue.Key) :
    (valuesOf (partitionInput sort mapf R finished i) k).Perm
      (valuesOf (allPairs mapf files) k) := by
  have hidx := ((mem_partitionInput_keys_bytes sort hsort mapf R i hfin k).1 hk).2
  have hp := partition_input_perm_bytes sort hsort mapf R i hfin
  have h1 : (valuesOf (partitionInput sort mapf R finished i) k).Perm
      ((((files.flatMap (fun f => mapf f.1 f.2)).filter (inPartition R i)).filter
        (fun kv => kv.Key == k)).map KeyValue.Value) :=
    (hp.filter _).map _
  have h2 : ((files.flatMap (fun f => mapf f.1 f.2)).filter (inPartition R i)).filter
      (fun kv => kv.Key == k) =
      (files.flatMap (fun f => mapf f.1 f.2)).filter (fun kv => kv.Key == k) := by
    rw [List.filter_filter]
    refine List.filter_congr (fun x _ => ?_)
    by_cases hx : x.Key = k
    · simp [inPartition, hx, hidx]
    · simp [hx]
  rw [h2] at h1
  exact h1

/-- The distributed run returns when there is at least one partition; output `i`
holds one line per key of partition `i`, the keys in strictly ascending order, each
line computed from the values the key has among all intermediate pairs; and the
keys of partition `i` are the keys of the run whose partition index is `i`. -/
theorem distributed_core_bytes {ρ : Type} (sort : List KeyValue → List KeyValue)
    (hsort : SortsByKey sort) (mapf : GoString → GoString → List KeyValue)
    (reducef : GoString → List GoString → GoString) (hred : OrderIndependent reducef)
    (encode : KeyValue → ρ) (decode : ρ → Option KeyValue)
    (hjson : JsonCoerces encode decode) (R : Int) (hR : 0 < R)
    (files finished : List (GoString × GoString)) (hfin : finished.Perm files)
    (hutf : EmitsValidUTF8 mapf files) :
    distributed sort mapf reducef encode decode R finished =
        .ok ((List.range R.toNat).map (fun i =>
          (WorkReduce.keys sort (partitionInput sort mapf R finished i)).map
            (fun k => WorkReduce.line k (reducef k (valuesOf (allPairs mapf files) k))))) ∧
      ∀ i : Nat,
        (WorkReduce.keys sort (partitionInput sort mapf R finished i)).Pairwise
            (fun a b => a < b) ∧
        ∀ k, k ∈ WorkReduce.keys sort (partitionInput sort mapf R finished i) ↔
          k ∈ (allPairs mapf files).map KeyValue.Key ∧
            WorkMap.toFileIndex k R = (i : Int) := by
  obtain ⟨maps, h1, h2⟩ := readAll_runMaps_bytes sort hsort mapf hjson hR finished
    (fun f hf => hutf f (hfin.mem_iff.1 hf))
  have hl : ∀ i : Nat, _ := fun i =>
    WorkReduce_lines_bytes sort hsort reducef hred (partitionInput sort mapf R finished i)
      (allPairs mapf files)
      (fun k hk => valuesOf_partitionInput_bytes sort hsort mapf R i hfin k hk)
  refine ⟨?_, fun i => ⟨(hl i).2.1, fun k => ?_⟩⟩
  · unfold distributed
    rw [h1]
    simp only [h2]
    congr 1
    refine List.map_congr_left (fun i _ => ?_)
    exact (hl i).1
  · rw [(hl i).2.2 k]
    exact mem_partitionInput_keys_bytes sort hsort mapf R i hfin k

/-- The keys of all partitions together are the keys of the whole run, each once. -/
theorem partition_keys_perm_bytes (mapf : GoString → GoString → List KeyValue) (R : Int) (hR : 0 < R)
    (files : List (GoString × GoString)) (ks : List GoString) (hks : ks.Nodup)
    (hmem : ∀ k, k ∈ ks ↔ k ∈ (allPairs mapf files).map KeyValue.Key)
    (K : Nat → List GoString) (hK1 : ∀ i, (K i).Pairwise (fun a b => a < b))
    (hK2 : ∀ i k, k ∈ K i ↔
      k ∈ (allPairs mapf files).map KeyValue.Key ∧ WorkMap.toFileIndex k R = (i : Int)) :
    ((List.range R.toNat).flatMap K).Perm ks := by
  have hnd : ((List.range R.toNat).flatMap K).Nodup := by
    rw [List.nodup_flatMap]
    refine ⟨fun i _ => ?_, ?_⟩
    · exact (hK1 i).imp (fun h => ne_of_lt h)
    · refine (List.nodup_range _).pairwise_of_forall_ne (fun i _ j _ hij => ?_)
      intro k hki hkj
      have e1 := ((hK2 i k).1 hki).2
      have e2 := ((hK2 j k).1 hkj).2
      exact hij (by exact_mod_cast e1.symm.trans e2)
  refine (List.perm_ext_iff_of_nodup hnd hks).2 (fun k => ?_)
  rw [hmem k, List.mem_flatMap]
  constructor
  · rintro ⟨i, -, hk⟩
    exact ((hK2 i k).1 hk).1
  · intro hk
    have hb := WorkMap.toFileIndex_bounds_bytes k hR
    refine ⟨(WorkMap.toFileIndex k R).toNat, ?_, ?_⟩
    · rw [List.mem_range, Int.lt_toNat, Int.toNat_of_nonneg hb.1]
      exact hb.2
    · exact (hK2 _ k).2 ⟨hk, (Int.toNat_of_nonneg hb.1).symm⟩

/-- On byte strings, for a map callable that emits only valid UTF-8: the distributed
run returns R outputs whose lines, taken together, are a rearrangement of the lines
of the sequential runner. -/
theorem distributed_perm_sequential_bytes {ρ : Type} (sort : List KeyValue → List KeyValue)
    (hsort : SortsByKey sort) (mapf : GoString → GoString → List KeyValue)
    (reducef : GoString → List GoString → GoString) (hred : OrderIndependent reducef)
    (encode : KeyValue → ρ) (decode : ρ → Option KeyValue)
    (hjson : JsonCoerces encode decode) (R : Int) (hR : 0 < R)
    (files finished : List (GoString × GoString)) (hfin : finished.Perm files)
    (hutf : EmitsValidUTF8 mapf files) :
    ∃ outs, distributed sort mapf reducef encode decode R finished = .ok outs ∧
      outs.length = R.toNat ∧
      outs.flatten.Perm (mrsequential sort mapf reducef files) := by
  obtain ⟨hd, hK⟩ := distributed_core_bytes sort hsort mapf reducef hred encode decode hjson
    R hR files finished hfin hutf
  obtain ⟨hs1, hs2, hs3⟩ := WorkReduce_lines_bytes sort hsort reducef hred (allPairs mapf files)
    (allPairs mapf files) (fun k _ => List.Perm.refl _)
  refine ⟨_, hd, by simp, ?_⟩
  have hseq : mrsequential sort mapf reducef files =
      WorkReduce sort reducef (allPairs mapf files) := rfl
  rw [hseq, hs1, flatten_map_map]
  refine List.Perm.map _ ?_
  exact partition_keys_perm_bytes mapf R hR files _ (hs2.imp (fun h => ne_of_lt h)) hs3 _
    (fun i => (hK i).1) (fun i k => (hK i).2 k)

theorem countReduce_orderIndependent : OrderIndependent countReduce := by
  intro key values values1 h
  unfold countReduce
  rw [h.length_eq]

end raw

/-! ## The distributed run and the sequential runner on byte strings -/

/-- C20 (as stated, refuted): the map callable `twoBadKeysMap` emits the keys
`"\\xff"` and `"\\xfe"`, which are not valid UTF-8. On one input file and with one
partition the sequential runner groups them as two keys and writes two lines,
`"\\xfe 1"` and `"\\xff 1"`. In the distributed run the pairs pass through the JSON
intermediate file, which turns both keys into U+FFFD, so the reduce step sees one
key with two values and writes the single line `"\\ufffd 2"`. The reduce callable
counts its values, so it does not depend on their order; the sort and the JSON
encoder and decoder meet their contracts. -/
theorem distributed_differs_on_invalid_utf8 :
    raw.SortsByKey raw.sortByKey ∧ raw.OrderIndependent raw.countReduce ∧
    raw.JsonCoerces raw.json.roundTrip some ∧ (0 : Int) < 1 ∧
    raw.mrsequential raw.sortByKey raw.twoBadKeysMap raw.countReduce
        [({ bytes := [97, 46, 116, 120, 116] }, { bytes := [] })] =
      [[0xFE, 32, 49, 10], [0xFF, 32, 49, 10]] ∧
    raw.distributed raw.sortByKey raw.twoBadKeysMap raw.countReduce raw.json.roundTrip some 1
        [({ bytes := [97, 46, 116, 120, 116] }, { bytes := [] })] =
      .ok [[[0xEF, 0xBF, 0xBD, 32, 50, 10]]] ∧
    ¬ ([[[0xEF, 0xBF, 0xBD, 32, 50, 10]]] : List (List (List Nat))).flatten.Perm
        [[0xFE, 32, 49, 10], [0xFF, 32, 49, 10]] :=
  ⟨raw.sortByKey_sorts_bytes, raw.countReduce_orderIndependent, fun _ => rfl, by decide,
   by decide, rfl, by decide⟩

/-- C20 (amended): for every map callable that emits only valid UTF-8 keys and values
on the input files (strings that the JSON coercion leaves as they are), every reduce
callable whose result does not depend on the order of its values, every list of
input files and every R > 0 (with a library sort and a JSON encoder and decoder that
meet their contracts, and the map tasks finishing in any order), the distributed run
returns R outputs, and the lines of all outputs together are a rearrangement of the
lines the sequential runner writes: the two multisets of lines are equal. -/
theorem distributed_refines_sequential {ρ : Type}
    (sort : List raw.KeyValue → List raw.KeyValue) (hsort : raw.SortsByKey sort)
    (mapf : GoString → GoString → List raw.KeyValue)
    (reducef : GoString → List GoString → GoString) (hred : raw.OrderIndependent reducef)
    (encode : raw.KeyValue → ρ) (decode : ρ → Option raw.KeyValue)
    (hjson : raw.JsonCoerces encode decode) (R : Int) (hR : 0 < R)
    (files finished : List (GoString × GoString)) (hfin : finished.Perm files)
    (hutf : raw.EmitsValidUTF8 mapf files) :
    ∃ outs, raw.distributed sort mapf reducef encode decode R finished = .ok outs ∧
      outs.length = R.toNat ∧
      outs.flatten.Perm (raw.mrsequential sort mapf reducef files) :=
  raw.distributed_perm_sequential_bytes sort hsort mapf reducef hred encode decode hjson R hR
    files finished hfin hutf

/-- Witness for C20 (amended): `distributed_refines_sequential` for the map callable
`threeWordsMap` (keys "the", "né", "the") and the counting reduce callable on the
files a and b with two partitions, the map tasks finishing in the order b, a. The
key "the" goes to partition 0 and "né" to partition 1; the sequential runner writes
the same two lines in the other order. -/
theorem distributed_refines_sequential_witness :
    (raw.SortsByKey raw.sortByKey ∧ raw.OrderIndependent raw.countReduce ∧
      raw.JsonCoerces raw.json.roundTrip some ∧ (0 : Int) < 2 ∧
      ([({ bytes := [98] }, { bytes := [] }), ({ bytes := [97] }, { bytes := [] })] :
          List (GoString × GoString)).Perm
        [({ bytes := [97] }, { bytes := [] }), ({ bytes := [98] }, { bytes := [] })] ∧
      raw.EmitsValidUTF8 raw.threeWordsMap
        [({ bytes := [97] }, { bytes := [] }), ({ bytes := [98] }, { bytes := [] })] ∧
      raw.distributed raw.sortByKey raw.threeWordsMap raw.countReduce raw.json.roundTrip some 2
          [({ bytes := [98] }, { bytes := [] }), ({ bytes := [97] }, { bytes := [] })] =
        .ok [[[116, 104, 101, 32, 52, 10]], [[110, 0xC3, 0xA9, 32, 50, 10]]] ∧
      raw.mrsequential raw.sortByKey raw.threeWordsMap raw.countReduce
          [({ bytes := [97] }, { bytes := [] }), ({ bytes := [98] }, { bytes := [] })] =
        [[110, 0xC3, 0xA9, 32, 50, 10], [116, 104, 101, 32, 52, 10]]) ∧
    ∃ outs, raw.distributed raw.sortByKey raw.threeWordsMap raw.countReduce
          raw.json.roundTrip some 2
          [({ bytes := [98] }, { bytes := [] }), ({ bytes := [97] }, { bytes := [] })]
        = .ok outs ∧
      outs.length = (2 : Int).toNat ∧
      outs.flatten.Perm (raw.mrsequential raw.sortByKey raw.threeWordsMap raw.countReduce
        [({ bytes := [97] }, { bytes := [] }), ({ bytes := [98] }, { bytes := [] })]) :=
  ⟨⟨raw.sortByKey_sorts_bytes, raw.countReduce_orderIndependent, fun _ => rfl, by decide,
    List.Perm.swap _ _ _, by decide, rfl, by decide⟩,
   distributed_refines_sequential raw.sortByKey raw.sortByKey_sorts_bytes raw.threeWordsMap
     raw.countReduce raw.countReduce_orderIndependent raw.json.roundTrip some (fun _ => rfl)
     2 (by decide)
     [({ bytes := [97] }, { bytes := [] }), ({ bytes := [98] }, { bytes := [] })]
     [({ bytes := [98] }, { bytes := [] }), ({ bytes := [97] }, { bytes := [] })]
     (List.Perm.swap _ _ _) (by decide)⟩

end mr
